import Mathlib

/-!
# piloth: the crash-safe job queue, the event spool, the ping payload and the telemetry backoff

A shallow embedding of `core/jobs.go`, `core/submit.go`, `core/events.go`, `core/pilotctl.go`
(`Ping`) and `core/processor.go` (`backoffTime`).  `core/worker.go` is not among the sources:
where the worker is needed it is a parameter, or it is modelled from the specification.

Modelling conventions.

* The three spool directories `<root>/data`, `<root>/data/process` and `<root>/data/submit` are
  lists of directory entries; a Go function that touches them becomes a function from the
  file-system state to the new state and the Go results.
* The file system is fault free: a call fails only for a reason the model tracks (a name that is
  absent, a directory where a file is expected, a non-empty directory to remove).  Reading one of
  the three directories never fails.
* The modification time given to a written file is the explicit argument `now`.
* `encoding/json` and `sort.Slice` are library code: they are taken as parameters (`Json`,
  `SliceSorter`).  `goSorter` is the insertion sort that `sort.Slice` runs on short slices.
* `int64` job ids are integers; no arithmetic is done on them.
-/

namespace Piloth

/-! ## The file system -/

/-- One directory entry: what `os.FileInfo` shows of it (`Name`, `ModTime().UnixNano()`, `IsDir`)
and its content.  For a directory, `bytes` stands for its listing: it is empty exactly when the
directory is empty. -/
structure FileInfo where
  name : String
  modTime : Int
  isDir : Bool
  bytes : String
deriving DecidableEq

/-- A directory: its entries, in no particular order. -/
abbrev Dir := List FileInfo

/-- The part of the file system under `$PILOT_HOME` the agent works on: `dataDir`, `processDir`
and `submitDir` of `jobs.go`. -/
structure FS where
  data : Dir
  process : Dir
  submit : Dir
deriving DecidableEq

/-- Errors, by the place that raises them. -/
inductive Err where
  | notExist (name : String)
  | isDirectory (name : String)
  | notEmpty (name : String)
  | emptyJob (name : String)
  | corruptJob (name : String)
  | corruptJobNoId (name : String)
  | json
  | transport
  | status (code : Int)
  | pingResponse
deriving DecidableEq

deriving instance DecidableEq for Except

/-- Names are unique within a directory. -/
def Dir.WF (d : Dir) : Prop := (d.map FileInfo.name).Nodup

/-- Lookup of a name in a directory. -/
def Dir.lookup (d : Dir) (name : String) : Option FileInfo :=
  d.find? (fun e => decide (e.name = name))

/-- Go `os.Stat(path)`: `err == nil`. -/
def osStat (d : Dir) (name : String) : Bool :=
  (d.lookup name).isSome

/-- Go `os.ReadFile(path)`. -/
def osReadFile (d : Dir) (name : String) : Except Err String :=
  match d.lookup name with
  | none => .error (.notExist name)
  | some e => if e.isDir then .error (.isDirectory name) else .ok e.bytes

/-- The entry `x` after the file `name` has been rewritten. -/
def rewrite (name : String) (bytes : String) (now : Int) (x : FileInfo) : FileInfo :=
  if x.name = name then { x with modTime := now, bytes := bytes } else x

/-- Go `os.WriteFile(path, bytes, perm)`: creates the file or truncates and rewrites it. -/
def osWriteFile (d : Dir) (name : String) (bytes : String) (now : Int) : Except Err Dir :=
  match d.lookup name with
  | none => .ok (d ++ [{ name := name, modTime := now, isDir := false, bytes := bytes }])
  | some e => if e.isDir then .error (.isDirectory name) else .ok (d.map (rewrite name bytes now))

/-- Go `os.Remove(path)`: removes the named file or empty directory. -/
def osRemove (d : Dir) (name : String) : Except Err Dir :=
  match d.lookup name with
  | none => .error (.notExist name)
  | some e =>
    if e.isDir ∧ e.bytes ≠ "" then .error (.notEmpty name)
    else .ok (d.filter (fun x => decide (x.name ≠ name)))

/-! ## Paths and names -/

/-- The scan of Go `path.Ext`, from the last byte backwards: `rev` is what is left to scan,
reversed, and `acc` the suffix already passed. -/
def extScan : List Char → List Char → List Char
  | [], _ => []
  | c :: rev, acc =>
    if c = '/' then [] else if c = '.' then c :: acc else extScan rev (c :: acc)

/-- Go `path.Ext` (and `filepath.Ext`): the suffix beginning at the final dot in the final
slash-separated element of the path; empty if there is no dot. -/
def pathExt (p : String) : String := String.mk (extScan p.data.reverse [])

/-- Go `fmt.Sprintf("%d", n)` for an `int64`. -/
def fmtD (n : Int) : String :=
  match n with
  | .ofNat m => Nat.repr m
  | .negSucc m => "-" ++ Nat.repr (m + 1)

/-- Go `fmt.Sprintf("job_%d.job", jobId)`. -/
def jobFile (jobId : Int) : String := "job_" ++ fmtD jobId ++ ".job"

/-- Go `fmt.Sprintf("job_%d.started", jobId)`. -/
def startedFile (jobId : Int) : String := "job_" ++ fmtD jobId ++ ".started"

/-- Go `fmt.Sprintf("job_%d.submitted", jobId)`. -/
def submittedFile (jobId : Int) : String := "job_" ++ fmtD jobId ++ ".submitted"

/-- Go `fmt.Sprintf("job_%d.result", jobId)`. -/
def resultFile (jobId : Int) : String := "job_" ++ fmtD jobId ++ ".result"

/-- The name of the manifest of the event batch in flight, in the data dir. -/
def eventsJson : String := "events.json"

/-! ## Library code: sorting and JSON -/

/-- The less function `lsJobs` hands to `sort.Slice`:
`files[i].ModTime().UnixNano() <= files[j].ModTime().UnixNano()`. -/
def lessModTime (a b : FileInfo) : Bool := decide (a.modTime ≤ b.modTime)

/-- Go `sort.Slice(files, lessModTime)`, by its contract: the result is a rearrangement of the
slice in which modification times never decrease.  The order of entries with the same
modification time is left open. -/
structure SliceSorter where
  sort : List FileInfo → List FileInfo
  perm : ∀ l, List.Perm (sort l) l
  sorted : ∀ l, List.Pairwise (fun a b => a.modTime ≤ b.modTime) (sort l)

/-- One step of the insertion sort of Go `sort`: `x` moves left past the entries `y` of the
sorted prefix for which `less x y`; `rev` is that prefix, reversed. -/
def goInsert (less : FileInfo → FileInfo → Bool) (x : FileInfo) : List FileInfo → List FileInfo
  | [] => [x]
  | y :: rev => if less x y then y :: goInsert less x rev else x :: y :: rev

/-- The insertion sort that Go `sort.Slice` runs on a slice of at most 12 elements. -/
def goInsertionSort (less : FileInfo → FileInfo → Bool) (l : List FileInfo) : List FileInfo :=
  (l.foldl (fun rev x => goInsert less x rev) []).reverse

/-- The types of `pilotctl/types` the agent exchanges, by the fields this code uses.
`CmdInfo` is a command to run. -/
structure CmdInfo where
  JobId : Int
  Package : String
  Function : String
  Input : Option String
deriving DecidableEq

/-- Go `ctl.JobResult`: the outcome of a command. -/
structure JobResult where
  JobId : Int
  Success : Bool
  Output : String
  Error : String
deriving DecidableEq

/-- Go `ctl.Event`: one syslog event, kept as its decoded text. -/
structure Event where
  text : String
deriving DecidableEq

/-- Go `ctl.Events`. -/
structure Events where
  events : List Event
deriving DecidableEq

/-- Go `ctl.PingRequest` of `pilotctl/types`, by what the body of a ping can carry: a job
result, or a batch of events. -/
structure PingRequest where
  Result : Option JobResult
  Events : Option Events
deriving DecidableEq

/-- Go `ctl.PingResponse`: the commands the control plane hands out. -/
structure PingResponse where
  Commands : List CmdInfo
deriving DecidableEq

/-- Go `http.Response`, by what `Ping` reads of it. -/
structure Response where
  StatusCode : Int
  Body : String
deriving DecidableEq

/-- Go `encoding/json` at the types this code encodes and decodes.  `none` is a non-nil error.
`unmarshalResult` decodes into a nil `*JobResult`: the inner `none` is the pointer left nil
(the text `null`). -/
structure Json where
  unmarshalPing : String → Option PingResponse
  marshalCmd : CmdInfo → Option String
  unmarshalCmd : String → Option CmdInfo
  marshalResult : JobResult → Option String
  unmarshalResult : String → Option (Option JobResult)
  unmarshalEvent : String → Option Event
  marshalNames : List String → Option String
  unmarshalNames : String → Option (List String)

/-! ## jobs.go -/

/-- Go `Job`: the file of a queued command and the command decoded from it. -/
structure Job where
  file : FileInfo
  cmd : Option CmdInfo
deriving DecidableEq

/-- Go `lsJobs`: the entries of a folder, oldest modification time first. -/
def lsJobs (S : SliceSorter) (dir : Dir) : List FileInfo := S.sort dir

/-- Go `submittedMarkerExists`. -/
def submittedMarkerExists (fs : FS) (jobId : Int) : Bool :=
  osStat fs.data (submittedFile jobId)

/-- Go `startedMarker`. -/
def startedMarker (fs : FS) (job : Option Job) (now : Int) : FS × Option Err :=
  match job with
  | none => (fs, none)
  | some j =>
    match j.cmd with
    | none => (fs, none)
    | some c =>
      match osWriteFile fs.data (startedFile c.JobId) "" now with
      | .error e => (fs, some e)
      | .ok d => ({ fs with data := d }, none)

/-- Go `removeJob`: removes the submitted marker, then the job from the queue. -/
def removeJob (fs : FS) (jobId : Int) : FS × Option Err :=
  match osRemove fs.data (submittedFile jobId) with
  | .error e => (fs, some e)
  | .ok d =>
    match osRemove fs.process (jobFile jobId) with
    | .error e => ({ fs with data := d }, some e)
    | .ok p => ({ fs with data := d, process := p }, none)

/-- Go `addJob`. -/
def addJob (J : Json) (fs : FS) (cmd : CmdInfo) (now : Int) : FS × Option Err :=
  match J.marshalCmd cmd with
  | none => (fs, some .json)
  | some bytes =>
    match osWriteFile fs.process (jobFile cmd.JobId) bytes now with
    | .error e => (fs, some e)
    | .ok p => ({ fs with process := p }, none)

/-- The leftmost match of the regular expression `\d[\d,]*` in `s` (Go `FindString`); empty if
there is none. -/
def findJobIdString (s : String) : String :=
  String.mk ((s.data.dropWhile (fun c => !c.isDigit)).takeWhile (fun c => c.isDigit || c = ','))

/-- The digits of Go `strconv.ParseInt(s, 10, 64)` after the sign: the value, if every character
is a decimal digit. -/
def parseDigits : List Char → Nat → Option Nat
  | [], acc => some acc
  | c :: cs, acc => if c.isDigit then parseDigits cs (acc * 10 + (c.toNat - 48)) else none

/-- Go `strconv.ParseInt(s, 10, 64)`: an optional sign, then at least one digit; an error on any
other character and on a value outside the `int64` range. -/
def parseInt64 (s : String) : Option Int :=
  let (neg, ds) := match s.data with
    | '+' :: r => (false, r)
    | '-' :: r => (true, r)
    | r => (false, r)
  if ds = [] then none
  else match parseDigits ds 0 with
    | none => none
    | some v =>
      if neg then (if v ≤ 2 ^ 63 then some (-(v : Int)) else none)
      else (if v < 2 ^ 63 then some (v : Int) else none)

/-- The first regular file of a listing with the given extension. -/
def firstWithExt (ext : String) (files : List FileInfo) : Option FileInfo :=
  files.find? (fun f => !f.isDir && decide (pathExt f.name = ext))

/-- How the body of `peekJob` ends: it returns, or it calls `peekJob` again on a new state. -/
inductive PeekStep where
  | done (r : FS × Option Job × Option Err)
  | again (fs1 : FS)

/-- The body of Go `peekJob`, up to its recursive call.  The loop over the listing returns at
the first regular `.job` file. -/
def peekJobStep (S : SliceSorter) (J : Json) (now : Int) (fs : FS) : PeekStep :=
  match firstWithExt ".job" (lsJobs S fs.process) with
  | none => .done (fs, none, none)
  | some file =>
    match osReadFile fs.process file.name with
    | .error e => .done (fs, none, some e)
    | .ok bytes =>
      if bytes = "" then .done (fs, none, some (.emptyJob file.name))
      else
        match J.unmarshalCmd bytes with
        | none =>
          match parseInt64 (findJobIdString file.name) with
          | none =>
            .done (fs, some { file := file, cmd := none }, some (.corruptJobNoId file.name))
          | some jobId =>
            let cmd : CmdInfo := { JobId := jobId, Package := "", Function := "", Input := none }
            .done (fs, some { file := file, cmd := some cmd }, some (.corruptJob file.name))
        | some cmdInfo =>
          if submittedMarkerExists fs cmdInfo.JobId then
            match removeJob fs cmdInfo.JobId with
            | (fs1, some e) => .done (fs1, none, some e)
            | (fs1, none) => .again fs1
          else
            let job : Job := { file := file, cmd := some cmdInfo }
            let r := startedMarker fs (some job) now
            .done (r.1, some job, r.2)

/-- Go `peekJob`, with the depth of its recursion bounded by `fuel`; `none` when the bound is
reached. -/
def peekJobAux (S : SliceSorter) (J : Json) (now : Int) :
    Nat → FS → Option (FS × Option Job × Option Err)
  | 0, _ => none
  | fuel + 1, fs =>
    match peekJobStep S J now fs with
    | .done r => some r
    | .again fs1 => peekJobAux S J now fuel fs1

/-- Go `peekJob`: every recursive call follows a `removeJob` that took an entry out of the
process dir, so one more than the number of entries bounds the depth. -/
def peekJob (S : SliceSorter) (J : Json) (now : Int) (fs : FS) :
    Option (FS × Option Job × Option Err) :=
  peekJobAux S J now (fs.process.length + 1) fs

/-! ## submit.go -/

/-- Go `submittedMarker`: creates the submitted marker, then removes the started marker; a
failure of the removal is ignored. -/
def submittedMarker (fs : FS) (jobId : Int) (now : Int) : FS × Option Err :=
  match osWriteFile fs.data (submittedFile jobId) "" now with
  | .error e => (fs, some e)
  | .ok d =>
    match osRemove d (startedFile jobId) with
    | .error _ => ({ fs with data := d }, none)
    | .ok d1 => ({ fs with data := d1 }, none)

/-- Go `submitJobResult`: persists the result of a job in the submit dir, then marks it. -/
def submitJobResult (J : Json) (fs : FS) (result : JobResult) (now : Int) : FS × Option Err :=
  match J.marshalResult result with
  | none => (fs, some .json)
  | some bytes =>
    match osWriteFile fs.submit (resultFile result.JobId) bytes now with
    | .error e => (fs, some e)
    | .ok s => submittedMarker { fs with submit := s } result.JobId now

/-- Go `peekJobResult`: the result in the oldest regular `.result` file of the submit dir. -/
def peekJobResult (S : SliceSorter) (J : Json) (fs : FS) : Except Err (Option JobResult) :=
  match firstWithExt ".result" (lsJobs S fs.submit) with
  | none => .ok none
  | some file =>
    match osReadFile fs.submit file.name with
    | .error e => .error e
    | .ok bytes =>
      match J.unmarshalResult bytes with
      | none => .error .json
      | some jobResult => .ok jobResult

/-- Go `removeJobResult`. -/
def removeJobResult (fs : FS) (result : JobResult) : FS × Option Err :=
  match osRemove fs.submit (resultFile result.JobId) with
  | .error e => (fs, some e)
  | .ok s => ({ fs with submit := s }, none)

/-! ## events.go -/

/-- The loop of Go `getEvents` over the listing of the submit dir: the names and the events
collected, or the error that ends the call. -/
def getEventsLoop (J : Json) (submit : Dir) (max : Int) :
    List FileInfo → List String → List Event → Except Err (List String × List Event)
  | [], names, events => .ok (names, events)
  | file :: rest, names, events =>
    if !file.isDir && decide (pathExt file.name = ".ev") then
      match osReadFile submit file.name with
      | .error e => .error e
      | .ok bytes =>
        match J.unmarshalEvent bytes with
        | none => .error .json
        | some entry =>
          if ((names ++ [file.name]).length : Int) ≥ max then
            .ok (names ++ [file.name], events ++ [entry])
          else getEventsLoop J submit max rest (names ++ [file.name]) (events ++ [entry])
    else getEventsLoop J submit max rest names events

/-- Go `getEvents`: up to `max` events of the submit dir, oldest first; their names are saved in
`events.json`. -/
def getEvents (S : SliceSorter) (J : Json) (max : Int) (now : Int) (fs : FS) :
    FS × Option Events × Option Err :=
  match getEventsLoop J fs.submit max (lsJobs S fs.submit) [] [] with
  | .error e => (fs, none, some e)
  | .ok (names, events) =>
    if names = [] then (fs, none, none)
    else
      match J.marshalNames names with
      | none => (fs, none, some .json)
      | some bytes =>
        match osWriteFile fs.data eventsJson bytes now with
        | .error e => (fs, none, some e)
        | .ok d => ({ fs with data := d }, some { events := events }, none)

/-- The loop of Go `removeEvents`: removes the named files one after the other and stops at the
first removal that fails. -/
def removeFiles : Dir → List String → Dir × Option Err
  | d, [] => (d, none)
  | d, name :: names =>
    match osRemove d name with
    | .error e => (d, some e)
    | .ok d1 => removeFiles d1 names

/-- Go `removeEvents`: removes the events named in `events.json`, then `events.json`. -/
def removeEvents (J : Json) (fs : FS) : FS × Option Err :=
  match osReadFile fs.data eventsJson with
  | .error _ => (fs, none)
  | .ok bytes =>
    match J.unmarshalNames bytes with
    | none => (fs, none)
    | some names =>
      match removeFiles fs.submit names with
      | (s, some e) => ({ fs with submit := s }, some e)
      | (s, none) =>
        match osRemove fs.data eventsJson with
        | .error e => ({ fs with submit := s }, some e)
        | .ok d => ({ fs with submit := s, data := d }, none)

/-! ## pilotctl.go: Ping -/

/-- The worker as `Ping` uses it.  `worker.go` is not among the sources, so `Ping` is given
its worker as a parameter: `Result` reads the file system, `RemoveResult` changes it. -/
structure Worker where
  Result : FS → Except Err (Option JobResult)
  RemoveResult : FS → JobResult → FS × Option Err

/-- Modelled from the spec: the worker of `worker.go`, which is not among the sources:
"`Result()` returns the oldest `.result` in the submit dir (same mtime-sort as peek).
`RemoveResult` deletes it. Neither involves markers."  These are `peekJobResult` and
`removeJobResult` of `submit.go`. -/
def specWorker (S : SliceSorter) (J : Json) : Worker :=
  { Result := peekJobResult S J, RemoveResult := removeJobResult }

/-- The acknowledging calls `Ping` makes after the control plane has answered. -/
inductive Call where
  | removeResult (result : JobResult)
  | removeEvents
deriving DecidableEq

/-- What a call of `Ping` leaves behind: the file system, the payload handed to `client.Post`
(if the call got that far; the inner `none` is the nil payload, an empty body), the events
fetched, the acknowledging calls made, in order, and the Go results. -/
structure PingOut where
  fs : FS
  posted : Option (Option PingRequest)
  events : Option Events
  calls : List Call
  ret : Except Err PingResponse
deriving DecidableEq

/-- Go `PilotCtl.Ping`.  `post` is the control plane as seen through `client.Post` on `/ping`:
the answer to a payload, or a transport error. -/
def Ping (w : Worker) (S : SliceSorter) (J : Json)
    (post : Option PingRequest → Except Err Response) (now : Int) (fs : FS) : PingOut :=
  match w.Result fs with
  | .error e => { fs := fs, posted := none, events := none, calls := [], ret := .error e }
  | .ok result =>
    -- payload selection
    let sel : FS × Option PingRequest × Option Events × Option Err :=
      match result with
      | some r => (fs, some { Result := some r, Events := none }, none, none)
      | none =>
        let g := getEvents S J 5 now fs
        (g.1, none, g.2.1, g.2.2)
    let fs1 := sel.1
    let payload := sel.2.1
    let events := sel.2.2.1
    match sel.2.2.2 with
    | some e => { fs := fs1, posted := none, events := events, calls := [], ret := .error e }
    | none =>
      match post payload with
      | .error e =>
        { fs := fs1, posted := some payload, events := events, calls := [], ret := .error e }
      | .ok resp =>
        if resp.StatusCode > 299 then
          { fs := fs1, posted := some payload, events := events, calls := [],
            ret := .error (.status resp.StatusCode) }
        else
          -- a failure to remove is logged, not returned
          let a : FS × List Call :=
            match result with
            | some r => ((w.RemoveResult fs1 r).1, [Call.removeResult r])
            | none => (fs1, [])
          let b : FS × List Call :=
            match events with
            | some _ => ((removeEvents J a.1).1, a.2 ++ [Call.removeEvents])
            | none => a
          match J.unmarshalPing resp.Body with
          | none =>
            { fs := b.1, posted := some payload, events := events, calls := b.2,
              ret := .error .pingResponse }
          | some pingResponse =>
            { fs := b.1, posted := some payload, events := events, calls := b.2,
              ret := .ok pingResponse }

/-! ## processor.go: backoffTime -/

/-- The number of binary digits of `m`; `fuel` bounds the recursion. -/
def bitLenAux : Nat → Nat → Nat
  | 0, _ => 0
  | fuel + 1, m => if m = 0 then 0 else bitLenAux fuel (m / 2) + 1

/-- The number of binary digits of `m`. -/
def bitLen (m : Nat) : Nat := bitLenAux m m

/-- The float64 nearest to the natural number `m` (below `2 ^ 1024`): the 53 leading binary
digits are kept, the rest is rounded to nearest, ties to even. -/
def roundF64 (m : Nat) : Nat :=
  let e := bitLen m - 53
  let q := m / 2 ^ e
  let r := m % 2 ^ e
  if 2 ^ e < 2 * r ∨ (2 * r = 2 ^ e ∧ q % 2 = 1) then (q + 1) * 2 ^ e else q * 2 ^ e

/-- The float64 values `backoffTime` computes with: a non-negative integer, or `+Inf`. -/
inductive F64 where
  | int (v : Nat)
  | inf
deriving DecidableEq

/-- Go `math.Pow(2, float64(attempts))` for `attempts >= 0`: exact up to `2 ^ 1023`, `+Inf`
above. -/
def mathPow2 (attempts : Nat) : F64 :=
  if attempts ≤ 1023 then .int (2 ^ attempts) else .inf

/-- The float64 subtraction `x - 1` for `x >= 1`: the exact difference, rounded. -/
def subOne : F64 → F64
  | .int v => .int (roundF64 (v - 1))
  | .inf => .inf

/-- Go `math.Floor(x * 0.5)`: the product is exact, and so is its floor. -/
def floorHalf : F64 → F64
  | .int v => .int (v / 2)
  | .inf => .inf

/-- Go `int64(x)` for a float64 `x >= 0`.  When `x` is outside the range of `int64` the Go
specification leaves the value to the implementation: `ovf` is that value. -/
def int64OfF64 (ovf : Int) : F64 → Int
  | .int v => if v < 2 ^ 63 then (v : Int) else ovf
  | .inf => ovf

/-- The value of an out-of-range `int64(x)` on amd64: the integer indefinite, `-2^63`. -/
def ovfAmd64 : Int := -(2 ^ 63)

/-- The value of an out-of-range `int64(x)`, `x > 0`, on arm64: the conversion saturates. -/
def ovfArm64 : Int := 2 ^ 63 - 1

/-- The `int64` an integer wraps to. -/
def wrapInt64 (x : Int) : Int := (x + 2 ^ 63) % 2 ^ 64 - 2 ^ 63

/-- Go `time.Second`, in nanoseconds. -/
def timeSecond : Int := 1000000000

/-- Go `backoffTime`, in nanoseconds (`time.Duration`), for `attempts >= 0`. -/
def backoffTime (ovf : Int) (attempts : Nat) : Int :=
  let exponentialBackoffCeilingSecs : Int := 3600
  let delaySecs : Int := int64OfF64 ovf (floorHalf (subOne (mathPow2 attempts)))
  let delaySecs : Int :=
    if delaySecs > exponentialBackoffCeilingSecs then exponentialBackoffCeilingSecs else delaySecs
  wrapInt64 (delaySecs * timeSecond)

/-! ## The turn of the worker -/

/-- The steps of one turn of the worker loop, in their order: peek the queue, run the command,
then the three file-system effects of `submitJobResult`, then `removeJob`. -/
inductive WorkerStep where
  | peek
  | execute
  | writeResult
  | writeSubmitted
  | removeStarted
  | removeJob
deriving DecidableEq

/-- Modelled from the spec: the loop of `worker.go`, which is not among the sources ("Peek ...
Invoke the executor ... write `job_<id>.result` into the submit dir, then write the
`job_<id>.submitted` marker, then remove the `job_<id>.started` marker ... RemoveJob(id)").
The effect on the file system of one step of the turn that produces `result`. -/
def WorkerStep.run (S : SliceSorter) (J : Json) (now : Int) (result : JobResult) :
    WorkerStep → FS → FS
  | .peek, fs =>
    match peekJob S J now fs with
    | some r => r.1
    | none => fs
  | .execute, fs => fs
  | .writeResult, fs =>
    match J.marshalResult result with
    | none => fs
    | some bytes =>
      match osWriteFile fs.submit (resultFile result.JobId) bytes now with
      | .error _ => fs
      | .ok s => { fs with submit := s }
  | .writeSubmitted, fs =>
    match osWriteFile fs.data (submittedFile result.JobId) "" now with
    | .error _ => fs
    | .ok d => { fs with data := d }
  | .removeStarted, fs =>
    match osRemove fs.data (startedFile result.JobId) with
    | .error _ => fs
    | .ok d => { fs with data := d }
  | .removeJob, fs => (Piloth.removeJob fs result.JobId).1

/-- The turn of the worker. -/
def workerTurn : List WorkerStep :=
  [.peek, .execute, .writeResult, .writeSubmitted, .removeStarted, .removeJob]

/-- The file system after a restart has cut the turn short: only the first `k` steps ran. -/
def runCut (S : SliceSorter) (J : Json) (now : Int) (result : JobResult) (k : Nat) (fs : FS) : FS :=
  (workerTurn.take k).foldl (fun s step => step.run S J now result s) fs

/-- Modelled from the spec: the loop of `worker.go`, which is not among the sources, run for at
most `n` turns on a queue of decodable commands: peek, execute, `submitJobResult`, `removeJob`.
`exec` is the executor; `clock i` is the time of the writes of the turn with `i` turns to go.
Returns the commands in the order `peekJob` handed them out; stops at the first call that
fails and when the queue is empty. -/
def drain (S : SliceSorter) (J : Json) (exec : CmdInfo → String × Option String)
    (clock : Nat → Int) : Nat → FS → List CmdInfo × FS
  | 0, fs => ([], fs)
  | n + 1, fs =>
    match peekJob S J (clock n) fs with
    | some (fs1, some job, none) =>
      match job.cmd with
      | none => ([], fs1)
      | some c =>
        let out := exec c
        let result : JobResult :=
          { JobId := c.JobId, Success := out.2.isNone, Output := out.1,
            Error := out.2.getD "" }
        match submitJobResult J fs1 result (clock n) with
        | (fs2, some _) => ([], fs2)
        | (fs2, none) =>
          match removeJob fs2 c.JobId with
          | (fs3, some _) => ([], fs3)
          | (fs3, none) =>
            let rest := drain S J exec clock n fs3
            (c :: rest.1, rest.2)
    | some (fs1, _, _) => ([], fs1)
    | none => ([], fs)

/-- Enqueue the commands, each at its time, one after the other; stops at the first failure. -/
def enqueueAll (J : Json) : FS → List (CmdInfo × Int) → FS
  | fs, [] => fs
  | fs, (c, t) :: rest =>
    match addJob J fs c t with
    | (fs1, none) => enqueueAll J fs1 rest
    | (fs1, some _) => fs1

/-! ## Concrete library code, to run the definitions -/

/-- The insertion sort of Go, with the less function of `lsJobs`, meets the contract of
`sort.Slice`. -/
def goSorter : SliceSorter where
  sort := goInsertionSort lessModTime
  perm := by
    have hins : ∀ (x : FileInfo) (rev : List FileInfo),
        List.Perm (goInsert lessModTime x rev) (x :: rev) := by
      intro x rev
      induction rev with
      | nil => exact List.Perm.refl _
      | cons y rev ih =>
        simp only [goInsert]
        split
        · exact ((List.Perm.cons y ih).trans (List.Perm.swap x y rev))
        · exact List.Perm.refl _
    have hfold : ∀ (l acc : List FileInfo),
        List.Perm (l.foldl (fun rev x => goInsert lessModTime x rev) acc) (l ++ acc) := by
      intro l
      induction l with
      | nil => intro acc; exact List.Perm.refl _
      | cons x l ih =>
        intro acc
        simp only [List.foldl_cons]
        refine (ih _).trans ?_
        refine (List.Perm.append_left l (hins x acc)).trans ?_
        exact List.perm_middle
    intro l
    unfold goInsertionSort
    refine (List.reverse_perm _).trans ?_
    have h := hfold l []
    rw [List.append_nil] at h
    exact h
  sorted := by
    have hins : ∀ (x : FileInfo) (rev : List FileInfo),
        List.Pairwise (fun a b => b.modTime ≤ a.modTime) rev →
        List.Pairwise (fun a b => b.modTime ≤ a.modTime) (goInsert lessModTime x rev) := by
      intro x rev
      induction rev with
      | nil => intro _; simp [goInsert]
      | cons y rev ih =>
        intro h
        simp only [goInsert]
        have hy := List.pairwise_cons.mp h
        split
        · rename_i hle
          simp only [lessModTime, decide_eq_true_eq] at hle
          refine List.pairwise_cons.mpr ⟨?_, ih hy.2⟩
          intro z hz
          have hp : List.Perm (goInsert lessModTime x rev) (x :: rev) := by
            clear ih h hy hz
            induction rev with
            | nil => exact List.Perm.refl _
            | cons w rev ih2 =>
              simp only [goInsert]
              split
              · exact ((List.Perm.cons w ih2).trans (List.Perm.swap x w rev))
              · exact List.Perm.refl _
          rcases List.mem_cons.mp (hp.subset hz) with rfl | hz
          · exact hle
          · exact hy.1 z hz
        · rename_i hle
          simp only [lessModTime, decide_eq_true_eq, not_le] at hle
          refine List.pairwise_cons.mpr ⟨?_, h⟩
          intro z hz
          rcases List.mem_cons.mp hz with rfl | hz
          · exact le_of_lt hle
          · exact le_trans (hy.1 z hz) (le_of_lt hle)
    have hfold : ∀ (l acc : List FileInfo),
        List.Pairwise (fun a b => b.modTime ≤ a.modTime) acc →
        List.Pairwise (fun a b => b.modTime ≤ a.modTime)
          (l.foldl (fun rev x => goInsert lessModTime x rev) acc) := by
      intro l
      induction l with
      | nil => intro acc h; exact h
      | cons x l ih => intro acc h; exact ih _ (hins x acc h)
    intro l
    unfold goInsertionSort
    exact List.pairwise_reverse.mpr (hfold l [] List.Pairwise.nil)

/-- The manifest of the demo codec: the names, each closed by a semicolon. -/
def joinNames : List String → List Char
  | [] => []
  | n :: names => n.data ++ ';' :: joinNames names

/-- The names of a manifest of the demo codec; `cur` is the name being read, reversed. -/
def splitNames : List Char → List Char → List String
  | [], _ => []
  | c :: cs, cur =>
    if c = ';' then String.mk cur.reverse :: splitNames cs [] else splitNames cs (c :: cur)

/-- The command of the demo codec with the given id. -/
def demoCmd (jobId : Int) : CmdInfo :=
  { JobId := jobId, Package := "", Function := "", Input := none }

/-- The successful result of the demo codec with the given id. -/
def demoResult (jobId : Int) : JobResult :=
  { JobId := jobId, Success := true, Output := "", Error := "" }

/-- A small codec in the place of `encoding/json`, to run the definitions on concrete states:
a command is `cmd <id>`, a result `res <id>`, an event any non-empty text, a list of names
without semicolons the names each followed by a semicolon, a ping response any non-empty
text. -/
def demoJson : Json where
  unmarshalPing := fun s => if s = "" then none else some { Commands := [] }
  marshalCmd := fun c => some ("cmd " ++ fmtD c.JobId)
  unmarshalCmd := fun s =>
    match s.data with
    | 'c' :: 'm' :: 'd' :: ' ' :: r => (parseInt64 (String.mk r)).map demoCmd
    | _ => none
  marshalResult := fun r => some ("res " ++ fmtD r.JobId)
  unmarshalResult := fun s =>
    if s = "null" then some none
    else
      match s.data with
      | 'r' :: 'e' :: 's' :: ' ' :: r =>
        (parseInt64 (String.mk r)).map (fun i => some (demoResult i))
      | _ => none
  unmarshalEvent := fun s => if s = "" then none else some { text := s }
  marshalNames := fun names =>
    if names.all (fun n => !n.data.contains ';') then some (String.mk (joinNames names)) else none
  unmarshalNames := fun s => some (splitNames s.data [])

/-- A regular file. -/
def file (name : String) (modTime : Int) (bytes : String) : FileInfo :=
  { name := name, modTime := modTime, isDir := false, bytes := bytes }

/-- What `peekJob` leaves untouched: the submit dir; it adds no entry to the process dir; in the
data dir it writes started markers only and may remove entries. -/
def PeekFrame (fs fs2 : FS) : Prop :=
  fs2.submit = fs.submit ∧ (∀ x ∈ fs2.process, x ∈ fs.process) ∧
  ∀ m, (∀ id, m ≠ startedFile id) → fs2.data.lookup m = fs.data.lookup m ∨ fs2.data.lookup m = none

/-- The state after `removeJob` has purged the job `jobId`. -/
def purged (fs : FS) (jobId : Int) : FS :=
  { data := fs.data.filter (fun x => decide (x.name ≠ submittedFile jobId)),
    process := fs.process.filter (fun x => decide (x.name ≠ jobFile jobId)),
    submit := fs.submit }

/-! ## Concrete states -/

/-- A queue after a crash in the middle of the submission: job 1 is submitted, not yet removed. -/
def fsCrashMidSubmit : FS :=
  { data := [file "job_1.started" 11 "", file "job_1.submitted" 12 ""],
    process := [file "job_1.job" 10 "cmd 1", file "job_2.job" 20 "cmd 2"],
    submit := [file "job_1.result" 12 "res 1"] }

/-- A queue that holds the single job 1. -/
def fsOneJob : FS :=
  { data := [], process := [file "job_1.job" 10 "cmd 1"], submit := [] }

/-- The `.job` file that `addJob` writes for the command `p.1` at the time `p.2`. -/
def jobEntry (J : Json) (p : CmdInfo × Int) : FileInfo :=
  file (jobFile p.1.JobId) p.2 ((J.marshalCmd p.1).getD "")

/-- The file system with the three spool directories empty. -/
def fsEmpty : FS := { data := [], process := [], submit := [] }

/-- Two commands with their times of enqueueing; the ids do not follow the times. -/
def demoJobs : List (CmdInfo × Int) := [(demoCmd 2, 10), (demoCmd 1, 20)]

/-- An executor that succeeds with no output. -/
def demoExec : CmdInfo → String × Option String := fun _ => ("", none)

/-- The test of the loop of `getEvents`: a regular file with the extension `.ev`. -/
def isEvFile (f : FileInfo) : Bool := !f.isDir && decide (pathExt f.name = ".ev")

/-- The event files of a listing, in its order. -/
def evFiles (l : List FileInfo) : List FileInfo := l.filter isEvFile

/-- The events a call of `getEvents` returns: none for the nil pointer. -/
def eventsOf (r : Option Events) : List Event :=
  match r with
  | none => []
  | some evs => evs.events

/-- The batch of `getEvents(max)`: the first `max` event files of the submit dir in the order of
`lsJobs`, oldest first. -/
def oldestEvFiles (S : SliceSorter) (max : Int) (fs : FS) : List FileInfo :=
  (evFiles (lsJobs S fs.submit)).take max.toNat

/-- A directory. -/
def folder (name : String) (modTime : Int) : FileInfo :=
  { name := name, modTime := modTime, isDir := true, bytes := "" }

/-- A submit dir without event files: a result and a directory with the event extension. -/
def fsNoEvents : FS :=
  { data := [], process := [], submit := [file "job_1.result" 5 "res 1", folder "x.ev" 3] }

/-- A submit dir with three events and a result; the oldest event was written last. -/
def fsThreeEvents : FS :=
  { data := [], process := [],
    submit := [file "b.ev" 20 "second", file "job_1.result" 5 "res 1", file "c.ev" 30 "third",
      file "a.ev" 10 "first"] }

/-- A stale manifest: `events.json` names `a.ev`, which is no longer in the submit dir (the
agent stopped after removing the event and before removing the manifest). -/
def fsStaleManifest : FS :=
  { data := [file "events.json" 5 "a.ev;"], process := [], submit := [] }

/-- A submit dir with the pending result of job 42 and two events, both older than it. -/
def fsResultAndEvents : FS :=
  { data := [], process := [],
    submit := [file "a.ev" 10 "first", file "b.ev" 20 "second", file "job_42.result" 30 "res 42"] }

/-- A submit dir with one event and no result. -/
def fsOneEvent : FS :=
  { data := [], process := [], submit := [file "a.ev" 10 "first"] }

/-- The worker of the spec, on the demo codec. -/
def demoWorker : Worker := specWorker goSorter demoJson

/-- A control plane that answers every ping with the status `code`. -/
def postStatus (code : Int) : Option PingRequest → Except Err Response :=
  fun _ => .ok { StatusCode := code, Body := "ok" }

/-! ## processor.go: the uploader of a telemetry channel -/

/-- Go `ConnResult`: the answer of the control plane to an upload. -/
structure ConnResult where
  Error : String
  TotalEntries : Int
  SuccessfulEntries : Int
deriving DecidableEq

/-- Go `sort.SliceStable(files, less)` with `less` the strict `ModTime().Before`: the entries by
ascending modification time, entries with the same time in the order they had. -/
def sortStableByModTime (l : List FileInfo) : List FileInfo :=
  l.insertionSort (fun a b => a.modTime ≤ b.modTime)

/-- Go `getFiles`: the entries of the channel folder that are not hidden (`Name()[0] != '.'`;
the name of a directory entry is never empty), oldest first.  The order of the list `d` stands
for the order in which `ReadDir(-1)` yields the entries. -/
def getFiles (d : Dir) : List FileInfo :=
  sortStableByModTime (d.filter (fun f => f.name.data.head? != some '.'))

/-- The state of the loop of `Processor.run`: the counter of consecutive failures and the
channel folder. -/
structure Uploader where
  count : Nat
  dir : Dir
deriving DecidableEq

/-- How one pass of the loop of `Processor.run` ends: with the idle sleep of 30 seconds, with
`log.Fatalf`, with the sleep of a failed upload (in nanoseconds), or with an upload. -/
inductive Pass where
  | idle
  | fatal
  | waited (d : Int)
  | uploaded
deriving DecidableEq

/-- One pass of the loop of Go `Processor.run`.  `submit` is `SubmitTelemetry` for the channel,
as a function of the content uploaded; `ovf` is the platform (see `int64OfF64`). -/
def runPass (ovf : Int) (submit : String → Except Err ConnResult) (st : Uploader) :
    Uploader × Pass :=
  match getFiles st.dir with
  | [] => (st, .idle)
  | f :: _ =>
    match osReadFile st.dir f.name with
    | .error _ => (st, .fatal)
    | .ok c =>
      match submit c with
      | .error _ => ({ st with count := st.count + 1 }, .waited (backoffTime ovf st.count))
      | .ok result =>
        if result.Error.length > 0 then
          ({ st with count := st.count + 1 }, .waited (backoffTime ovf st.count))
        else
          match osRemove st.dir f.name with
          | .error _ => ({ count := 0, dir := st.dir }, .uploaded)
          | .ok d => ({ count := 0, dir := d }, .uploaded)

/-- Successive passes of the loop, one for each answer of the control plane; the loop ends at
`log.Fatalf`. -/
def runPasses (ovf : Int) : List (String → Except Err ConnResult) → Uploader → Uploader × List Pass
  | [], st => (st, [])
  | submit :: rest, st =>
    match runPass ovf submit st with
    | (st1, .fatal) => (st1, [.fatal])
    | (st1, p) =>
      let r := runPasses ovf rest st1
      (r.1, p :: r.2)

/-- An upload that failed: a transport or status error, or an answer with an error text. -/
def uploadFailed (r : Except Err ConnResult) : Bool :=
  match r with
  | .error _ => true
  | .ok result => decide (result.Error.length > 0)

/-- A channel folder with a hidden file and two files to upload. -/
def channelDir : Dir :=
  [file ".lock" 1 "", file "late.log" 20 "late", file "early.log" 10 "early"]

/-- An upload that fails in transport. -/
def submitDown : String → Except Err ConnResult := fun _ => .error .transport

/-- An upload that is accepted. -/
def submitOk : String → Except Err ConnResult :=
  fun _ => .ok { Error := "", TotalEntries := 1, SuccessfulEntries := 1 }

/-! ## pilotctl.go: NewPilotCtl -/

/-- Go `strings.Split(s, ",")`, on the characters of `s`; `cur` is the piece being read,
reversed. -/
def splitComma : List Char → List Char → List String
  | [], cur => [String.mk cur.reverse]
  | c :: cs, cur =>
    if c = ',' then String.mk cur.reverse :: splitComma cs [] else splitComma cs (c :: cur)

/-- Go `strings.Split(s, ",")`. -/
def stringsSplit (s : String) : List String := splitComma s.data []

/-- What the probe of one control URI in `NewPilotCtl` comes to: the http client cannot be
created, the GET gets no response, or it gets a response with a status code. -/
inductive Probe where
  | clientError
  | noResponse
  | response (status : Int)
deriving DecidableEq

/-- Why `NewPilotCtl` fails. -/
inductive CtlErr where
  | client (uri : String)
  | endpoint (uri : String) (status : Int)
  | noEndpoint
deriving DecidableEq

/-- The loop of Go `NewPilotCtl` over the control URIs: the URI elected, or the error. -/
def electURI (probe : String → Probe) : List String → Except CtlErr String
  | [] => .error .noEndpoint
  | uri :: rest =>
    match probe uri with
    | .clientError => .error (.client uri)
    | .noResponse => electURI probe rest
    | .response status =>
      if status = 200 then .ok uri else .error (.endpoint uri status)

/-- Go `NewPilotCtl`, by the base URI of the client it returns.  `ctlURI` is `A.CtlURI`;
`conf.Load()` never returns an error. -/
def NewPilotCtl (ctlURI : String) (probe : String → Probe) : Except CtlErr String :=
  electURI probe (stringsSplit ctlURI)

/-- Two control URIs: the first answers 503, the second 200. -/
def probeBusyThenOk : String → Probe :=
  fun uri => if uri = "https://a" then .response 503 else .response 200

/-- Two control URIs: the first does not answer, the second answers 200. -/
def probeDownThenOk : String → Probe :=
  fun uri => if uri = "https://a" then .noResponse else .response 200

/-- The first control URI, in list order, whose probe gets a response. -/
def firstResponding (probe : String → Probe) (uris : List String) : Option String :=
  uris.find? (fun u => decide (probe u ≠ .noResponse))

/-! ## ak.go, akrequest.go: activate -/

/-- Go `AKInfo`: the content of the activation key.  `Expiry` is a `time.Time`, here in seconds
since the Unix epoch. -/
structure AKInfo where
  HostUUID : String
  DeviceId : String
  CtlURI : String
  Expiry : Int
  VerifyKey : String
deriving DecidableEq

/-- The host information `activate` reads and writes (`ctl.HostInfo` of `pilotctl/types`). -/
structure HostInfo where
  HardwareId : String
  PrimaryMAC : String
  MacAddress : List String
  HostUUID : String
deriving DecidableEq

/-- Go `PilotOptions`, by the fields `activate` uses. -/
structure PilotOptions where
  UseHwId : Bool
  Info : HostInfo
deriving DecidableEq

/-- The fatal exits of `activate` (`os.Exit(1)`, `log.Fatalf`). -/
inductive Fatal where
  | activation
  | loadActivationKey
  | noVerifyKey
  | noDeviceId
  | noHostUUID
  | expired
  | hardwareId
  | macAddress
deriving DecidableEq

/-- Go `AKInfo.Validate`: `none` when it returns, the fatal exit otherwise. -/
def AKInfo.Validate (a : AKInfo) : Option Fatal :=
  if a.VerifyKey.length = 0 then some .noVerifyKey
  else if a.DeviceId.length = 0 then some .noDeviceId
  else if a.HostUUID.length = 0 then some .noHostUUID
  else none

/-- The loop of `activate` over the MAC addresses of the host: whether one of them is the
device id. -/
def matchedMac (deviceId : String) : List String → Bool
  | [] => false
  | macAddress :: rest => if deviceId = macAddress then true else matchedMac deviceId rest

/-- The check of the device id in `activate`: `none` when it passes. -/
def deviceIdCheck (a : AKInfo) (options : PilotOptions) : Option Fatal :=
  if options.UseHwId then
    if a.DeviceId ≠ options.Info.HardwareId then some .hardwareId else none
  else
    if !matchedMac a.DeviceId options.Info.MacAddress then some .macAddress else none

/-- Go `activate`, from the moment the activation key is on disk.  `acquired` is the outcome of
the activation protocol run when the key file is absent (`none`: the key was there or has been
deployed); `loaded` is the outcome of `LoadActivationKey`; `now` is `time.Now()`.  Returns the
activation key `A` and the options with the host UUID set, or the fatal exit. -/
def activate (acquired : Option Fatal) (loaded : Except Err AKInfo) (now : Int)
    (options : PilotOptions) : Except Fatal (AKInfo × PilotOptions) :=
  match acquired with
  | some f => .error f
  | none =>
    match loaded with
    | .error _ => .error .loadActivationKey
    | .ok A =>
      match A.Validate with
      | some f => .error f
      | none =>
        if A.Expiry < now then .error .expired
        else
          match deviceIdCheck A options with
          | some f => .error f
          | none => .ok (A, { options with Info := { options.Info with HostUUID := A.HostUUID } })

/-- An activation key with every field set but the control URI. -/
def akNoCtlURI : AKInfo :=
  { HostUUID := "host-1", DeviceId := "02:00:00:00:00:01", CtlURI := "", Expiry := 2000,
    VerifyKey := "key" }

/-- A host with two MAC addresses, identified by MAC address. -/
def optionsByMac : PilotOptions :=
  { UseHwId := false,
    Info := { HardwareId := "hw-9", PrimaryMAC := "02:00:00:00:00:02",
              MacAddress := ["02:00:00:00:00:02", "02:00:00:00:00:01"], HostUUID := "" } }

/-- A queue whose oldest job file is empty. -/
def fsEmptyJobFile : FS :=
  { data := [], process := [file "job_7.job" 10 "", file "job_8.job" 20 "cmd 8"], submit := [] }

/-- A queue whose oldest job file, of job 99, holds an opening brace only. -/
def fsCorruptJobFile : FS :=
  { data := [], process := [file "job_99.job" 10 "\x7b", file "job_8.job" 20 "cmd 8"],
    submit := [] }

/-! ## submit.go: the calls of submitJobResult on the file system -/

/-- The three spool directories. -/
inductive Spool where
  | data
  | process
  | submit
deriving DecidableEq

/-- A call on the file system: `os.WriteFile` / `ioutil.WriteFile`, or `os.Remove`. -/
inductive FsCall where
  | writeFile (dir : Spool) (name : String) (bytes : String)
  | remove (dir : Spool) (name : String)
deriving DecidableEq

/-- Go `submittedMarker`, with the calls it makes on the file system, in their order. -/
def submittedMarkerCalls (fs : FS) (jobId : Int) (now : Int) : List FsCall × FS × Option Err :=
  match osWriteFile fs.data (submittedFile jobId) "" now with
  | .error e => ([.writeFile .data (submittedFile jobId) ""], fs, some e)
  | .ok d =>
    match osRemove d (startedFile jobId) with
    | .error _ =>
      ([.writeFile .data (submittedFile jobId) "", .remove .data (startedFile jobId)],
        { fs with data := d }, none)
    | .ok d1 =>
      ([.writeFile .data (submittedFile jobId) "", .remove .data (startedFile jobId)],
        { fs with data := d1 }, none)

/-- Go `submitJobResult`, with the calls it makes on the file system, in their order. -/
def submitJobResultCalls (J : Json) (fs : FS) (result : JobResult) (now : Int) :
    List FsCall × FS × Option Err :=
  match J.marshalResult result with
  | none => ([], fs, some .json)
  | some bytes =>
    match osWriteFile fs.submit (resultFile result.JobId) bytes now with
    | .error e => ([.writeFile .submit (resultFile result.JobId) bytes], fs, some e)
    | .ok s =>
      let r := submittedMarkerCalls { fs with submit := s } result.JobId now
      (.writeFile .submit (resultFile result.JobId) bytes :: r.1, r.2)

/-- A queue whose job 1 has been handed out: its started marker is written. -/
def fsStarted : FS :=
  { data := [file "job_1.started" 20 ""], process := [file "job_1.job" 10 "cmd 1"], submit := [] }

/-- The crash-recovery invariant of the data dir: for no job id do `job_<id>.started` and
`job_<id>.submitted` both exist. -/
def MarkersExclusive (d : Dir) : Prop :=
  ∀ id : Int, ¬ (osStat d (startedFile id) = true ∧ osStat d (submittedFile id) = true)

/-- A state in which job 1 is started and job 2 is submitted and not yet removed. -/
def fsTwoMarkers : FS :=
  { data := [file "job_1.started" 20 "", file "job_2.submitted" 21 ""],
    process := [file "job_2.job" 10 "cmd 2", file "job_1.job" 11 "cmd 1"],
    submit := [file "job_2.result" 21 "res 2"] }

/-- The number of entries of the process dir whose name has the extension `.job`. -/
def jobFileCount (fs : FS) : Nat :=
  (fs.process.filter (fun x => decide (pathExt x.name = ".job"))).length

/-! ## userKey.go -/

/-- Go `userKey`: the encrypted key and its signature. -/
structure userKey where
  Key : String
  Signature : String
deriving DecidableEq

/-- Go `userKeyInfo`; `IV` and `SK` are byte slices, `Expiry` is a `*time.Time`, in nanoseconds. -/
structure userKeyInfo where
  Username : String
  URI : String
  IV : List Nat
  SK : List Nat
  Expiry : Option Int
deriving DecidableEq

/-- The errors of `readUserKey`, by the step that returns them. -/
inductive KeyErr where
  | invalidSignature
  | decrypt
  | decode
  | expiryDays
deriving DecidableEq

/-- How a call of `readUserKey` ends: it returns the key info, it returns an error, or it panics
at run time (a slice or an index out of range). -/
inductive KeyRet where
  | ok (info : userKeyInfo)
  | error (e : KeyErr)
  | panics
deriving DecidableEq

/-- The value of a hexadecimal digit (`reverseHexTable` of Go `encoding/hex`). -/
def hexVal (c : Char) : Option Nat :=
  if '0' ≤ c ∧ c ≤ '9' then some (c.toNat - 48)
  else if 'a' ≤ c ∧ c ≤ 'f' then some (c.toNat - 87)
  else if 'A' ≤ c ∧ c ≤ 'F' then some (c.toNat - 55)
  else none

/-- Go `hex.DecodeString`: two hexadecimal digits a byte; an error on any other character and on
an odd length. -/
def hexDecode : List Char → Option (List Nat)
  | [] => some []
  | [_] => none
  | p :: q :: rest =>
    match hexVal p, hexVal q with
    | some a, some b => (hexDecode rest).map (fun bs => (a * 16 + b) :: bs)
    | _, _ => none

/-- Go `string(b)` for a byte slice: a Go string is its bytes; each byte is kept as the
character with that code. -/
def bytesToString (b : List Nat) : String := String.mk (b.map Char.ofNat)

/-- Go `strconv.Atoi`, where `int` has 64 bits. -/
def atoi (s : String) : Option Int := parseInt64 s

/-- Go `time.Hour`, in nanoseconds. -/
def timeHour : Int := 3600 * timeSecond

/-- Go `readUserKey`.  `verify` and `decrypt` (with the burned-in key and IV) are not among the
sources and are parameters; `now` is `time.Now()`.  `db[44:]` panics on fewer than 44 bytes and
`parts[2]` on fewer than three parts; the product of durations wraps around in `int64`. -/
def readUserKey (verify : String → String → Bool) (decrypt : String → Option String)
    (now : Int) (key : userKey) : KeyRet :=
  if !verify key.Key key.Signature then .error .invalidSignature
  else
    match decrypt key.Key with
    | none => .error .decrypt
    | some d =>
      match hexDecode d.data with
      | none => .error .decode
      | some db =>
        if db.length < 44 then .panics
        else
          match stringsSplit (bytesToString (db.drop 44)) with
          | p0 :: p1 :: p2 :: _ =>
            match atoi p2 with
            | none => .error .expiryDays
            | some days =>
              let expiry : Option Int :=
                if days > 0 then some (now + wrapInt64 (timeHour * 24 * days)) else none
              .ok { Username := p0, URI := p1, IV := db.take 12, SK := (db.drop 12).take 32,
                    Expiry := expiry }
          | _ => .panics

/-- A signature check that accepts the signature `sig`. -/
def demoVerify : String → String → Bool := fun _ s => s == "sig"

/-- A cipher that leaves the text as it is. -/
def demoDecrypt : String → Option String := fun k => some k

/-- The bytes 1 to 12, as IV. -/
def demoIV : List Nat := [1, 2, 3, 4, 5, 6, 7, 8, 9, 10, 11, 12]

/-- The bytes 101 to 132, as session key. -/
def demoSK : List Nat :=
  [101, 102, 103, 104, 105, 106, 107, 108, 109, 110, 111, 112, 113, 114, 115, 116,
   117, 118, 119, 120, 121, 122, 123, 124, 125, 126, 127, 128, 129, 130, 131, 132]

/-- The bytes of a text of ASCII characters. -/
def asciiBytes (s : String) : List Nat := s.data.map Char.toNat

/-- A user key with the record `u,v,30`. -/
def keyThirtyDays : userKey :=
  { Key := "0102030405060708090a0b0c65666768696a6b6c6d6e6f707172737475767778797a7b7c7d7e7f8081828384752c762c3330",
    Signature := "sig" }

/-- A user key with the record `u,v,9223372036854775808`: the days do not fit an `int`. -/
def keyHugeDays : userKey :=
  { Key := "0102030405060708090a0b0c65666768696a6b6c6d6e6f707172737475767778797a7b7c7d7e7f8081828384752c762c39323233333732303336383534373735383038",
    Signature := "sig" }

/-- A user key with the record `u,v,106752`: the days times 24 hours do not fit a `Duration`. -/
def keyLongDays : userKey :=
  { Key := "0102030405060708090a0b0c65666768696a6b6c6d6e6f707172737475767778797a7b7c7d7e7f8081828384752c762c313036373532",
    Signature := "sig" }

/-- A user key with the record `u,v`: the days are missing. -/
def keyNoDays : userKey :=
  { Key := "0102030405060708090a0b0c65666768696a6b6c6d6e6f707172737475767778797a7b7c7d7e7f8081828384752c76",
    Signature := "sig" }

/-! ## The results of a drained queue -/

/-- Modelled from the spec: the result that the loop of `worker.go` builds from what the executor
returns ("Build `{job_id, success = (err==nil), output, error = err.String()}`"); it is the
result that `drain` submits for the command `c`. -/
def resultOf (exec : CmdInfo → String × Option String) (c : CmdInfo) : JobResult :=
  { JobId := c.JobId, Success := (exec c).2.isNone, Output := (exec c).1,
    Error := (exec c).2.getD "" }

/-- The `.result` file that `submitJobResult` writes at the time `p.2` for the command `p.1`. -/
def resultEntry (J : Json) (exec : CmdInfo → String × Option String) (p : CmdInfo × Int) :
    FileInfo :=
  file (resultFile p.1.JobId) p.2 ((J.marshalResult (resultOf exec p.1)).getD "")

/-- The delivery of the results, as the ping loop and `TestWorker` do it: `peekJobResult`, then
`removeJobResult` of the result found, for at most `n` rounds; stops when no result is left and
at the first call that fails.  Returns the results in the order they were found. -/
def drainResults (S : SliceSorter) (J : Json) : Nat → FS → List JobResult × FS
  | 0, fs => ([], fs)
  | n + 1, fs =>
    match peekJobResult S J fs with
    | .ok (some r) =>
      match removeJobResult fs r with
      | (fs1, none) =>
        let rest := drainResults S J n fs1
        (r :: rest.1, rest.2)
      | (fs1, some _) => ([r], fs1)
    | _ => ([], fs)

/-- The queue of `demoJobs` as a listing by name shows it: the older job 2 comes second. -/
def fsListedByName : FS :=
  { data := [], process := [file "job_1.job" 20 "cmd 1", file "job_2.job" 10 "cmd 2"],
    submit := [] }

/-! # Theorems -/

/-! ## Names -/

theorem digitChar_isDigit (k : Nat) (h : k < 10) :
    (Nat.digitChar k).isDigit = true ∧ (Nat.digitChar k).toNat - 48 = k := by
  interval_cases k <;> decide

theorem parseDigits_toDigitsCore (fuel : Nat) :
    ∀ (n : Nat) (ds : List Char), n < fuel →
      parseDigits (Nat.toDigitsCore 10 fuel n ds) 0 = parseDigits ds n := by
  induction fuel with
  | zero => intro n ds h; omega
  | succ fuel ih =>
    intro n ds h
    have hd := digitChar_isDigit (n % 10) (Nat.mod_lt _ (by decide))
    simp only [Nat.toDigitsCore]
    split
    · rename_i h0
      simp only [parseDigits, hd.1, hd.2, if_true]
      congr 1
      omega
    · rename_i h0
      rw [ih (n / 10) _ (by omega)]
      simp only [parseDigits, hd.1, hd.2, if_true]
      congr 1
      omega

/-- Reading back the decimal digits of a number gives the number. -/
theorem parseDigits_repr (n : Nat) : parseDigits (Nat.repr n).data 0 = some n := by
  simp only [Nat.repr, Nat.toDigits, List.asString]
  rw [parseDigits_toDigitsCore _ _ _ (Nat.lt_succ_self n)]
  rfl

theorem repr_injective {a b : Nat} (h : Nat.repr a = Nat.repr b) : a = b := by
  have ha := parseDigits_repr a
  rw [h, parseDigits_repr b] at ha
  exact (Option.some.inj ha).symm

/-- Distinct job ids are printed differently. -/
theorem fmtD_injective {a b : Int} (h : fmtD a = fmtD b) : a = b := by
  have key : ∀ (m k : Nat), Nat.repr m ≠ "-" ++ Nat.repr (k + 1) := by
    intro m k hmk
    have hm := parseDigits_repr m
    rw [hmk] at hm
    simp [String.data_append, parseDigits] at hm
  cases a with
  | ofNat m =>
    cases b with
    | ofNat k => simp only [fmtD] at h; rw [repr_injective h]
    | negSucc k => simp only [fmtD] at h; exact absurd h (key m k)
  | negSucc m =>
    cases b with
    | ofNat k => simp only [fmtD] at h; exact absurd h.symm (key k m)
    | negSucc k =>
      simp only [fmtD] at h
      have h1 : Nat.repr (m + 1) = Nat.repr (k + 1) := by
        have := congrArg String.data h
        simp only [String.data_append, List.append_cancel_left_eq] at this
        exact String.ext this
      have := repr_injective h1
      have hmk : m = k := by omega
      rw [hmk]

/-! ## Directories -/

theorem lookup_mem {d : Dir} {n : String} {e : FileInfo} (h : d.lookup n = some e) :
    e ∈ d ∧ e.name = n := by
  unfold Dir.lookup at h
  exact ⟨List.mem_of_find?_eq_some h, by simpa using List.find?_some h⟩

theorem lookup_eq_none {d : Dir} {n : String} :
    d.lookup n = none ↔ ∀ e ∈ d, e.name ≠ n := by
  unfold Dir.lookup
  simp [List.find?_eq_none]

theorem lookup_cons (x : FileInfo) (d : Dir) (m : String) :
    Dir.lookup (x :: d) m = if x.name = m then some x else Dir.lookup d m := by
  unfold Dir.lookup
  by_cases h : x.name = m
  · rw [List.find?_cons_of_pos _ (by simpa using h), if_pos h]
  · rw [List.find?_cons_of_neg _ (by simpa using h), if_neg h]

theorem lookup_filter_ne (d : Dir) (n m : String) (h : m ≠ n) :
    Dir.lookup (d.filter (fun x => decide (x.name ≠ n))) m = d.lookup m := by
  induction d with
  | nil => rfl
  | cons x d ih =>
    by_cases hx : x.name = n
    · have hm : ¬ x.name = m := by rw [hx]; exact fun h2 => h h2.symm
      rw [List.filter_cons_of_neg (by simpa using hx), lookup_cons, if_neg hm, ih]
    · rw [List.filter_cons_of_pos (by simpa using hx), lookup_cons, lookup_cons, ih]

theorem lookup_filter_self (d : Dir) (n : String) :
    Dir.lookup (d.filter (fun x => decide (x.name ≠ n))) n = none := by
  rw [lookup_eq_none]
  intro e he
  simpa using (List.mem_filter.mp he).2

theorem lookup_map (d : Dir) (g : FileInfo → FileInfo) (hg : ∀ x, (g x).name = x.name)
    (m : String) : Dir.lookup (d.map g) m = (d.lookup m).map g := by
  induction d with
  | nil => rfl
  | cons x d ih =>
    rw [List.map_cons, lookup_cons, lookup_cons, hg, ih]
    split <;> rfl

theorem lookup_append (d1 d2 : Dir) (m : String) :
    Dir.lookup (d1 ++ d2) m = (d1.lookup m).or (d2.lookup m) := by
  induction d1 with
  | nil => simp [Dir.lookup]
  | cons x d ih =>
    rw [List.cons_append, lookup_cons, lookup_cons, ih]
    split <;> rfl

theorem osRemove_eq {d d1 : Dir} {n : String} (h : osRemove d n = .ok d1) :
    d1 = d.filter (fun x => decide (x.name ≠ n)) ∧ ∃ e, d.lookup n = some e := by
  unfold osRemove at h
  split at h
  · cases h
  · rename_i e he
    split at h
    · cases h
    · exact ⟨(Except.ok.inj h).symm, e, he⟩

theorem osRemove_length {d d1 : Dir} {n : String} (h : osRemove d n = .ok d1) :
    d1.length < d.length := by
  obtain ⟨h1, e, he⟩ := osRemove_eq h
  subst h1
  have hm := lookup_mem he
  apply List.length_filter_lt_length_iff_exists.mpr
  exact ⟨e, hm.1, by simp [hm.2]⟩

theorem osRemove_mem {d d1 : Dir} {n : String} (h : osRemove d n = .ok d1) :
    ∀ x, x ∈ d1 ↔ (x ∈ d ∧ x.name ≠ n) := by
  obtain ⟨h1, _⟩ := osRemove_eq h
  subst h1
  intro x
  simp [List.mem_filter]

theorem osRemove_lookup_ne {d d1 : Dir} {n m : String} (h : osRemove d n = .ok d1)
    (hm : m ≠ n) : d1.lookup m = d.lookup m := by
  rw [(osRemove_eq h).1, lookup_filter_ne d n m hm]

theorem osRemove_lookup_self {d d1 : Dir} {n : String} (h : osRemove d n = .ok d1) :
    d1.lookup n = none := by
  rw [(osRemove_eq h).1, lookup_filter_self]

theorem rewrite_name (n b : String) (t : Int) (x : FileInfo) : (rewrite n b t x).name = x.name := by
  unfold rewrite; split <;> rfl

theorem osWriteFile_cases {d d1 : Dir} {n b : String} {t : Int}
    (h : osWriteFile d n b t = .ok d1) :
    (d.lookup n = none ∧ d1 = d ++ [{ name := n, modTime := t, isDir := false, bytes := b }]) ∨
    (∃ e, d.lookup n = some e ∧ e.isDir = false ∧ d1 = d.map (rewrite n b t)) := by
  unfold osWriteFile at h
  split at h
  · rename_i hn
    exact Or.inl ⟨hn, (Except.ok.inj h).symm⟩
  · rename_i e he
    split at h
    · cases h
    · rename_i hd
      exact Or.inr ⟨e, he, by simpa using hd, (Except.ok.inj h).symm⟩

theorem osWriteFile_lookup_ne {d d1 : Dir} {n b : String} {t : Int} {m : String}
    (h : osWriteFile d n b t = .ok d1) (hm : m ≠ n) : d1.lookup m = d.lookup m := by
  rcases osWriteFile_cases h with ⟨_, h1⟩ | ⟨e, _, _, h1⟩
  · subst h1
    rw [lookup_append, lookup_cons, if_neg (Ne.symm hm)]
    cases d.lookup m <;> rfl
  · subst h1
    rw [lookup_map _ _ (rewrite_name n b t)]
    cases hl : d.lookup m with
    | none => rfl
    | some x =>
      have hx := (lookup_mem hl).2
      simp only [Option.map_some', rewrite]
      rw [if_neg (by rw [hx]; exact hm)]

theorem osWriteFile_lookup_self {d d1 : Dir} {n b : String} {t : Int}
    (h : osWriteFile d n b t = .ok d1) :
    ∃ e, d1.lookup n = some e ∧ e.isDir = false ∧ e.bytes = b ∧ e.modTime = t := by
  rcases osWriteFile_cases h with ⟨h0, h1⟩ | ⟨e, he, hd, h1⟩
  · subst h1
    refine ⟨{ name := n, modTime := t, isDir := false, bytes := b }, ?_, rfl, rfl, rfl⟩
    rw [lookup_append, h0, lookup_cons, if_pos rfl]
    rfl
  · subst h1
    refine ⟨rewrite n b t e, ?_, ?_, ?_, ?_⟩
    · rw [lookup_map _ _ (rewrite_name n b t), he]; rfl
    all_goals simp [rewrite, (lookup_mem he).2, hd]

theorem osWriteFile_of_file {d : Dir} {n b : String} {t : Int}
    (h : ∀ e, d.lookup n = some e → e.isDir = false) : ∃ d1, osWriteFile d n b t = .ok d1 := by
  unfold osWriteFile
  cases hl : d.lookup n with
  | none => exact ⟨_, rfl⟩
  | some e => simp [h e hl]

/-! ## The names of the spool files -/

theorem pathExt_jobFile (id : Int) : pathExt (jobFile id) = ".job" := by
  simp [pathExt, jobFile, String.data_append, extScan]

theorem pathExt_startedFile (id : Int) : pathExt (startedFile id) = ".started" := by
  simp [pathExt, startedFile, String.data_append, extScan]

theorem pathExt_submittedFile (id : Int) : pathExt (submittedFile id) = ".submitted" := by
  simp [pathExt, submittedFile, String.data_append, extScan]

theorem pathExt_resultFile (id : Int) : pathExt (resultFile id) = ".result" := by
  simp [pathExt, resultFile, String.data_append, extScan]

theorem jobFile_injective {a b : Int} (h : jobFile a = jobFile b) : a = b := by
  have := congrArg String.data h
  simp only [jobFile, String.data_append, List.append_cancel_left_eq,
    List.append_cancel_right_eq] at this
  exact fmtD_injective (String.ext this)

theorem submittedFile_injective {a b : Int} (h : submittedFile a = submittedFile b) : a = b := by
  have := congrArg String.data h
  simp only [submittedFile, String.data_append, List.append_cancel_left_eq,
    List.append_cancel_right_eq] at this
  exact fmtD_injective (String.ext this)

theorem startedFile_injective {a b : Int} (h : startedFile a = startedFile b) : a = b := by
  have := congrArg String.data h
  simp only [startedFile, String.data_append, List.append_cancel_left_eq,
    List.append_cancel_right_eq] at this
  exact fmtD_injective (String.ext this)

theorem resultFile_injective {a b : Int} (h : resultFile a = resultFile b) : a = b := by
  have := congrArg String.data h
  simp only [resultFile, String.data_append, List.append_cancel_left_eq,
    List.append_cancel_right_eq] at this
  exact fmtD_injective (String.ext this)

theorem startedFile_ne_submittedFile (a b : Int) : startedFile a ≠ submittedFile b := by
  intro h
  have := congrArg pathExt h
  rw [pathExt_startedFile, pathExt_submittedFile] at this
  revert this
  decide

theorem submittedFile_ne_eventsJson (a : Int) : submittedFile a ≠ eventsJson := by
  intro h
  have := congrArg pathExt h
  rw [pathExt_submittedFile] at this
  revert this
  decide

theorem startedFile_ne_eventsJson (a : Int) : startedFile a ≠ eventsJson := by
  intro h
  have := congrArg pathExt h
  rw [pathExt_startedFile] at this
  revert this
  decide

/-! ## removeJob, startedMarker and the body of peekJob -/

theorem removeJob_ok {fs fs1 : FS} {id : Int} (h : removeJob fs id = (fs1, none)) :
    osRemove fs.data (submittedFile id) = .ok fs1.data ∧
    osRemove fs.process (jobFile id) = .ok fs1.process ∧ fs1.submit = fs.submit := by
  unfold removeJob at h
  split at h
  · cases h
  · rename_i d hd
    split at h
    · cases h
    · rename_i p hp
      cases h
      exact ⟨hd, hp, rfl⟩

theorem removeJob_err {fs fs1 : FS} {id : Int} {e : Err} (h : removeJob fs id = (fs1, some e)) :
    fs1.process = fs.process ∧ fs1.submit = fs.submit ∧
    (fs1.data = fs.data ∨ osRemove fs.data (submittedFile id) = .ok fs1.data) := by
  unfold removeJob at h
  split at h
  · cases h; exact ⟨rfl, rfl, Or.inl rfl⟩
  · rename_i d hd
    split at h
    · cases h; exact ⟨rfl, rfl, Or.inr hd⟩
    · cases h

theorem startedMarker_frame {fs fs1 : FS} {file : FileInfo} {c : CmdInfo} {now : Int}
    {e : Option Err} (h : startedMarker fs (some { file := file, cmd := some c }) now = (fs1, e)) :
    fs1.process = fs.process ∧ fs1.submit = fs.submit ∧
    (fs1.data = fs.data ∨ osWriteFile fs.data (startedFile c.JobId) "" now = .ok fs1.data) := by
  simp only [startedMarker] at h
  split at h
  · cases h; exact ⟨rfl, rfl, Or.inl rfl⟩
  · rename_i d hd
    cases h; exact ⟨rfl, rfl, Or.inr hd⟩

/-- When the body of `peekJob` calls `peekJob` again, it has purged the oldest job. -/
theorem peekJobStep_again {S : SliceSorter} {J : Json} {now : Int} {fs fs1 : FS}
    (h : peekJobStep S J now fs = .again fs1) :
    ∃ file bytes c, firstWithExt ".job" (lsJobs S fs.process) = some file ∧
      osReadFile fs.process file.name = .ok bytes ∧ bytes ≠ "" ∧
      J.unmarshalCmd bytes = some c ∧ submittedMarkerExists fs c.JobId = true ∧
      removeJob fs c.JobId = (fs1, none) := by
  unfold peekJobStep at h
  split at h
  · cases h
  · rename_i file hfile
    split at h
    · cases h
    · rename_i bytes hread
      split at h
      · cases h
      · rename_i hne
        split at h
        · split at h <;> cases h
        · rename_i c hdec
          split at h
          · rename_i hmark
            split at h
            · cases h
            · rename_i fs2 hrm
              cases h
              exact ⟨file, bytes, c, hfile, hread, hne, hdec, hmark, hrm⟩
          · cases h

theorem firstWithExt_mem {ext : String} {l : List FileInfo} {f : FileInfo}
    (h : firstWithExt ext l = some f) : f ∈ l ∧ f.isDir = false ∧ pathExt f.name = ext := by
  unfold firstWithExt at h
  have h2 := List.find?_some h
  simp only [Bool.and_eq_true, Bool.not_eq_true', decide_eq_true_eq] at h2
  exact ⟨List.mem_of_find?_eq_some h, h2.1, h2.2⟩

/-- What the body of `peekJob` leaves behind when it returns. -/
theorem peekJobStep_done {S : SliceSorter} {J : Json} {now : Int} {fs fs1 : FS}
    {job : Option Job} {e : Option Err} (h : peekJobStep S J now fs = .done (fs1, job, e)) :
    fs1.process = fs.process ∧ fs1.submit = fs.submit ∧
    (fs1.data = fs.data ∨ (∃ id, osRemove fs.data (submittedFile id) = .ok fs1.data) ∨
      ∃ id, osWriteFile fs.data (startedFile id) "" now = .ok fs1.data) ∧
    ∀ j, job = some j → firstWithExt ".job" (lsJobs S fs.process) = some j.file := by
  unfold peekJobStep at h
  split at h
  · cases h; exact ⟨rfl, rfl, Or.inl rfl, fun j hj => by cases hj⟩
  · rename_i file hfile
    split at h
    · cases h; exact ⟨rfl, rfl, Or.inl rfl, fun j hj => by cases hj⟩
    · rename_i bytes hread
      split at h
      · cases h; exact ⟨rfl, rfl, Or.inl rfl, fun j hj => by cases hj⟩
      · rename_i hne
        split at h
        · split at h <;> cases h <;>
            exact ⟨rfl, rfl, Or.inl rfl, fun j hj => by cases hj; exact hfile⟩
        · rename_i c hdec
          split at h
          · rename_i hmark
            split at h
            · rename_i fs2 e2 hrm
              cases h
              obtain ⟨h1, h2, h3⟩ := removeJob_err hrm
              refine ⟨h1, h2, ?_, fun j hj => by cases hj⟩
              rcases h3 with h3 | h3
              · exact Or.inl h3
              · exact Or.inr (Or.inl ⟨_, h3⟩)
            · cases h
          · rename_i hmark
            simp only [PeekStep.done.injEq, Prod.mk.injEq] at h
            obtain ⟨h1, h2, h3⟩ := h
            have hpair : startedMarker fs (some { file := file, cmd := some c }) now = (fs1, e) :=
              Prod.ext h1 h3
            have hs := startedMarker_frame hpair
            refine ⟨hs.1, hs.2.1, ?_, fun j hj => by rw [← h2] at hj; cases hj; exact hfile⟩
            rcases hs.2.2 with h4 | h4
            · exact Or.inl h4
            · exact Or.inr (Or.inr ⟨_, h4⟩)

/-! ## The recursion of peekJob -/

theorem peekJobStep_again_length {S : SliceSorter} {J : Json} {now : Int} {fs fs1 : FS}
    (h : peekJobStep S J now fs = .again fs1) : fs1.process.length < fs.process.length := by
  obtain ⟨_, _, c, _, _, _, _, _, hrm⟩ := peekJobStep_again h
  exact osRemove_length (removeJob_ok hrm).2.1

/-- With more fuel than the process dir has entries, `peekJob` returns. -/
theorem peekJobAux_total (S : SliceSorter) (J : Json) (now : Int) :
    ∀ (n : Nat) (fs : FS), fs.process.length < n → ∃ r, peekJobAux S J now n fs = some r := by
  intro n
  induction n with
  | zero => intro fs h; omega
  | succ n ih =>
    intro fs h
    rw [peekJobAux]
    cases hs : peekJobStep S J now fs with
    | done r => exact ⟨r, rfl⟩
    | again fs1 =>
      have := peekJobStep_again_length hs
      exact ih fs1 (by omega)

/-- The result of `peekJob` does not depend on the fuel, once there is enough of it. -/
theorem peekJobAux_fuel (S : SliceSorter) (J : Json) (now : Int) :
    ∀ (n m : Nat) (fs : FS), fs.process.length < n → fs.process.length < m →
      peekJobAux S J now n fs = peekJobAux S J now m fs := by
  intro n
  induction n with
  | zero => intro m fs h; omega
  | succ n ih =>
    intro m fs hn hm
    cases m with
    | zero => omega
    | succ m =>
      rw [peekJobAux, peekJobAux]
      cases hs : peekJobStep S J now fs with
      | done r => rfl
      | again fs1 =>
        have := peekJobStep_again_length hs
        exact ih m fs1 (by omega) (by omega)

theorem peekJob_eq_aux (S : SliceSorter) (J : Json) (now : Int) (n : Nat) (fs : FS)
    (h : fs.process.length < n) : peekJobAux S J now n fs = peekJob S J now fs :=
  peekJobAux_fuel S J now n _ fs h (Nat.lt_succ_self _)

/-- One unfolding of `peekJob`. -/
theorem peekJob_unfold (S : SliceSorter) (J : Json) (now : Int) (fs : FS) :
    peekJob S J now fs =
      match peekJobStep S J now fs with
      | .done r => some r
      | .again fs1 => peekJob S J now fs1 := by
  unfold peekJob
  rw [peekJobAux]
  cases hs : peekJobStep S J now fs with
  | done r => rfl
  | again fs1 =>
    have := peekJobStep_again_length hs
    exact peekJobAux_fuel S J now _ _ fs1 (by omega) (Nat.lt_succ_self _)

theorem peekJobAux_frame (S : SliceSorter) (J : Json) (now : Int) :
    ∀ (n : Nat) (fs fs2 : FS) (job : Option Job) (e : Option Err),
      peekJobAux S J now n fs = some (fs2, job, e) →
      PeekFrame fs fs2 ∧ ∀ j, job = some j → j.file ∈ fs2.process := by
  intro n
  induction n with
  | zero => intro fs fs2 job e h; cases h
  | succ n ih =>
    intro fs fs2 job e h
    rw [peekJobAux] at h
    cases hs : peekJobStep S J now fs with
    | done r =>
      rw [hs] at h
      simp only [Option.some.injEq] at h
      subst h
      obtain ⟨h1, h2, h3, h4⟩ := peekJobStep_done hs
      refine ⟨⟨h2, fun x hx => h1 ▸ hx, ?_⟩, ?_⟩
      · intro m hm
        rcases h3 with h3 | ⟨id, h3⟩ | ⟨id, h3⟩
        · left; rw [h3]
        · by_cases hmi : m = submittedFile id
          · right; rw [hmi]; exact osRemove_lookup_self h3
          · left; exact osRemove_lookup_ne h3 hmi
        · left; exact osWriteFile_lookup_ne h3 (hm id)
      · intro j hj
        rw [h1]
        exact (S.perm _).subset (firstWithExt_mem (h4 j hj)).1
    | again fs1 =>
      rw [hs] at h
      obtain ⟨⟨a1, a2, a3⟩, a4⟩ := ih fs1 fs2 job e h
      obtain ⟨_, _, c, _, _, _, _, _, hrm⟩ := peekJobStep_again hs
      obtain ⟨r1, r2, r3⟩ := removeJob_ok hrm
      refine ⟨⟨a1.trans r3, ?_, ?_⟩, a4⟩
      · intro x hx
        exact ((osRemove_mem r2 x).mp (a2 x hx)).1
      · intro m hm
        rcases a3 m hm with h5 | h5
        · by_cases hmi : m = submittedFile c.JobId
          · right; rw [h5, hmi]; exact osRemove_lookup_self r1
          · left; rw [h5]; exact osRemove_lookup_ne r1 hmi
        · exact Or.inr h5

theorem osReadFile_ok {d : Dir} {n b : String} (h : osReadFile d n = .ok b) :
    ∃ e, d.lookup n = some e ∧ e.isDir = false ∧ e.bytes = b := by
  unfold osReadFile at h
  split at h
  · cases h
  · rename_i e he
    split at h
    · cases h
    · rename_i hd
      exact ⟨e, he, by simpa using hd, Except.ok.inj h⟩

theorem osRemove_of_file {d : Dir} {n : String} {e : FileInfo} (h : d.lookup n = some e)
    (hd : e.isDir = false) : osRemove d n = .ok (d.filter (fun x => decide (x.name ≠ n))) := by
  unfold osRemove
  rw [h]
  simp [hd]

theorem osStat_of_lookup {d : Dir} {n : String} {e : FileInfo} (h : d.lookup n = some e) :
    osStat d n = true := by
  unfold osStat; rw [h]; rfl

/-- The body of `peekJob` on a queue whose oldest job is decodable and already submitted. -/
theorem peekJobStep_purge {S : SliceSorter} {J : Json} (now : Int) {fs : FS} {file : FileInfo}
    {bytes marker : String} {c : CmdInfo}
    (hfirst : firstWithExt ".job" (lsJobs S fs.process) = some file)
    (hname : file.name = jobFile c.JobId)
    (hread : osReadFile fs.process file.name = .ok bytes)
    (hne : bytes ≠ "") (hdec : J.unmarshalCmd bytes = some c)
    (hmark : osReadFile fs.data (submittedFile c.JobId) = .ok marker) :
    peekJobStep S J now fs = .again (purged fs c.JobId) := by
  obtain ⟨m, hm, hmd, _⟩ := osReadFile_ok hmark
  obtain ⟨f, hf, hfd, _⟩ := osReadFile_ok hread
  rw [hname] at hf
  have hrm : removeJob fs c.JobId = (purged fs c.JobId, none) := by
    unfold removeJob
    rw [osRemove_of_file hm hmd, osRemove_of_file hf hfd]
    rfl
  unfold peekJobStep
  simp only [hfirst, hread, hne, if_false, hdec, submittedMarkerExists, osStat_of_lookup hm,
    if_true, hrm]

/-! ## C3: a job that is already submitted is purged -/

/-- C3. When the oldest `.job` file of the queue, `job_<id>.job`, decodes to a command whose
`job_<id>.submitted` marker is already there, `peekJob` removes `job_<id>.job` and
`job_<id>.submitted`, leaves the submit dir (and so `job_<id>.result`) untouched, does not
return that job, and returns what peeking the rest of the queue returns. -/
theorem peekJob_purges_submitted (S : SliceSorter) (J : Json) (now : Int) (fs : FS)
    (file : FileInfo) (bytes marker : String) (c : CmdInfo)
    (hfirst : firstWithExt ".job" (lsJobs S fs.process) = some file)
    (hname : file.name = jobFile c.JobId)
    (hread : osReadFile fs.process file.name = .ok bytes)
    (hne : bytes ≠ "") (hdec : J.unmarshalCmd bytes = some c)
    (hmark : osReadFile fs.data (submittedFile c.JobId) = .ok marker) :
    peekJob S J now fs = peekJob S J now (purged fs c.JobId) ∧
    ∃ fs2 job e, peekJob S J now fs = some (fs2, job, e) ∧
      fs2.submit = fs.submit ∧
      (∀ x ∈ fs2.process, x.name ≠ jobFile c.JobId) ∧
      (∀ x ∈ fs2.data, x.name ≠ submittedFile c.JobId) ∧
      (∀ j, job = some j → j.file.name ≠ jobFile c.JobId) := by
  have hstep := peekJobStep_purge now hfirst hname hread hne hdec hmark
  have hunf : peekJob S J now fs = peekJob S J now (purged fs c.JobId) := by
    rw [peekJob_unfold, hstep]
  refine ⟨hunf, ?_⟩
  obtain ⟨⟨fs2, job, e⟩, hr⟩ :=
    peekJobAux_total S J now _ (purged fs c.JobId) (Nat.lt_succ_self _)
  have hr2 : peekJob S J now (purged fs c.JobId) = some (fs2, job, e) := hr
  obtain ⟨⟨a1, a2, a3⟩, a4⟩ := peekJobAux_frame S J now _ _ _ _ _ hr
  have hproc : ∀ x ∈ fs2.process, x.name ≠ jobFile c.JobId := by
    intro x hx
    have := a2 x hx
    simpa [purged] using (List.mem_filter.mp this).2
  refine ⟨fs2, job, e, hunf.trans hr2, a1, hproc, ?_, fun j hj => hproc _ (a4 j hj)⟩
  have hnone : fs2.data.lookup (submittedFile c.JobId) = none := by
    have h0 : (purged fs c.JobId).data.lookup (submittedFile c.JobId) = none :=
      lookup_filter_self _ _
    rcases a3 (submittedFile c.JobId) (fun id h => startedFile_ne_submittedFile _ _ h.symm) with h | h
    · rw [h, h0]
    · exact h
  exact lookup_eq_none.mp hnone

theorem peekJob_purges_submitted_witness :
    peekJob goSorter demoJson 30 fsCrashMidSubmit
        = peekJob goSorter demoJson 30 (purged fsCrashMidSubmit 1) ∧
    ∃ fs2 job e, peekJob goSorter demoJson 30 fsCrashMidSubmit = some (fs2, job, e) ∧
      fs2.submit = fsCrashMidSubmit.submit ∧
      (∀ x ∈ fs2.process, x.name ≠ jobFile 1) ∧
      (∀ x ∈ fs2.data, x.name ≠ submittedFile 1) ∧
      (∀ j, job = some j → j.file.name ≠ jobFile 1) :=
  peekJob_purges_submitted goSorter demoJson 30 fsCrashMidSubmit (file "job_1.job" 10 "cmd 1")
    "cmd 1" "" (demoCmd 1) (by decide) (by decide) (by decide) (by decide) (by decide)
    (by decide)

/-! ## C1: a restart in the middle of the turn of the worker -/

theorem peekJobAux_last (S : SliceSorter) (J : Json) (now : Int) :
    ∀ (n : Nat) (fs : FS) (r : FS × Option Job × Option Err),
      peekJobAux S J now n fs = some r → ∃ fsk, peekJobStep S J now fsk = .done r := by
  intro n
  induction n with
  | zero => intro fs r h; cases h
  | succ n ih =>
    intro fs r h
    rw [peekJobAux] at h
    cases hs : peekJobStep S J now fs with
    | done r1 =>
      rw [hs] at h
      exact ⟨fs, by rw [hs, Option.some.inj h]⟩
    | again fs1 =>
      rw [hs] at h
      exact ih fs1 r h

/-- The body of `peekJob` when it hands out a job without an error. -/
theorem peekJobStep_handed {S : SliceSorter} {J : Json} {now : Int} {fs fs1 : FS} {j : Job}
    (h : peekJobStep S J now fs = .done (fs1, some j, none)) :
    ∃ bytes c, j.cmd = some c ∧
      firstWithExt ".job" (lsJobs S fs.process) = some j.file ∧
      osReadFile fs.process j.file.name = .ok bytes ∧ bytes ≠ "" ∧
      J.unmarshalCmd bytes = some c ∧ submittedMarkerExists fs c.JobId = false ∧
      osWriteFile fs.data (startedFile c.JobId) "" now = .ok fs1.data ∧
      fs1.process = fs.process ∧ fs1.submit = fs.submit := by
  unfold peekJobStep at h
  split at h
  · cases h
  · rename_i file hfile
    split at h
    · cases h
    · rename_i bytes hread
      split at h
      · cases h
      · rename_i hne
        split at h
        · split at h <;> cases h
        · rename_i c hdec
          split at h
          · split at h <;> cases h
          · rename_i hmark
            simp only [PeekStep.done.injEq, Prod.mk.injEq] at h
            obtain ⟨h1, h2, h3⟩ := h
            simp only [Option.some.injEq] at h2
            subst h2
            simp only [startedMarker] at h1 h3
            split at h1
            · rename_i e he
              rw [he] at h3
              cases h3
            · rename_i d hd
              subst h1
              exact ⟨bytes, c, rfl, hfile, hread, hne, hdec, by simpa using hmark, hd, rfl, rfl⟩

/-- The body of `peekJob` on a queue whose oldest job is decodable and not yet submitted. -/
theorem peekJobStep_hand (S : SliceSorter) (J : Json) (now : Int) (fs : FS) {file : FileInfo}
    {bytes : String} {c : CmdInfo}
    (hfirst : firstWithExt ".job" (lsJobs S fs.process) = some file)
    (hread : osReadFile fs.process file.name = .ok bytes)
    (hne : bytes ≠ "") (hdec : J.unmarshalCmd bytes = some c)
    (hmark : submittedMarkerExists fs c.JobId = false) :
    peekJobStep S J now fs =
      .done ((startedMarker fs (some { file := file, cmd := some c }) now).1,
        some { file := file, cmd := some c },
        (startedMarker fs (some { file := file, cmd := some c }) now).2) := by
  unfold peekJobStep
  simp only [hfirst, hread, hne, if_false, hdec, hmark, Bool.false_eq_true]

/-- A job that `peekJob` has handed out is handed out again by the next `peekJob`, whatever has
been written to the submit dir in between, as long as no submitted marker has been written. -/
theorem peekJob_again (S : SliceSorter) (J : Json) (now now2 : Int) (fs fs1 : FS) (job : Job)
    (s : Dir) (h : peekJob S J now fs = some (fs1, some job, none)) :
    ∃ fs2, peekJob S J now2 { fs1 with submit := s } = some (fs2, some job, none) := by
  obtain ⟨fsk, hk⟩ := peekJobAux_last S J now _ fs _ h
  obtain ⟨bytes, c, hc, hfirst, hread, hne, hdec, hmark, hw, hp, _⟩ := peekJobStep_handed hk
  have hjob : job = { file := job.file, cmd := some c } := by
    cases job; simp only at hc; rw [hc]
  have hmark2 : submittedMarkerExists { fs1 with submit := s } c.JobId = false := by
    unfold submittedMarkerExists osStat at hmark ⊢
    simp only
    rw [osWriteFile_lookup_ne hw (fun h => startedFile_ne_submittedFile _ _ h.symm)]
    exact hmark
  have hstep := peekJobStep_hand S J now2 { fs1 with submit := s }
    (by simpa [hp] using hfirst) (by simpa [hp] using hread)
    hne hdec hmark2
  obtain ⟨m, hm, hmd, _⟩ := osWriteFile_lookup_self hw
  obtain ⟨d2, hd2⟩ := osWriteFile_of_file (d := fs1.data) (n := startedFile c.JobId) (b := "")
    (t := now2) (fun e he => by rw [hm] at he; cases he; exact hmd)
  have hsm : startedMarker { fs1 with submit := s } (some { file := job.file, cmd := some c }) now2
      = ({ fs1 with submit := s, data := d2 }, none) := by
    simp only [startedMarker, hd2]
  rw [hsm] at hstep
  refine ⟨{ fs1 with submit := s, data := d2 }, ?_⟩
  rw [peekJob_unfold, hstep, ← hjob]

/-- C1, what the code does. When a restart cuts the turn of the worker short after `execute`
(`k = 2`) or after the write of the `.result` file (`k = 3`), the command has been executed, and
the next `peekJob` hands out the same job a second time. -/
theorem peekJob_hands_out_executed_job (S : SliceSorter) (J : Json) (now now2 : Int)
    (fs fs1 : FS) (job : Job) (result : JobResult) (k : Nat)
    (h : peekJob S J now fs = some (fs1, some job, none)) (hk : k = 2 ∨ k = 3) :
    ∃ fs2, peekJob S J now2 (runCut S J now result k fs) = some (fs2, some job, none) := by
  have hpeek : WorkerStep.run S J now result .peek fs = fs1 := by
    simp only [WorkerStep.run, h]
  have h2 : runCut S J now result 2 fs = fs1 := by
    show WorkerStep.run S J now result .execute (WorkerStep.run S J now result .peek fs) = fs1
    rw [hpeek]
    rfl
  have h3 : runCut S J now result 3 fs = WorkerStep.run S J now result .writeResult fs1 := by
    show WorkerStep.run S J now result .writeResult
      (WorkerStep.run S J now result .execute (WorkerStep.run S J now result .peek fs)) = _
    rw [hpeek]
    rfl
  have hcut : ∃ s, runCut S J now result k fs = { fs1 with submit := s } := by
    rcases hk with rfl | rfl
    · exact ⟨fs1.submit, h2⟩
    · rw [h3]
      simp only [WorkerStep.run]
      split
      · exact ⟨fs1.submit, rfl⟩
      · split
        · exact ⟨fs1.submit, rfl⟩
        · exact ⟨_, rfl⟩
  obtain ⟨s, hs⟩ := hcut
  rw [hs]
  exact peekJob_again S J now now2 fs fs1 job s h

theorem peekJob_hands_out_executed_job_witness :
    ∃ fs2, peekJob goSorter demoJson 30 (runCut goSorter demoJson 20 (demoResult 1) 3 fsOneJob)
      = some (fs2, some { file := file "job_1.job" 10 "cmd 1", cmd := some (demoCmd 1) }, none) :=
  peekJob_hands_out_executed_job goSorter demoJson 20 30 fsOneJob
    { fsOneJob with data := [file "job_1.started" 20 ""] }
    { file := file "job_1.job" 10 "cmd 1", cmd := some (demoCmd 1) } (demoResult 1) 3
    (by decide) (Or.inr rfl)

/-! ## The single calls of a turn of the worker -/

/-- The oldest entry of a folder of regular files with one extension comes first in `lsJobs`. -/
theorem firstWithExt_oldest (S : SliceSorter) (ext : String) (e : FileInfo) (rest : List FileInfo)
    (hall : ∀ x ∈ e :: rest, x.isDir = false ∧ pathExt x.name = ext)
    (hmin : ∀ x ∈ rest, e.modTime < x.modTime) :
    firstWithExt ext (lsJobs S (e :: rest)) = some e := by
  unfold lsJobs
  have hperm := S.perm (e :: rest)
  have hsorted := S.sorted (e :: rest)
  cases hl : S.sort (e :: rest) with
  | nil =>
    rw [hl] at hperm
    exact absurd hperm.length_eq (by simp)
  | cons h t =>
    rw [hl] at hperm hsorted
    have hh : h ∈ e :: rest := hperm.subset (List.mem_cons_self h t)
    have hhe : h = e := by
      rcases List.mem_cons.mp hh with h1 | h1
      · exact h1
      · exfalso
        have hlt := hmin h h1
        have he : e ∈ h :: t := hperm.symm.subset (List.mem_cons_self e rest)
        rcases List.mem_cons.mp he with h2 | h2
        · rw [h2] at hlt; exact lt_irrefl _ hlt
        · have := (List.pairwise_cons.mp hsorted).1 e h2
          omega
    subst hhe
    unfold firstWithExt
    rw [List.find?_cons_of_pos]
    have := hall h (List.mem_cons_self h rest)
    simp [this.1, this.2]

theorem removeJob_of_files {fs : FS} {id : Int} {m f : FileInfo}
    (hm : fs.data.lookup (submittedFile id) = some m) (hmd : m.isDir = false)
    (hf : fs.process.lookup (jobFile id) = some f) (hfd : f.isDir = false) :
    removeJob fs id = (purged fs id, none) := by
  unfold removeJob
  rw [osRemove_of_file hm hmd, osRemove_of_file hf hfd]
  rfl

/-- When nothing but a regular file can be in the way, `submitJobResult` succeeds; it writes the
result file and the submitted marker and touches no other name. -/
theorem submitJobResult_ok (J : Json) (fs : FS) (r : JobResult) (now : Int) (bytes : String)
    (hb : J.marshalResult r = some bytes)
    (hs : ∀ e, fs.submit.lookup (resultFile r.JobId) = some e → e.isDir = false)
    (hd : ∀ e, fs.data.lookup (submittedFile r.JobId) = some e → e.isDir = false) :
    ∃ fs2, submitJobResult J fs r now = (fs2, none) ∧ fs2.process = fs.process ∧
      osWriteFile fs.submit (resultFile r.JobId) bytes now = .ok fs2.submit ∧
      (∃ m, fs2.data.lookup (submittedFile r.JobId) = some m ∧ m.isDir = false) ∧
      (∀ n, n ≠ submittedFile r.JobId → n ≠ startedFile r.JobId →
        fs2.data.lookup n = fs.data.lookup n) := by
  obtain ⟨s, hs1⟩ := osWriteFile_of_file (b := bytes) (t := now) hs
  obtain ⟨d, hd1⟩ := osWriteFile_of_file (b := "") (t := now) hd
  obtain ⟨m, hm, hmd, _⟩ := osWriteFile_lookup_self hd1
  unfold submitJobResult
  simp only [hb, hs1, submittedMarker, hd1]
  cases hrm : osRemove d (startedFile r.JobId) with
  | error e =>
    refine ⟨_, rfl, rfl, rfl, ⟨m, hm, hmd⟩, ?_⟩
    intro n hn _
    exact osWriteFile_lookup_ne hd1 hn
  | ok d1 =>
    refine ⟨_, rfl, rfl, rfl, ⟨m, ?_, hmd⟩, ?_⟩
    · show d1.lookup _ = _
      rw [osRemove_lookup_ne hrm (fun h => startedFile_ne_submittedFile _ _ h.symm)]
      exact hm
    · intro n hn hn2
      show d1.lookup _ = _
      rw [osRemove_lookup_ne hrm hn2]
      exact osWriteFile_lookup_ne hd1 hn

/-! ## The job files of an enqueued list of commands -/

theorem jobEntry_name (J : Json) (p : CmdInfo × Int) : (jobEntry J p).name = jobFile p.1.JobId :=
  rfl

theorem lookup_jobEntries_none (J : Json) (rest : List (CmdInfo × Int)) (id : Int)
    (h : ∀ q ∈ rest, id ≠ q.1.JobId) :
    Dir.lookup (rest.map (jobEntry J)) (jobFile id) = none := by
  rw [lookup_eq_none]
  intro e he
  obtain ⟨q, hq, rfl⟩ := List.mem_map.mp he
  rw [jobEntry_name]
  exact fun hn => h q hq (jobFile_injective hn).symm

/-- Enqueueing commands with distinct ids appends their `.job` files to the process dir. -/
theorem enqueueAll_eq (J : Json) :
    ∀ (jobs : List (CmdInfo × Int)) (fs : FS),
      (∀ p ∈ jobs, ∃ b, J.marshalCmd p.1 = some b) →
      jobs.Pairwise (fun p q => p.1.JobId ≠ q.1.JobId) →
      (∀ p ∈ jobs, fs.process.lookup (jobFile p.1.JobId) = none) →
      enqueueAll J fs jobs = { fs with process := fs.process ++ jobs.map (jobEntry J) } := by
  intro jobs
  induction jobs with
  | nil => intro fs _ _ _; simp [enqueueAll]
  | cons p rest ih =>
    intro fs hm hids hfree
    obtain ⟨b, hb⟩ := hm p (List.mem_cons_self _ _)
    have hl := hfree p (List.mem_cons_self _ _)
    have hadd : addJob J fs p.1 p.2 = ({ fs with process := fs.process ++ [jobEntry J p] }, none) := by
      unfold addJob osWriteFile
      simp only [hb, hl, jobEntry, file, Option.getD_some]
    obtain ⟨c, t⟩ := p
    simp only [enqueueAll, hadd]
    rw [ih _ (fun q hq => hm q (List.mem_cons_of_mem _ hq)) (List.pairwise_cons.mp hids).2]
    · simp
    · intro q hq
      simp only
      rw [lookup_append, hfree q (List.mem_cons_of_mem _ hq), lookup_cons, jobEntry_name,
        if_neg]
      · rfl
      · exact fun hn => (List.pairwise_cons.mp hids).1 q hq (jobFile_injective hn)

/-! ## The event spool -/

theorem lookup_of_mem {d : Dir} (hwf : d.WF) {e : FileInfo} (he : e ∈ d) :
    d.lookup e.name = some e := by
  induction d with
  | nil => cases he
  | cons x d ih =>
    unfold Dir.WF at hwf
    rw [List.map_cons, List.nodup_cons] at hwf
    rw [lookup_cons]
    rcases List.mem_cons.mp he with rfl | h
    · rw [if_pos rfl]
    · have hne : x.name ≠ e.name := fun hx => hwf.1 (hx ▸ List.mem_map_of_mem _ h)
      rw [if_neg hne]
      exact ih hwf.2 h

theorem osReadFile_of_mem {d : Dir} (hwf : d.WF) {e : FileInfo} (he : e ∈ d)
    (hd : e.isDir = false) : osReadFile d e.name = .ok e.bytes := by
  unfold osReadFile
  rw [lookup_of_mem hwf he]
  simp [hd]

/-- The loop of `getEvents` passes over what is not an event file. -/
theorem getEventsLoop_evFiles (J : Json) (submit : Dir) (max : Int) :
    ∀ (l : List FileInfo) (names : List String) (events : List Event),
      getEventsLoop J submit max l names events
        = getEventsLoop J submit max (evFiles l) names events := by
  intro l
  induction l with
  | nil => intro names events; rfl
  | cons f rest ih =>
    intro names events
    by_cases hf : isEvFile f = true
    · have hev : evFiles (f :: rest) = f :: evFiles rest := by
        unfold evFiles; rw [List.filter_cons_of_pos hf]
      rw [hev]
      have hf2 : (!f.isDir && decide (pathExt f.name = ".ev")) = true := hf
      simp only [getEventsLoop, hf2, if_true]
      cases hr : osReadFile submit f.name with
      | error e => rfl
      | ok bytes =>
        simp only
        cases hu : J.unmarshalEvent bytes with
        | none => rfl
        | some entry =>
          simp only
          rw [ih (names ++ [f.name]) (events ++ [entry])]
    · have hev : evFiles (f :: rest) = evFiles rest := by
        unfold evFiles; rw [List.filter_cons_of_neg hf]
      rw [hev]
      have hf2 : (!f.isDir && decide (pathExt f.name = ".ev")) = false := by
        simpa [isEvFile] using hf
      simp only [getEventsLoop, hf2, Bool.false_eq_true, if_false]
      exact ih _ _

/-- With no event file in the submit dir, `getEvents` returns `(nil, nil)` and changes
nothing. -/
theorem getEvents_of_no_ev (S : SliceSorter) (J : Json) (max now : Int) (fs : FS)
    (h : evFiles fs.submit = []) : getEvents S J max now fs = (fs, none, none) := by
  have hl : evFiles (lsJobs S fs.submit) = [] := by
    unfold evFiles lsJobs
    rw [List.filter_eq_nil_iff]
    intro x hx
    have hx2 : x ∈ fs.submit := (S.perm _).subset hx
    have := List.filter_eq_nil_iff.mp h x hx2
    exact this
  unfold getEvents
  rw [getEventsLoop_evFiles, hl]
  simp [getEventsLoop]

/-- The loop of `getEvents` on event files that can all be read and decoded: it takes files
until it has `max` names. -/
theorem getEventsLoop_take (J : Json) (submit : Dir) (max : Int) :
    ∀ (l : List FileInfo) (names : List String) (events : List Event),
      (∀ f ∈ l, isEvFile f = true ∧ osReadFile submit f.name = .ok f.bytes ∧
        (J.unmarshalEvent f.bytes).isSome) →
      (names.length : Int) < max →
      getEventsLoop J submit max l names events
        = .ok (names ++ (l.take (max - names.length).toNat).map FileInfo.name,
            events ++ (l.take (max - names.length).toNat).filterMap
              (fun f => J.unmarshalEvent f.bytes)) := by
  intro l
  induction l with
  | nil => intro names events _ _; simp [getEventsLoop]
  | cons f rest ih =>
    intro names events hl hlt
    obtain ⟨hf, hread, hdec⟩ := hl f (List.mem_cons_self _ _)
    have hf2 : (!f.isDir && decide (pathExt f.name = ".ev")) = true := hf
    obtain ⟨entry, hentry⟩ := Option.isSome_iff_exists.mp hdec
    obtain ⟨k, hk⟩ : ∃ k : Nat, (max - names.length).toNat = k + 1 :=
      ⟨(max - names.length).toNat - 1, by omega⟩
    simp only [getEventsLoop, hf2, if_true, hread, hentry]
    have hfm : ∀ t : List FileInfo,
        List.filterMap (fun g => J.unmarshalEvent g.bytes) (f :: t)
          = entry :: List.filterMap (fun g => J.unmarshalEvent g.bytes) t := by
      intro t
      simp [List.filterMap_cons, hentry]
    rw [hk, List.take_succ_cons, List.map_cons, hfm]
    split
    · rename_i hge
      have hk0 : k = 0 := by
        simp only [List.length_append, List.length_singleton, Nat.cast_add, Nat.cast_one] at hge
        omega
      subst hk0
      simp
    · rename_i hge
      simp only [List.length_append, List.length_singleton, Nat.cast_add, Nat.cast_one,
        ge_iff_le, not_le] at hge
      rw [ih _ _ (fun g hg => hl g (List.mem_cons_of_mem _ hg))
        (by simp only [List.length_append, List.length_singleton, Nat.cast_add, Nat.cast_one]
            exact hge)]
      have hk2 : (max - ((names ++ [f.name]).length : Int)).toNat = k := by
        simp only [List.length_append, List.length_singleton, Nat.cast_add, Nat.cast_one]
        omega
      rw [hk2]
      simp

/-- What the loop of `getEvents` returns, whatever the files hold: the names of some of the
regular files of the listing, in its order. -/
theorem getEventsLoop_names (J : Json) (submit : Dir) (max : Int) :
    ∀ (l : List FileInfo) (names names2 : List String) (events events2 : List Event),
      getEventsLoop J submit max l names events = .ok (names2, events2) →
      ∃ batch : List FileInfo, batch.Sublist l ∧ names2 = names ++ batch.map FileInfo.name ∧
        ∀ f ∈ batch, f.isDir = false := by
  intro l
  induction l with
  | nil =>
    intro names names2 events events2 h
    simp only [getEventsLoop, Except.ok.injEq, Prod.mk.injEq] at h
    exact ⟨[], List.Sublist.refl _, by simp [h.1], fun f hf => by cases hf⟩
  | cons f rest ih =>
    intro names names2 events events2 h
    rw [getEventsLoop] at h
    split at h
    · rename_i hf
      have hfd : f.isDir = false := by
        simp only [Bool.and_eq_true, Bool.not_eq_true'] at hf
        exact hf.1
      split at h
      · cases h
      · split at h
        · cases h
        · split at h
          · simp only [Except.ok.injEq, Prod.mk.injEq] at h
            refine ⟨[f], ?_, by simp [← h.1], ?_⟩
            · exact List.Sublist.cons₂ f (List.nil_sublist rest)
            · intro g hg
              rw [List.mem_singleton.mp hg]; exact hfd
          · obtain ⟨batch, hb1, hb2, hb3⟩ := ih _ _ _ _ h
            refine ⟨f :: batch, List.Sublist.cons₂ f hb1, by simp [hb2], ?_⟩
            intro g hg
            rcases List.mem_cons.mp hg with rfl | hg
            · exact hfd
            · exact hb3 g hg
    · obtain ⟨batch, hb1, hb2, hb3⟩ := ih _ _ _ _ h
      exact ⟨batch, List.Sublist.cons f hb1, hb2, hb3⟩

/-! ## C8, C9: getEvents -/

/-- C8. For every `max`, when the submit dir holds no regular file with the extension `.ev`,
`getEvents(max)` returns `(nil, nil)` and leaves the file system as it is; no `events.json` is
created. -/
theorem getEvents_no_events (S : SliceSorter) (J : Json) (max now : Int) (fs : FS)
    (h : ∀ e ∈ fs.submit, ¬ (e.isDir = false ∧ pathExt e.name = ".ev")) :
    getEvents S J max now fs = (fs, none, none) := by
  apply getEvents_of_no_ev
  unfold evFiles
  rw [List.filter_eq_nil_iff]
  intro e he hev
  apply h e he
  simpa [isEvFile] using hev

theorem getEvents_no_events_witness :
    getEvents goSorter demoJson 5 40 fsNoEvents = (fsNoEvents, none, none) :=
  getEvents_no_events goSorter demoJson 5 40 fsNoEvents (by decide)

theorem evFiles_lsJobs_perm (S : SliceSorter) (d : Dir) :
    List.Perm (evFiles (lsJobs S d)) (evFiles d) :=
  (S.perm d).filter _

theorem filterMap_map_some {α β : Type} (g : α → Option β) :
    ∀ l : List α, (∀ x ∈ l, (g x).isSome) → (l.filterMap g).map some = l.map g := by
  intro l
  induction l with
  | nil => intro _; rfl
  | cons x l ih =>
    intro h
    obtain ⟨y, hy⟩ := Option.isSome_iff_exists.mp (h x (List.mem_cons_self _ _))
    rw [List.filterMap_cons, hy, List.map_cons, List.map_cons, hy,
      ih (fun z hz => h z (List.mem_cons_of_mem _ hz))]

/-- The call of `getEvents` on a submit dir whose event files can all be decoded. -/
theorem getEvents_eq (S : SliceSorter) (J : Json) (max : Int) (fs : FS)
    (hmax : 1 ≤ max) (hwf : fs.submit.WF)
    (hdec : ∀ e ∈ fs.submit, isEvFile e = true → (J.unmarshalEvent e.bytes).isSome) :
    getEventsLoop J fs.submit max (lsJobs S fs.submit) [] []
      = .ok ((oldestEvFiles S max fs).map FileInfo.name,
          (oldestEvFiles S max fs).filterMap (fun f => J.unmarshalEvent f.bytes)) := by
  rw [getEventsLoop_evFiles, getEventsLoop_take]
  · simp [oldestEvFiles]
  · intro f hf
    have hf2 : f ∈ lsJobs S fs.submit ∧ isEvFile f = true := List.mem_filter.mp hf
    have hmem : f ∈ fs.submit := (S.perm _).subset hf2.1
    have hd : f.isDir = false := by
      have := hf2.2
      simp only [isEvFile, Bool.and_eq_true, Bool.not_eq_true'] at this
      exact this.1
    exact ⟨hf2.2, osReadFile_of_mem hwf hmem hd, hdec f hmem hf2.2⟩
  · simpa using hmax

theorem oldestEvFiles_length (S : SliceSorter) (max : Int) (fs : FS) :
    (oldestEvFiles S max fs).length = min max.toNat (evFiles fs.submit).length := by
  unfold oldestEvFiles
  rw [List.length_take, (evFiles_lsJobs_perm S fs.submit).length_eq]

/-- The batch is made of the oldest event files, in ascending order of modification time. -/
theorem oldestEvFiles_oldest (S : SliceSorter) (max : Int) (fs : FS) :
    (oldestEvFiles S max fs).Pairwise (fun a b => a.modTime ≤ b.modTime) ∧
    (∀ x ∈ oldestEvFiles S max fs, x ∈ evFiles fs.submit) ∧
    (∀ x ∈ oldestEvFiles S max fs, ∀ y ∈ evFiles fs.submit, y ∉ oldestEvFiles S max fs →
      x.modTime ≤ y.modTime) := by
  have hsorted : (evFiles (lsJobs S fs.submit)).Pairwise (fun a b => a.modTime ≤ b.modTime) :=
    (S.sorted fs.submit).sublist (List.filter_sublist _)
  refine ⟨hsorted.sublist (List.take_sublist _ _), ?_, ?_⟩
  · intro x hx
    exact (evFiles_lsJobs_perm S fs.submit).subset (List.mem_of_mem_take hx)
  · intro x hx y hy hny
    have hy2 : y ∈ evFiles (lsJobs S fs.submit) := (evFiles_lsJobs_perm S fs.submit).symm.subset hy
    rw [← List.take_append_drop max.toNat (evFiles (lsJobs S fs.submit))] at hy2 hsorted
    rcases List.mem_append.mp hy2 with h | h
    · exact absurd h hny
    · exact (List.pairwise_append.mp hsorted).2.2 x hx y h

/-- C9. For every `max >= 1` and every submit dir (with unique names) whose `k` event files can
all be decoded, `getEvents(max)` returns without error exactly `min(max, k)` events; they are
the decodings, in order, of the batch of the `min(max, k)` oldest event files in ascending order
of modification time; when `k > 0` the `events.json` it writes holds the encoding of the names
of the batch, in the same order, and nothing else changes; when `k = 0` nothing is written. -/
theorem getEvents_oldest_batch (S : SliceSorter) (J : Json) (max now : Int) (fs : FS)
    (bytes : String) (hmax : 1 ≤ max) (hwf : fs.submit.WF)
    (hdec : ∀ e ∈ fs.submit, isEvFile e = true → (J.unmarshalEvent e.bytes).isSome)
    (hjson : ∀ e, fs.data.lookup eventsJson = some e → e.isDir = false)
    (hm : J.marshalNames ((oldestEvFiles S max fs).map FileInfo.name) = some bytes) :
    (getEvents S J max now fs).2.2 = none ∧
    (eventsOf (getEvents S J max now fs).2.1).length = min max.toNat (evFiles fs.submit).length ∧
    (oldestEvFiles S max fs).length = min max.toNat (evFiles fs.submit).length ∧
    (oldestEvFiles S max fs).map (fun f => J.unmarshalEvent f.bytes)
      = (eventsOf (getEvents S J max now fs).2.1).map some ∧
    (oldestEvFiles S max fs).Pairwise (fun a b => a.modTime ≤ b.modTime) ∧
    (∀ x ∈ oldestEvFiles S max fs, x ∈ evFiles fs.submit) ∧
    (∀ x ∈ oldestEvFiles S max fs, ∀ y ∈ evFiles fs.submit, y ∉ oldestEvFiles S max fs →
      x.modTime ≤ y.modTime) ∧
    ((evFiles fs.submit).length = 0 → (getEvents S J max now fs).1 = fs) ∧
    (0 < (evFiles fs.submit).length →
      osReadFile (getEvents S J max now fs).1.data eventsJson = .ok bytes ∧
      (getEvents S J max now fs).1.submit = fs.submit ∧
      (getEvents S J max now fs).1.process = fs.process ∧
      ∀ n, n ≠ eventsJson →
        (getEvents S J max now fs).1.data.lookup n = fs.data.lookup n) := by
  have hloop := getEvents_eq S J max fs hmax hwf hdec
  have hlen := oldestEvFiles_length S max fs
  obtain ⟨ho1, ho2, ho3⟩ := oldestEvFiles_oldest S max fs
  have hall : ∀ x ∈ oldestEvFiles S max fs, (J.unmarshalEvent x.bytes).isSome := by
    intro x hx
    have := List.mem_filter.mp (ho2 x hx)
    exact hdec x this.1 this.2
  have hfm := filterMap_map_some (fun f : FileInfo => J.unmarshalEvent f.bytes) _ hall
  have hfl : ((oldestEvFiles S max fs).filterMap (fun f => J.unmarshalEvent f.bytes)).length
      = (oldestEvFiles S max fs).length := by
    have := congrArg List.length hfm
    simpa using this
  by_cases hk : (evFiles fs.submit).length = 0
  · have hnil : oldestEvFiles S max fs = [] := by
      apply List.eq_nil_of_length_eq_zero
      rw [hlen, hk]; simp
    have hget : getEvents S J max now fs = (fs, none, none) := by
      unfold getEvents
      rw [hloop, hnil]
      simp
    rw [hget, hnil, hk]
    simp [eventsOf]
  · have hne : (oldestEvFiles S max fs).map FileInfo.name ≠ [] := by
      intro h
      have h0 : (oldestEvFiles S max fs).length = 0 := by
        have := congrArg List.length h
        simpa using this
      have h1 : 1 ≤ max.toNat := by omega
      rw [hlen] at h0
      omega
    obtain ⟨d, hd⟩ := osWriteFile_of_file (b := bytes) (t := now) hjson
    have hget : getEvents S J max now fs
        = ({ fs with data := d },
            some ⟨(oldestEvFiles S max fs).filterMap (fun f => J.unmarshalEvent f.bytes)⟩,
            none) := by
      unfold getEvents
      rw [hloop]
      simp only [hne, if_false, hm, hd]
    rw [hget]
    refine ⟨rfl, ?_, hlen, ?_, ho1, ho2, ho3, fun h => absurd h hk, fun _ => ?_⟩
    · simp only [eventsOf]; rw [hfl, hlen]
    · simp only [eventsOf]; exact hfm.symm
    · obtain ⟨e, he, hed, heb, _⟩ := osWriteFile_lookup_self hd
      refine ⟨?_, rfl, rfl, fun n hn => osWriteFile_lookup_ne hd hn⟩
      unfold osReadFile
      simp only [he, hed, heb]
      rfl

theorem getEvents_oldest_batch_witness :
    (getEvents goSorter demoJson 2 40 fsThreeEvents).2.2 = none ∧
    (eventsOf (getEvents goSorter demoJson 2 40 fsThreeEvents).2.1).length
      = min (2 : Int).toNat (evFiles fsThreeEvents.submit).length ∧
    (oldestEvFiles goSorter 2 fsThreeEvents).length
      = min (2 : Int).toNat (evFiles fsThreeEvents.submit).length ∧
    (oldestEvFiles goSorter 2 fsThreeEvents).map (fun f => demoJson.unmarshalEvent f.bytes)
      = (eventsOf (getEvents goSorter demoJson 2 40 fsThreeEvents).2.1).map some ∧
    (oldestEvFiles goSorter 2 fsThreeEvents).Pairwise (fun a b => a.modTime ≤ b.modTime) ∧
    (∀ x ∈ oldestEvFiles goSorter 2 fsThreeEvents, x ∈ evFiles fsThreeEvents.submit) ∧
    (∀ x ∈ oldestEvFiles goSorter 2 fsThreeEvents, ∀ y ∈ evFiles fsThreeEvents.submit,
      y ∉ oldestEvFiles goSorter 2 fsThreeEvents → x.modTime ≤ y.modTime) ∧
    ((evFiles fsThreeEvents.submit).length = 0 →
      (getEvents goSorter demoJson 2 40 fsThreeEvents).1 = fsThreeEvents) ∧
    (0 < (evFiles fsThreeEvents.submit).length →
      osReadFile (getEvents goSorter demoJson 2 40 fsThreeEvents).1.data eventsJson
        = .ok "a.ev;b.ev;" ∧
      (getEvents goSorter demoJson 2 40 fsThreeEvents).1.submit = fsThreeEvents.submit ∧
      (getEvents goSorter demoJson 2 40 fsThreeEvents).1.process = fsThreeEvents.process ∧
      ∀ n, n ≠ eventsJson →
        (getEvents goSorter demoJson 2 40 fsThreeEvents).1.data.lookup n
          = fsThreeEvents.data.lookup n) :=
  getEvents_oldest_batch goSorter demoJson 2 40 fsThreeEvents "a.ev;b.ev;" (by decide)
    (by unfold Dir.WF; decide) (by decide) (by decide) (by decide)

/-! ## C7: getEvents followed by removeEvents -/

/-- Removing distinct names that are all regular files of the directory removes them all. -/
theorem removeFiles_all :
    ∀ (names : List String) (d : Dir), names.Nodup →
      (∀ n ∈ names, ∃ e, d.lookup n = some e ∧ e.isDir = false) →
      removeFiles d names = (d.filter (fun x => decide (x.name ∉ names)), none) := by
  intro names
  induction names with
  | nil => intro d _ _; simp [removeFiles]
  | cons n ns ih =>
    intro d hnd hall
    obtain ⟨e, he, hed⟩ := hall n (List.mem_cons_self _ _)
    have hnd2 := List.nodup_cons.mp hnd
    rw [removeFiles, osRemove_of_file he hed]
    simp only
    rw [ih _ hnd2.2]
    · rw [List.filter_filter]
      congr 1
      apply List.filter_congr
      intro x _
      simp only [List.mem_cons, not_or, ne_eq, Bool.decide_and, Bool.and_comm]
    · intro m hm
      have hmn : m ≠ n := fun h => hnd2.1 (h ▸ hm)
      rw [lookup_filter_ne _ _ _ hmn]
      exact hall m (List.mem_cons_of_mem _ hm)

/-- What a successful `getEvents` has written: a manifest of distinct names of regular files of
the submit dir. -/
theorem getEvents_some (S : SliceSorter) (J : Json) (max now : Int) (fs fs1 : FS) (evs : Events)
    (hwf : fs.submit.WF) (hget : getEvents S J max now fs = (fs1, some evs, none)) :
    ∃ names bytes, J.marshalNames names = some bytes ∧
      osWriteFile fs.data eventsJson bytes now = .ok fs1.data ∧
      fs1.submit = fs.submit ∧ fs1.process = fs.process ∧ names.Nodup ∧
      ∀ n ∈ names, ∃ e, fs.submit.lookup n = some e ∧ e.isDir = false := by
  unfold getEvents at hget
  split at hget
  · cases hget
  · rename_i names events hloop
    split at hget
    · cases hget
    · split at hget
      · cases hget
      · rename_i bytes hb
        split at hget
        · cases hget
        · rename_i d hd
          simp only [Prod.mk.injEq] at hget
          obtain ⟨h1, _, _⟩ := hget
          subst h1
          obtain ⟨batch, hb1, hb2, hb3⟩ := getEventsLoop_names J fs.submit max _ _ _ _ _ hloop
          simp only [List.nil_append] at hb2
          have hsub : ∀ f ∈ batch, f ∈ fs.submit :=
            fun f hf => (S.perm _).subset (hb1.subset hf)
          refine ⟨names, bytes, hb, hd, rfl, rfl, ?_, ?_⟩
          · rw [hb2]
            have hnd : ((lsJobs S fs.submit).map FileInfo.name).Nodup :=
              ((S.perm fs.submit).map _).nodup_iff.mpr hwf
            exact hnd.sublist (hb1.map _)
          · intro n hn
            rw [hb2] at hn
            obtain ⟨f, hf, rfl⟩ := List.mem_map.mp hn
            exact ⟨f, lookup_of_mem hwf (hsub f hf), hb3 f hf⟩

theorem splitNames_name (cs : List Char) (h : ';' ∉ cs) :
    ∀ (rest cur : List Char),
      splitNames (cs ++ ';' :: rest) cur = String.mk (cur.reverse ++ cs) :: splitNames rest [] := by
  induction cs with
  | nil => intro rest cur; simp [splitNames]
  | cons c cs ih =>
    intro rest cur
    have hc : c ≠ ';' := fun hc => h (hc ▸ List.mem_cons_self _ _)
    have h2 : ';' ∉ cs := fun h2 => h (List.mem_cons_of_mem _ h2)
    rw [List.cons_append, splitNames, if_neg hc, ih h2]
    simp

/-- The demo codec reads a manifest back as it wrote it. -/
theorem demoJson_names (ns : List String) (b : String) (h : demoJson.marshalNames ns = some b) :
    demoJson.unmarshalNames b = some ns := by
  simp only [demoJson] at h ⊢
  split at h
  · rename_i hall
    cases h
    simp only [Option.some.injEq]
    induction ns with
    | nil => rfl
    | cons n ns ih =>
      simp only [List.all_cons, Bool.and_eq_true, Bool.not_eq_true'] at hall
      have hn : ';' ∉ n.data := by
        intro hmem
        have := hall.1
        simp [List.contains_iff_exists_mem_beq] at this
        exact this hmem
      rw [joinNames, splitNames_name _ hn, ih hall.2]
      simp
  · cases h

/-- C7, as stated, fails. With a stale `events.json` that names an event no longer in the submit
dir, and no event file in the submit dir, `getEvents` writes nothing, `removeEvents` stops at
the removal that fails, and `events.json` is still in the data dir. -/
theorem getEvents_removeEvents_keeps_stale_manifest :
    (removeEvents demoJson (getEvents goSorter demoJson 5 20 fsStaleManifest).1).2
      = some (Err.notExist "a.ev") ∧
    osStat (removeEvents demoJson (getEvents goSorter demoJson 5 20 fsStaleManifest).1).1.data
      eventsJson = true := by
  decide

/-- C7, amended. Whenever `getEvents` returns a batch of events (the submit dir having unique
names, and a list of names being read back as it was encoded), also when an `events.json` was
already there, `removeEvents` then succeeds and leaves no file named in the manifest in the
submit dir and no `events.json` in the data dir; the rest of the submit dir is untouched. -/
theorem getEvents_removeEvents_drains (S : SliceSorter) (J : Json) (max now : Int)
    (fs fs1 : FS) (evs : Events) (hwf : fs.submit.WF)
    (hrt : ∀ ns b, J.marshalNames ns = some b → J.unmarshalNames b = some ns)
    (hget : getEvents S J max now fs = (fs1, some evs, none)) :
    ∃ names bytes, osReadFile fs1.data eventsJson = .ok bytes ∧
      J.unmarshalNames bytes = some names ∧
      (removeEvents J fs1).2 = none ∧
      (∀ n ∈ names, (removeEvents J fs1).1.submit.lookup n = none) ∧
      (removeEvents J fs1).1.data.lookup eventsJson = none ∧
      (removeEvents J fs1).1.submit = fs.submit.filter (fun x => decide (x.name ∉ names)) ∧
      (removeEvents J fs1).1.process = fs.process := by
  obtain ⟨names, bytes, hb, hw, hs, hp, hnd, hall⟩ := getEvents_some S J max now fs fs1 evs hwf hget
  obtain ⟨e, he, hed, heb, _⟩ := osWriteFile_lookup_self hw
  have hread : osReadFile fs1.data eventsJson = .ok bytes := by
    unfold osReadFile
    simp only [he, hed, heb]
    rfl
  have hrm : removeEvents J fs1
      = ({ fs1 with submit := fs.submit.filter (fun x => decide (x.name ∉ names)),
                    data := fs1.data.filter (fun x => decide (x.name ≠ eventsJson)) }, none) := by
    unfold removeEvents
    simp only [hread, hrt _ _ hb, hs, removeFiles_all names fs.submit hnd hall,
      osRemove_of_file he hed]
  refine ⟨names, bytes, hread, hrt _ _ hb, ?_, ?_, ?_, ?_, ?_⟩
  · rw [hrm]
  · intro n hn
    rw [hrm, lookup_eq_none]
    intro x hx
    have := (List.mem_filter.mp hx).2
    simp only [decide_eq_true_eq] at this
    exact fun hxn => this (hxn ▸ hn)
  · rw [hrm]; exact lookup_filter_self _ _
  · rw [hrm]
  · rw [hrm]; exact hp

theorem getEvents_removeEvents_drains_witness :
    ∃ names bytes,
      osReadFile { fsThreeEvents with data := [file "events.json" 40 "a.ev;b.ev;"] }.data
        eventsJson = .ok bytes ∧
      demoJson.unmarshalNames bytes = some names ∧
      (removeEvents demoJson
        { fsThreeEvents with data := [file "events.json" 40 "a.ev;b.ev;"] }).2 = none ∧
      (∀ n ∈ names, (removeEvents demoJson
        { fsThreeEvents with data := [file "events.json" 40 "a.ev;b.ev;"] }).1.submit.lookup n
          = none) ∧
      (removeEvents demoJson
        { fsThreeEvents with data := [file "events.json" 40 "a.ev;b.ev;"] }).1.data.lookup
          eventsJson = none ∧
      (removeEvents demoJson
        { fsThreeEvents with data := [file "events.json" 40 "a.ev;b.ev;"] }).1.submit
          = fsThreeEvents.submit.filter (fun x => decide (x.name ∉ names)) ∧
      (removeEvents demoJson
        { fsThreeEvents with data := [file "events.json" 40 "a.ev;b.ev;"] }).1.process
          = fsThreeEvents.process :=
  getEvents_removeEvents_drains goSorter demoJson 2 40 fsThreeEvents
    { fsThreeEvents with data := [file "events.json" 40 "a.ev;b.ev;"] }
    { events := [{ text := "first" }, { text := "second" }] }
    (by unfold Dir.WF; decide)
    demoJson_names (by decide)

/-! ## C4, C5, C6: the payload of a ping and its acknowledgement -/

/-- The call of `Ping` when a job result is pending. -/
theorem ping_of_result (w : Worker) (S : SliceSorter) (J : Json)
    (post : Option PingRequest → Except Err Response) (now : Int) (fs : FS) (r : JobResult)
    (h : w.Result fs = .ok (some r)) :
    Ping w S J post now fs =
      match post (some { Result := some r, Events := none }) with
      | .error e =>
        { fs := fs, posted := some (some { Result := some r, Events := none }),
          events := none, calls := [], ret := .error e }
      | .ok resp =>
        if resp.StatusCode > 299 then
          { fs := fs, posted := some (some { Result := some r, Events := none }),
            events := none, calls := [], ret := .error (.status resp.StatusCode) }
        else
          { fs := (w.RemoveResult fs r).1,
            posted := some (some { Result := some r, Events := none }),
            events := none, calls := [Call.removeResult r],
            ret := match J.unmarshalPing resp.Body with
              | none => .error .pingResponse
              | some pingResponse => .ok pingResponse } := by
  unfold Ping
  simp only [h]
  split
  · rfl
  · split
    · rfl
    · split <;> simp_all

/-- The call of `Ping` when no job result is pending. -/
theorem ping_of_no_result (w : Worker) (S : SliceSorter) (J : Json)
    (post : Option PingRequest → Except Err Response) (now : Int) (fs : FS)
    (h : w.Result fs = .ok none) :
    Ping w S J post now fs =
      match (getEvents S J 5 now fs).2.2 with
      | some e =>
        { fs := (getEvents S J 5 now fs).1, posted := none,
          events := (getEvents S J 5 now fs).2.1, calls := [], ret := .error e }
      | none =>
        match post none with
        | .error e =>
          { fs := (getEvents S J 5 now fs).1, posted := some none,
            events := (getEvents S J 5 now fs).2.1, calls := [], ret := .error e }
        | .ok resp =>
          if resp.StatusCode > 299 then
            { fs := (getEvents S J 5 now fs).1, posted := some none,
              events := (getEvents S J 5 now fs).2.1, calls := [],
              ret := .error (.status resp.StatusCode) }
          else
            match (getEvents S J 5 now fs).2.1 with
            | some _ =>
              { fs := (removeEvents J (getEvents S J 5 now fs).1).1, posted := some none,
                events := (getEvents S J 5 now fs).2.1, calls := [Call.removeEvents],
                ret := match J.unmarshalPing resp.Body with
                  | none => .error .pingResponse
                  | some pingResponse => .ok pingResponse }
            | none =>
              { fs := (getEvents S J 5 now fs).1, posted := some none,
                events := none, calls := [],
                ret := match J.unmarshalPing resp.Body with
                  | none => .error .pingResponse
                  | some pingResponse => .ok pingResponse } := by
  unfold Ping
  simp only [h]
  split
  · rfl
  · split
    · rfl
    · split
      · rfl
      · split <;> split <;> simp_all

theorem workerResult_of_first (S : SliceSorter) (J : Json) (fs : FS) (f : FileInfo)
    (r : JobResult) (hwf : fs.submit.WF)
    (hfirst : firstWithExt ".result" (lsJobs S fs.submit) = some f)
    (hdec : J.unmarshalResult f.bytes = some (some r)) :
    (specWorker S J).Result fs = .ok (some r) := by
  obtain ⟨hmem, hd, _⟩ := firstWithExt_mem hfirst
  have hread := osReadFile_of_mem hwf ((S.perm _).subset hmem) hd
  show peekJobResult S J fs = _
  unfold peekJobResult
  simp only [hfirst, hread, hdec]

/-- C4. When a job result is pending (the oldest `.result` file of the submit dir is
`job_<id>.result` and decodes to the result `r` of job `id`), `Ping` posts a request that
carries exactly `r` and no events, fetches no events and leaves the data dir as it is (no
`events.json` is written); and when the answer has a status of at most 299 its one
acknowledgement is the removal of that result: the submit dir loses `job_<id>.result` and
nothing else, so every `.ev` file stays. -/
theorem ping_with_result (S : SliceSorter) (J : Json)
    (post : Option PingRequest → Except Err Response) (now : Int) (fs : FS) (f : FileInfo)
    (r : JobResult) (hwf : fs.submit.WF)
    (hfirst : firstWithExt ".result" (lsJobs S fs.submit) = some f)
    (hname : f.name = resultFile r.JobId)
    (hdec : J.unmarshalResult f.bytes = some (some r)) :
    (Ping (specWorker S J) S J post now fs).posted = some (some { Result := some r, Events := none }) ∧
    (Ping (specWorker S J) S J post now fs).events = none ∧
    (Ping (specWorker S J) S J post now fs).fs.data = fs.data ∧
    (Ping (specWorker S J) S J post now fs).fs.process = fs.process ∧
    ∀ resp, post (some { Result := some r, Events := none }) = .ok resp →
      resp.StatusCode ≤ 299 →
      (Ping (specWorker S J) S J post now fs).calls = [Call.removeResult r] ∧
      (Ping (specWorker S J) S J post now fs).fs.submit
        = fs.submit.filter (fun x => decide (x.name ≠ resultFile r.JobId)) ∧
      ∀ e ∈ fs.submit, pathExt e.name = ".ev" → e ∈ (Ping (specWorker S J) S J post now fs).fs.submit := by
  have hres := workerResult_of_first S J fs f r hwf hfirst hdec
  obtain ⟨hmem, hd, _⟩ := firstWithExt_mem hfirst
  have hlook : fs.submit.lookup (resultFile r.JobId) = some f := by
    rw [← hname]; exact lookup_of_mem hwf ((S.perm _).subset hmem)
  have hrm : (specWorker S J).RemoveResult fs r
      = ({ fs with submit := fs.submit.filter (fun x => decide (x.name ≠ resultFile r.JobId)) },
          none) := by
    show removeJobResult fs r = _
    unfold removeJobResult
    rw [osRemove_of_file hlook hd]
  rw [ping_of_result (specWorker S J) S J post now fs r hres]
  cases hp : post (some { Result := some r, Events := none }) with
  | error e =>
    refine ⟨rfl, rfl, rfl, rfl, ?_⟩
    intro resp hresp
    cases hresp
  | ok resp =>
    simp only
    by_cases hs : resp.StatusCode > 299
    · rw [if_pos hs]
      refine ⟨rfl, rfl, rfl, rfl, ?_⟩
      intro resp2 hresp hle
      cases hresp
      omega
    · rw [if_neg hs, hrm]
      refine ⟨rfl, rfl, rfl, rfl, ?_⟩
      intro resp2 _ _
      refine ⟨rfl, rfl, ?_⟩
      intro e he hev
      apply List.mem_filter.mpr
      refine ⟨he, ?_⟩
      simp only [ne_eq, decide_eq_true_eq]
      intro hn
      rw [hn, pathExt_resultFile] at hev
      revert hev
      decide

theorem ping_with_result_witness :
    (Ping demoWorker goSorter demoJson (postStatus 200) 40 fsResultAndEvents).posted
      = some (some { Result := some (demoResult 42), Events := none }) ∧
    (Ping demoWorker goSorter demoJson (postStatus 200) 40 fsResultAndEvents).events = none ∧
    (Ping demoWorker goSorter demoJson (postStatus 200) 40 fsResultAndEvents).fs.data
      = fsResultAndEvents.data ∧
    (Ping demoWorker goSorter demoJson (postStatus 200) 40 fsResultAndEvents).fs.process
      = fsResultAndEvents.process ∧
    ∀ resp, postStatus 200 (some { Result := some (demoResult 42), Events := none }) = .ok resp →
      resp.StatusCode ≤ 299 →
      (Ping demoWorker goSorter demoJson (postStatus 200) 40 fsResultAndEvents).calls
        = [Call.removeResult (demoResult 42)] ∧
      (Ping demoWorker goSorter demoJson (postStatus 200) 40 fsResultAndEvents).fs.submit
        = fsResultAndEvents.submit.filter
            (fun x => decide (x.name ≠ resultFile (demoResult 42).JobId)) ∧
      ∀ e ∈ fsResultAndEvents.submit, pathExt e.name = ".ev" →
        e ∈ (Ping demoWorker goSorter demoJson (postStatus 200) 40 fsResultAndEvents).fs.submit :=
  ping_with_result goSorter demoJson (postStatus 200) 40 fsResultAndEvents
    (file "job_42.result" 30 "res 42") (demoResult 42) (by unfold Dir.WF; decide)
    (by decide) (by decide) (by decide)

/-- The call of `getEvents` leaves the submit dir and the process dir as they are. -/
theorem getEvents_frame (S : SliceSorter) (J : Json) (max now : Int) (fs : FS) :
    (getEvents S J max now fs).1.submit = fs.submit ∧
    (getEvents S J max now fs).1.process = fs.process := by
  unfold getEvents
  split
  · exact ⟨rfl, rfl⟩
  · split
    · exact ⟨rfl, rfl⟩
    · split
      · exact ⟨rfl, rfl⟩
      · split <;> exact ⟨rfl, rfl⟩

/-- C5, what the code does. When no job result is pending and `getEvents` has returned a batch
of events, the payload `Ping` hands to `client.Post` is nil: the body of the ping carries no
event. When the answer has a status of at most 299, `removeEvents` is run all the same. -/
theorem ping_events_not_posted (w : Worker) (S : SliceSorter) (J : Json)
    (post : Option PingRequest → Except Err Response) (now : Int) (fs : FS) (evs : Events)
    (hres : w.Result fs = .ok none)
    (hev : (getEvents S J 5 now fs).2 = (some evs, none)) :
    (Ping w S J post now fs).posted = some none ∧
    (Ping w S J post now fs).events = some evs ∧
    ∀ resp, post none = .ok resp → resp.StatusCode ≤ 299 →
      (Ping w S J post now fs).calls = [Call.removeEvents] ∧
      (Ping w S J post now fs).fs = (removeEvents J (getEvents S J 5 now fs).1).1 := by
  have h1 : (getEvents S J 5 now fs).2.1 = some evs := by rw [hev]
  have h2 : (getEvents S J 5 now fs).2.2 = none := by rw [hev]
  rw [ping_of_no_result w S J post now fs hres]
  simp only [h2, h1]
  cases hp : post none with
  | error e =>
    refine ⟨rfl, rfl, ?_⟩
    intro resp hresp
    cases hresp
  | ok resp =>
    simp only
    by_cases hs : resp.StatusCode > 299
    · rw [if_pos hs]
      refine ⟨rfl, rfl, ?_⟩
      intro resp2 hresp hle
      cases hresp
      omega
    · rw [if_neg hs]
      exact ⟨rfl, rfl, fun _ _ _ => ⟨rfl, rfl⟩⟩

theorem ping_events_not_posted_witness :
    (Ping demoWorker goSorter demoJson (postStatus 200) 40 fsOneEvent).posted = some none ∧
    (Ping demoWorker goSorter demoJson (postStatus 200) 40 fsOneEvent).events
      = some { events := [{ text := "first" }] } ∧
    ∀ resp, postStatus 200 none = .ok resp → resp.StatusCode ≤ 299 →
      (Ping demoWorker goSorter demoJson (postStatus 200) 40 fsOneEvent).calls = [Call.removeEvents] ∧
      (Ping demoWorker goSorter demoJson (postStatus 200) 40 fsOneEvent).fs
        = (removeEvents demoJson (getEvents goSorter demoJson 5 40 fsOneEvent).1).1 :=
  ping_events_not_posted demoWorker goSorter demoJson (postStatus 200) 40 fsOneEvent
    { events := [{ text := "first" }] } (by decide) (by decide)

/-- The event that was not posted is gone after the ping. -/
theorem ping_drops_unsent_event :
    (Ping demoWorker goSorter demoJson (postStatus 200) 40 fsOneEvent).posted = some none ∧
    (Ping demoWorker goSorter demoJson (postStatus 200) 40 fsOneEvent).fs = fsEmpty := by
  decide

/-- C6. For every status `s` the control plane answers with: when `s > 299`, `Ping` makes no
acknowledging call, returns an error, and the submit dir is as it was before the call, every
`.result` and `.ev` file included; when `s <= 299`, `Ping` removes the result it delivered, or
runs `removeEvents` for the batch it fetched. So a ping that has a result or a batch
acknowledges it if and only if `s <= 299`. -/
theorem ping_ack_iff_status (w : Worker) (S : SliceSorter) (J : Json)
    (post : Option PingRequest → Except Err Response) (now : Int) (fs : FS)
    (p : Option PingRequest) (resp : Response)
    (hposted : (Ping w S J post now fs).posted = some p) (hresp : post p = .ok resp) :
    (299 < resp.StatusCode →
      (Ping w S J post now fs).calls = [] ∧
      (Ping w S J post now fs).ret = .error (.status resp.StatusCode) ∧
      (Ping w S J post now fs).fs.submit = fs.submit) ∧
    (resp.StatusCode ≤ 299 →
      (∀ r, w.Result fs = .ok (some r) →
        (Ping w S J post now fs).calls = [Call.removeResult r] ∧
        (Ping w S J post now fs).fs = (w.RemoveResult fs r).1) ∧
      (∀ evs, (Ping w S J post now fs).events = some evs →
        (Ping w S J post now fs).calls = [Call.removeEvents] ∧
        (Ping w S J post now fs).fs = (removeEvents J (getEvents S J 5 now fs).1).1)) ∧
    (((∃ r, w.Result fs = .ok (some r)) ∨ (Ping w S J post now fs).events ≠ none) →
      ((Ping w S J post now fs).calls ≠ [] ↔ resp.StatusCode ≤ 299)) := by
  cases hres : w.Result fs with
  | error e =>
    have : (Ping w S J post now fs).posted = none := by
      unfold Ping; simp only [hres]
    rw [this] at hposted
    cases hposted
  | ok result =>
    cases result with
    | some r =>
      rw [ping_of_result w S J post now fs r hres] at hposted ⊢
      have hp : p = some { Result := some r, Events := none } := by
        revert hposted
        cases post (some { Result := some r, Events := none }) with
        | error e => intro h; exact (Option.some.inj h).symm
        | ok resp2 =>
          simp only
          split <;> (intro h; exact (Option.some.inj h).symm)
      subst hp
      simp only [hresp]
      by_cases hs : resp.StatusCode > 299
      · rw [if_pos hs]
        refine ⟨fun _ => ⟨rfl, rfl, rfl⟩, fun h => by omega, fun _ => ?_⟩
        constructor
        · intro h; exact absurd rfl h
        · intro h; omega
      · rw [if_neg hs]
        refine ⟨fun h => by omega, fun _ => ⟨?_, ?_⟩, fun _ => ?_⟩
        · intro r2 hr2
          cases hr2
          exact ⟨rfl, rfl⟩
        · intro evs hevs
          cases hevs
        · constructor
          · intro _; omega
          · intro _; simp
    | none =>
      have hfr := getEvents_frame S J 5 now fs
      rw [ping_of_no_result w S J post now fs hres] at hposted ⊢
      cases hg : (getEvents S J 5 now fs).2.2 with
      | some e =>
        rw [hg] at hposted
        cases hposted
      | none =>
        rw [hg] at hposted
        simp only
        have hp : p = none := by
          revert hposted
          cases post none with
          | error e => intro h; exact (Option.some.inj h).symm
          | ok resp2 =>
            simp only
            split
            · intro h; exact (Option.some.inj h).symm
            · split <;> (intro h; exact (Option.some.inj h).symm)
        subst hp
        simp only [hresp]
        by_cases hs : resp.StatusCode > 299
        · rw [if_pos hs]
          refine ⟨fun _ => ⟨rfl, rfl, hfr.1⟩, fun h => by omega, fun _ => ?_⟩
          constructor
          · intro h; exact absurd rfl h
          · intro h; omega
        · rw [if_neg hs]
          cases hev : (getEvents S J 5 now fs).2.1 with
          | some evs =>
            simp only
            refine ⟨fun h => by omega, fun _ => ⟨?_, ?_⟩, fun _ => ?_⟩
            · intro r2 hr2; cases hr2
            · intro evs2 _; simp
            · constructor
              · intro _; omega
              · intro _; simp
          | none =>
            simp only
            refine ⟨fun h => by omega, fun _ => ⟨?_, ?_⟩, fun h => ?_⟩
            · intro r2 hr2; cases hr2
            · intro evs2 hevs2; cases hevs2
            · rcases h with ⟨r2, hr2⟩ | h
              · cases hr2
              · exact absurd rfl h

theorem ping_ack_iff_status_witness :
    (299 < (500 : Int) →
      (Ping demoWorker goSorter demoJson (postStatus 500) 40 fsResultAndEvents).calls = [] ∧
      (Ping demoWorker goSorter demoJson (postStatus 500) 40 fsResultAndEvents).ret
        = .error (.status 500) ∧
      (Ping demoWorker goSorter demoJson (postStatus 500) 40 fsResultAndEvents).fs.submit
        = fsResultAndEvents.submit) ∧
    ((500 : Int) ≤ 299 →
      (∀ r, demoWorker.Result fsResultAndEvents = .ok (some r) →
        (Ping demoWorker goSorter demoJson (postStatus 500) 40 fsResultAndEvents).calls
          = [Call.removeResult r] ∧
        (Ping demoWorker goSorter demoJson (postStatus 500) 40 fsResultAndEvents).fs
          = (demoWorker.RemoveResult fsResultAndEvents r).1) ∧
      (∀ evs, (Ping demoWorker goSorter demoJson (postStatus 500) 40 fsResultAndEvents).events = some evs →
        (Ping demoWorker goSorter demoJson (postStatus 500) 40 fsResultAndEvents).calls
          = [Call.removeEvents] ∧
        (Ping demoWorker goSorter demoJson (postStatus 500) 40 fsResultAndEvents).fs
          = (removeEvents demoJson (getEvents goSorter demoJson 5 40 fsResultAndEvents).1).1)) ∧
    (((∃ r, demoWorker.Result fsResultAndEvents = .ok (some r)) ∨
        (Ping demoWorker goSorter demoJson (postStatus 500) 40 fsResultAndEvents).events ≠ none) →
      ((Ping demoWorker goSorter demoJson (postStatus 500) 40 fsResultAndEvents).calls ≠ [] ↔
        (500 : Int) ≤ 299)) :=
  ping_ack_iff_status demoWorker goSorter demoJson (postStatus 500) 40 fsResultAndEvents
    (some { Result := some (demoResult 42), Events := none })
    { StatusCode := 500, Body := "ok" } (by decide) rfl

/-! ## C10: backoffTime -/

/-- Up to 63 attempts the float64 computation of `backoffTime` is exact enough: the result is
`min(3600, floor((2^n - 1) / 2))` seconds, whatever the platform. -/
theorem backoffTime_le_63 (ovf : Int) (n : Nat) (h : n ≤ 63) :
    backoffTime ovf n = ((min 3600 ((2 ^ n - 1) / 2) : Nat) : Int) * timeSecond := by
  interval_cases n <;> rfl

/-- C10, what the code does. At 64 attempts `floor((2^64 - 1) * 0.5)` is the float64 `2^63`,
which is outside the range of `int64`; on amd64 the conversion yields `-2^63`, which is not above
the ceiling of 3600, and the multiplication by `time.Second` wraps to a wait of zero, not of
3600 seconds. -/
theorem backoffTime_amd64_64 :
    int64OfF64 ovfAmd64 (floorHalf (subOne (mathPow2 64))) = -(2 ^ 63) ∧
    backoffTime ovfAmd64 64 = 0 ∧
    backoffTime ovfAmd64 63 = 3600 * timeSecond := by
  decide

/-- Where the out-of-range conversion saturates, as on arm64, the wait at 64 attempts is the
ceiling. -/
theorem backoffTime_arm64_64 : backoffTime ovfArm64 64 = 3600 * timeSecond := by
  decide

/-! ## C11: backoffTime is not monotone where the conversion overflows -/

/-- Up to 63 attempts the wait never decreases, whatever the platform. -/
theorem backoffTime_mono_le_63 (ovf : Int) (n : Nat) (h : n + 1 ≤ 63) :
    backoffTime ovf n ≤ backoffTime ovf (n + 1) := by
  rw [backoffTime_le_63 ovf n (by omega), backoffTime_le_63 ovf (n + 1) h]
  have hn : n ≤ 62 := by omega
  clear h
  interval_cases n <;> decide

/-- C11, what the code does. The wait is 0 at 0 attempts, but on amd64 it drops from 3600
seconds at 63 attempts to 0 at 64 attempts: `backoffTime(64) >= backoffTime(63)` fails. -/
theorem backoffTime_amd64_drops :
    backoffTime ovfAmd64 0 = 0 ∧
    backoffTime ovfAmd64 63 = 3600 * timeSecond ∧
    backoffTime ovfAmd64 64 = 0 ∧
    ¬ (backoffTime ovfAmd64 (63 + 1) ≥ backoffTime ovfAmd64 63) := by
  decide

/-! ## C12, C13: the loop of the uploader -/

theorem runPass_failed (ovf : Int) (submit : String → Except Err ConnResult) (st : Uploader)
    (f : FileInfo) (rest : List FileInfo) (c : String)
    (hfiles : getFiles st.dir = f :: rest) (hread : osReadFile st.dir f.name = .ok c)
    (hfail : uploadFailed (submit c) = true) :
    runPass ovf submit st
      = ({ st with count := st.count + 1 }, Pass.waited (backoffTime ovf st.count)) := by
  unfold runPass
  simp only [hfiles, hread]
  cases hs : submit c with
  | error e => rfl
  | ok result =>
    rw [hs] at hfail
    simp only [uploadFailed, decide_eq_true_eq] at hfail
    simp only [hfail, if_true]

theorem runPass_ok (ovf : Int) (submit : String → Except Err ConnResult) (st : Uploader)
    (f : FileInfo) (rest : List FileInfo) (c : String)
    (hfiles : getFiles st.dir = f :: rest) (hread : osReadFile st.dir f.name = .ok c)
    (hok : uploadFailed (submit c) = false) :
    runPass ovf submit st
      = ({ count := 0, dir := st.dir.filter (fun x => decide (x.name ≠ f.name)) },
          Pass.uploaded) := by
  obtain ⟨e, he, hed, _⟩ := osReadFile_ok hread
  unfold runPass
  simp only [hfiles, hread]
  cases hs : submit c with
  | error e => rw [hs] at hok; cases hok
  | ok result =>
    rw [hs] at hok
    simp only [uploadFailed, decide_eq_false_iff_not] at hok
    simp only [hok, if_false, osRemove_of_file he hed]

/-- Consecutive failed uploads leave the folder as it is and wait `backoffTime` of the number of
failures before. -/
theorem runPasses_failed (ovf : Int) (dir : Dir) (f : FileInfo) (rest : List FileInfo)
    (c : String) (hfiles : getFiles dir = f :: rest) (hread : osReadFile dir f.name = .ok c) :
    ∀ (subs : List (String → Except Err ConnResult)) (n : Nat),
      (∀ s ∈ subs, uploadFailed (s c) = true) →
      runPasses ovf subs { count := n, dir := dir }
        = ({ count := n + subs.length, dir := dir },
            (List.range subs.length).map (fun i => Pass.waited (backoffTime ovf (n + i)))) := by
  intro subs
  induction subs with
  | nil => intro n _; rfl
  | cons s subs ih =>
    intro n hall
    have h1 := runPass_failed ovf s { count := n, dir := dir } f rest c hfiles hread
      (hall s (List.mem_cons_self _ _))
    rw [runPasses, h1]
    simp only
    rw [ih (n + 1) (fun t ht => hall t (List.mem_cons_of_mem _ ht))]
    rw [List.length_cons, List.range_succ_eq_map, List.map_cons, List.map_map]
    refine Prod.ext ?_ ?_
    · simp only [Uploader.mk.injEq, and_true]; omega
    · simp only [Nat.add_zero, List.cons.injEq, true_and]
      apply List.map_congr_left
      intro i _
      simp only [Function.comp]
      congr 2
      omega

/-- C12. In the loop of the uploader, from a counter of 0, the waits of `k` consecutive failed
uploads are `backoffTime(0)`, ..., `backoffTime(k-1)` and the counter ends at `k`: the wait
after the k-th failure is `backoffTime(k-1)`; for five failures these are 0, 0, 1, 3 and 7
seconds; a successful upload sets the counter to 0, so that the next failure waits
`backoffTime(0)` again. -/
theorem uploader_backoff (ovf : Int) (dir : Dir) (f : FileInfo) (rest : List FileInfo)
    (c : String) (subs : List (String → Except Err ConnResult))
    (ok : String → Except Err ConnResult) (n : Nat)
    (hfiles : getFiles dir = f :: rest) (hread : osReadFile dir f.name = .ok c)
    (hfail : ∀ s ∈ subs, uploadFailed (s c) = true) (hok : uploadFailed (ok c) = false) :
    runPasses ovf subs { count := 0, dir := dir }
      = ({ count := subs.length, dir := dir },
          (List.range subs.length).map (fun i => Pass.waited (backoffTime ovf i))) ∧
    (runPass ovf ok { count := n, dir := dir }).1.count = 0 ∧
    (runPass ovf ok { count := n, dir := dir }).2 = Pass.uploaded ∧
    (List.range 5).map (fun i => backoffTime ovf i)
      = [0, 0, 1 * timeSecond, 3 * timeSecond, 7 * timeSecond] := by
  have h1 := runPasses_failed ovf dir f rest c hfiles hread subs 0 hfail
  simp only [Nat.zero_add] at h1
  have h2 := runPass_ok ovf ok { count := n, dir := dir } f rest c hfiles hread hok
  refine ⟨h1, by rw [h2], by rw [h2], ?_⟩
  rfl

theorem uploader_backoff_witness :
    runPasses ovfAmd64 [submitDown, submitDown, submitDown, submitDown, submitDown]
        { count := 0, dir := channelDir }
      = ({ count := [submitDown, submitDown, submitDown, submitDown, submitDown].length,
           dir := channelDir },
          (List.range [submitDown, submitDown, submitDown, submitDown, submitDown].length).map
            (fun i => Pass.waited (backoffTime ovfAmd64 i))) ∧
    (runPass ovfAmd64 submitOk { count := 5, dir := channelDir }).1.count = 0 ∧
    (runPass ovfAmd64 submitOk { count := 5, dir := channelDir }).2 = Pass.uploaded ∧
    (List.range 5).map (fun i => backoffTime ovfAmd64 i)
      = [0, 0, 1 * timeSecond, 3 * timeSecond, 7 * timeSecond] :=
  uploader_backoff ovfAmd64 channelDir (file "early.log" 10 "early")
    [file "late.log" 20 "late"] "early"
    [submitDown, submitDown, submitDown, submitDown, submitDown] submitOk 5
    (by decide) (by decide) (by decide) (by decide)

theorem getFiles_perm (d : Dir) :
    List.Perm (getFiles d) (d.filter (fun f => f.name.data.head? != some '.')) :=
  List.perm_insertionSort _ _

/-- The first entry of `getFiles` is the oldest of the entries that are not hidden. -/
theorem getFiles_oldest (d : Dir) (f : FileInfo) (rest : List FileInfo)
    (h : getFiles d = f :: rest) :
    f ∈ d ∧ f.name.data.head? ≠ some '.' ∧
    (∀ g ∈ d, g.name.data.head? ≠ some '.' → f.modTime ≤ g.modTime) := by
  have hmem : ∀ g, g ∈ getFiles d ↔ (g ∈ d ∧ g.name.data.head? ≠ some '.') := by
    intro g
    rw [(getFiles_perm d).mem_iff, List.mem_filter]
    simp
  have hf := (hmem f).mp (by rw [h]; exact List.mem_cons_self _ _)
  refine ⟨hf.1, hf.2, ?_⟩
  intro g hg hgn
  have hgm : g ∈ f :: rest := by rw [← h]; exact (hmem g).mpr ⟨hg, hgn⟩
  haveI : IsTotal FileInfo (fun a b => a.modTime ≤ b.modTime) := ⟨fun a b => le_total _ _⟩
  haveI : IsTrans FileInfo (fun a b => a.modTime ≤ b.modTime) :=
    ⟨fun a b c hab hbc => le_trans hab hbc⟩
  have hsorted : List.Sorted (fun a b : FileInfo => a.modTime ≤ b.modTime) (getFiles d) :=
    List.sorted_insertionSort _ _
  rw [h] at hsorted
  rcases List.mem_cons.mp hgm with rfl | hgr
  · exact le_refl _
  · exact (List.pairwise_cons.mp hsorted).1 g hgr

/-- C13. In one pass of the loop of the uploader over a channel folder (with unique names) that
holds an entry that is not hidden, the oldest such entry being a regular file: that file is
deleted if and only if `SubmitTelemetry` returned no error and an empty `result.Error`; it is
then the only entry deleted; in every other case the folder is unchanged, and the same file is
selected by the next pass. -/
theorem runPass_deletes_iff (ovf : Int) (submit : String → Except Err ConnResult)
    (st : Uploader) (f : FileInfo) (rest : List FileInfo) (c : String) (hwf : st.dir.WF)
    (hfiles : getFiles st.dir = f :: rest) (hread : osReadFile st.dir f.name = .ok c) :
    (f ∈ st.dir ∧ f.name.data.head? ≠ some '.' ∧
      ∀ g ∈ st.dir, g.name.data.head? ≠ some '.' → f.modTime ≤ g.modTime) ∧
    (f ∉ (runPass ovf submit st).1.dir ↔ uploadFailed (submit c) = false) ∧
    (uploadFailed (submit c) = false →
      ∀ g, g ∈ (runPass ovf submit st).1.dir ↔ (g ∈ st.dir ∧ g ≠ f)) ∧
    (uploadFailed (submit c) = true →
      (runPass ovf submit st).1.dir = st.dir ∧
      getFiles (runPass ovf submit st).1.dir = f :: rest) := by
  have hold := getFiles_oldest st.dir f rest hfiles
  have hfilter : ∀ g, g ∈ st.dir.filter (fun x => decide (x.name ≠ f.name)) ↔
      (g ∈ st.dir ∧ g ≠ f) := by
    intro g
    rw [List.mem_filter]
    simp only [ne_eq, decide_eq_true_eq]
    constructor
    · rintro ⟨hg, hn⟩
      exact ⟨hg, fun h => hn (h ▸ rfl)⟩
    · rintro ⟨hg, hn⟩
      refine ⟨hg, fun h => hn ?_⟩
      have h1 := lookup_of_mem hwf hg
      have h2 := lookup_of_mem hwf hold.1
      rw [h] at h1
      rw [h1] at h2
      exact Option.some.inj h2
  refine ⟨hold, ?_, ?_, ?_⟩
  · cases hu : uploadFailed (submit c) with
    | true =>
      rw [runPass_failed ovf submit st f rest c hfiles hread hu]
      simp only [Bool.true_eq_false, iff_false, not_not]
      exact hold.1
    | false =>
      rw [runPass_ok ovf submit st f rest c hfiles hread hu]
      simp only [iff_true]
      intro hmem
      exact ((hfilter f).mp hmem).2 rfl
  · intro hu g
    rw [runPass_ok ovf submit st f rest c hfiles hread hu]
    exact hfilter g
  · intro hu
    rw [runPass_failed ovf submit st f rest c hfiles hread hu]
    exact ⟨rfl, hfiles⟩

theorem runPass_deletes_iff_witness :
    (file "early.log" 10 "early" ∈ channelDir ∧
      (file "early.log" 10 "early").name.data.head? ≠ some '.' ∧
      ∀ g ∈ channelDir, g.name.data.head? ≠ some '.' →
        (file "early.log" 10 "early").modTime ≤ g.modTime) ∧
    (file "early.log" 10 "early" ∉
        (runPass ovfAmd64 submitOk { count := 2, dir := channelDir }).1.dir ↔
      uploadFailed (submitOk "early") = false) ∧
    (uploadFailed (submitOk "early") = false →
      ∀ g, g ∈ (runPass ovfAmd64 submitOk { count := 2, dir := channelDir }).1.dir ↔
        (g ∈ channelDir ∧ g ≠ file "early.log" 10 "early")) ∧
    (uploadFailed (submitOk "early") = true →
      (runPass ovfAmd64 submitOk { count := 2, dir := channelDir }).1.dir = channelDir ∧
      getFiles (runPass ovfAmd64 submitOk { count := 2, dir := channelDir }).1.dir
        = file "early.log" 10 "early" :: [file "late.log" 20 "late"]) :=
  runPass_deletes_iff ovfAmd64 submitOk { count := 2, dir := channelDir }
    (file "early.log" 10 "early") [file "late.log" 20 "late"] "early"
    (by unfold Dir.WF; decide) (by decide) (by decide)

/-! ## C14: the election of the control URI -/

/-- C14, as stated, fails. Of two control URIs the first answers 503 and the second 200:
`NewPilotCtl` does not elect the second, it fails at the first. -/
theorem newPilotCtl_fails_before_200 :
    "https://b" ∈ stringsSplit "https://a,https://b" ∧
    probeBusyThenOk "https://b" = .response 200 ∧
    NewPilotCtl "https://a,https://b" probeBusyThenOk
      = .error (.endpoint "https://a" 503) := by
  decide

theorem electURI_eq (probe : String → Probe) :
    ∀ uris : List String, (∀ u ∈ uris, probe u ≠ .clientError) →
      electURI probe uris =
        match firstResponding probe uris with
        | none => .error .noEndpoint
        | some u =>
          match probe u with
          | .response status => if status = 200 then .ok u else .error (.endpoint u status)
          | _ => .error .noEndpoint := by
  intro uris
  induction uris with
  | nil => intro _; rfl
  | cons u rest ih =>
    intro h
    have hu := h u (List.mem_cons_self _ _)
    unfold firstResponding at ih ⊢
    cases hp : probe u with
    | clientError => exact absurd hp hu
    | noResponse =>
      rw [electURI, hp, List.find?_cons_of_neg _ (by simp [hp])]
      exact ih (fun v hv => h v (List.mem_cons_of_mem _ hv))
    | response status =>
      rw [electURI, hp, List.find?_cons_of_pos _ (by simp [hp])]
      simp only [hp]

/-- C14, amended. For every comma-separated `ctl_uri` list and every assignment of probe
outcomes (no response, or a response with some status) to its URIs, `NewPilotCtl` elects a URI
exactly when it is the first in list order whose probe gets a response and that response has
the status 200; it fails if and only if no URI gets a response or the first response has
another status. -/
theorem newPilotCtl_elects_first_response (ctlURI : String) (probe : String → Probe)
    (hclient : ∀ u ∈ stringsSplit ctlURI, probe u ≠ .clientError) :
    (∀ u, NewPilotCtl ctlURI probe = .ok u ↔
      (firstResponding probe (stringsSplit ctlURI) = some u ∧ probe u = .response 200)) ∧
    ((∃ e, NewPilotCtl ctlURI probe = .error e) ↔
      (firstResponding probe (stringsSplit ctlURI) = none ∨
        ∃ u status, firstResponding probe (stringsSplit ctlURI) = some u ∧
          probe u = .response status ∧ status ≠ 200)) := by
  unfold NewPilotCtl
  rw [electURI_eq probe _ hclient]
  cases hf : firstResponding probe (stringsSplit ctlURI) with
  | none =>
    simp
  | some v =>
    have hv : probe v ≠ .noResponse := by
      have := List.find?_some hf
      simpa using this
    have hvc : probe v ≠ .clientError := hclient v (List.mem_of_find?_eq_some hf)
    cases hp : probe v with
    | clientError => exact absurd hp hvc
    | noResponse => exact absurd hp hv
    | response status =>
      simp only [hp, Option.some.injEq]
      by_cases hs : status = 200
      · subst hs
        simp only [↓reduceIte, Except.ok.injEq, Option.some.injEq]
        constructor
        · intro u
          constructor
          · intro h; subst h; exact ⟨rfl, hp⟩
          · intro h; exact h.1
        · constructor
          · rintro ⟨e, he⟩; cases he
          · rintro (h | ⟨u, s, hu, hps, hne⟩)
            · cases h
            · subst hu
              rw [hp] at hps
              exact absurd (Probe.response.inj hps).symm hne
      · simp only [hs, ↓reduceIte, Option.some.injEq]
        constructor
        · intro u
          constructor
          · intro h; cases h
          · rintro ⟨hu, hpu⟩
            subst hu
            rw [hp] at hpu
            exact absurd (Probe.response.inj hpu) hs
        · constructor
          · intro _
            exact Or.inr ⟨v, status, rfl, hp, hs⟩
          · intro _
            exact ⟨_, rfl⟩

theorem newPilotCtl_elects_first_response_witness :
    (∀ u, NewPilotCtl "https://a,https://b" probeDownThenOk = .ok u ↔
      (firstResponding probeDownThenOk (stringsSplit "https://a,https://b") = some u ∧
        probeDownThenOk u = .response 200)) ∧
    ((∃ e, NewPilotCtl "https://a,https://b" probeDownThenOk = .error e) ↔
      (firstResponding probeDownThenOk (stringsSplit "https://a,https://b") = none ∨
        ∃ u status,
          firstResponding probeDownThenOk (stringsSplit "https://a,https://b") = some u ∧
          probeDownThenOk u = .response status ∧ status ≠ 200)) :=
  newPilotCtl_elects_first_response "https://a,https://b" probeDownThenOk (by decide)

/-! ## C15, C16: activate -/

theorem matchedMac_iff (deviceId : String) (macs : List String) :
    matchedMac deviceId macs = true ↔ deviceId ∈ macs := by
  induction macs with
  | nil => simp [matchedMac]
  | cons m rest ih =>
    rw [matchedMac]
    by_cases h : deviceId = m
    · simp [h]
    · simp [h, ih]

/-- C15. For every activation key and host: when the key loads, validates and has not expired,
`activate` passes the check of the device id, and so completes, if and only if, with `UseHwId`
set, the device id of the key is the hardware id of the host (whatever the MAC addresses),
and, with `UseHwId` not set, some MAC address of the host is the device id of the key. -/
theorem activate_device_check (a : AKInfo) (now : Int) (options : PilotOptions)
    (hvalid : a.Validate = none) (hexp : ¬ a.Expiry < now) :
    (deviceIdCheck a options = none ↔
      if options.UseHwId then a.DeviceId = options.Info.HardwareId
      else a.DeviceId ∈ options.Info.MacAddress) ∧
    ((∃ r, activate none (.ok a) now options = .ok r) ↔
      if options.UseHwId then a.DeviceId = options.Info.HardwareId
      else a.DeviceId ∈ options.Info.MacAddress) := by
  have h1 : deviceIdCheck a options = none ↔
      if options.UseHwId then a.DeviceId = options.Info.HardwareId
      else a.DeviceId ∈ options.Info.MacAddress := by
    unfold deviceIdCheck
    cases hu : options.UseHwId with
    | true =>
      simp only [if_true]
      by_cases h : a.DeviceId = options.Info.HardwareId <;> simp [h]
    | false =>
      simp only [Bool.false_eq_true, if_false]
      rw [← matchedMac_iff]
      cases matchedMac a.DeviceId options.Info.MacAddress <;> simp
  refine ⟨h1, ?_⟩
  rw [← h1]
  unfold activate
  simp only [hvalid, hexp, if_false]
  cases hd : deviceIdCheck a options with
  | none => simp
  | some f => simp

theorem activate_device_check_witness :
    (deviceIdCheck akNoCtlURI optionsByMac = none ↔
      if optionsByMac.UseHwId then akNoCtlURI.DeviceId = optionsByMac.Info.HardwareId
      else akNoCtlURI.DeviceId ∈ optionsByMac.Info.MacAddress) ∧
    ((∃ r, activate none (.ok akNoCtlURI) 1000 optionsByMac = .ok r) ↔
      if optionsByMac.UseHwId then akNoCtlURI.DeviceId = optionsByMac.Info.HardwareId
      else akNoCtlURI.DeviceId ∈ optionsByMac.Info.MacAddress) :=
  activate_device_check akNoCtlURI 1000 optionsByMac (by decide) (by decide)

/-- C16, as stated, fails. An activation key with an empty control URI passes `activate`. -/
theorem activate_accepts_empty_ctl_uri :
    akNoCtlURI.CtlURI = "" ∧
    activate none (.ok akNoCtlURI) 1000 optionsByMac
      = .ok (akNoCtlURI,
          { optionsByMac with Info := { optionsByMac.Info with HostUUID := "host-1" } }) := by
  decide

/-- C16, amended. Whenever `activate` completes without a fatal exit, the activation key `A`
has a non-empty host UUID, device id and verification key, and an expiry that is not before the
time of the check; the control URI is not checked. -/
theorem activate_key_fields (acquired : Option Fatal) (loaded : Except Err AKInfo) (now : Int)
    (options : PilotOptions) (A : AKInfo) (options2 : PilotOptions)
    (h : activate acquired loaded now options = .ok (A, options2)) :
    loaded = .ok A ∧ A.HostUUID ≠ "" ∧ A.DeviceId ≠ "" ∧ A.VerifyKey ≠ "" ∧ now ≤ A.Expiry ∧
    options2.Info.HostUUID = A.HostUUID := by
  unfold activate at h
  split at h
  · cases h
  · split at h
    · cases h
    · rename_i B
      split at h
      · cases h
      · rename_i hv
        split at h
        · cases h
        · rename_i hexp
          split at h
          · cases h
          · simp only [Except.ok.injEq, Prod.mk.injEq] at h
            obtain ⟨h1, h2⟩ := h
            subst h1
            unfold AKInfo.Validate at hv
            have hlen : ∀ s : String, s.length = 0 ↔ s = "" := by
              intro s
              constructor
              · intro hs
                apply String.ext
                exact List.eq_nil_of_length_eq_zero hs
              · intro hs; rw [hs]; rfl
            split at hv
            · cases hv
            · rename_i h3
              split at hv
              · cases hv
              · rename_i h4
                split at hv
                · cases hv
                · rename_i h5
                  refine ⟨rfl, ?_, ?_, ?_, by omega, by rw [← h2]⟩
                  · exact fun h => h5 ((hlen _).mpr h)
                  · exact fun h => h4 ((hlen _).mpr h)
                  · exact fun h => h3 ((hlen _).mpr h)

theorem activate_key_fields_witness :
    (Except.ok akNoCtlURI : Except Err AKInfo) = .ok akNoCtlURI ∧
    akNoCtlURI.HostUUID ≠ "" ∧ akNoCtlURI.DeviceId ≠ "" ∧ akNoCtlURI.VerifyKey ≠ "" ∧
    (1000 : Int) ≤ akNoCtlURI.Expiry ∧
    ({ optionsByMac with Info := { optionsByMac.Info with HostUUID := "host-1" } }
      : PilotOptions).Info.HostUUID = akNoCtlURI.HostUUID :=
  activate_key_fields none (.ok akNoCtlURI) 1000 optionsByMac akNoCtlURI
    { optionsByMac with Info := { optionsByMac.Info with HostUUID := "host-1" } } (by decide)

/-! ## C17, C18: job files that cannot be decoded -/

theorem parseDigits_all_digits :
    ∀ (l : List Char) (acc v : Nat), parseDigits l acc = some v → ∀ c ∈ l, c.isDigit = true := by
  intro l
  induction l with
  | nil => intro _ _ _ c hc; cases hc
  | cons d l ih =>
    intro acc v h c hc
    rw [parseDigits] at h
    split at h
    · rename_i hd
      rcases List.mem_cons.mp hc with rfl | hc
      · exact hd
      · exact ih _ _ h c hc
    · cases h

theorem toDigitsCore_ne_nil (fuel : Nat) :
    ∀ (n : Nat) (ds : List Char), ds ≠ [] → Nat.toDigitsCore 10 fuel n ds ≠ [] := by
  induction fuel with
  | zero => intro n ds h; simpa [Nat.toDigitsCore] using h
  | succ fuel ih =>
    intro n ds h
    simp only [Nat.toDigitsCore]
    split
    · simp
    · exact ih _ _ (by simp)

theorem repr_data_ne_nil (n : Nat) : (Nat.repr n).data ≠ [] := by
  simp only [Nat.repr, Nat.toDigits, List.asString, Nat.toDigitsCore]
  split
  · simp
  · exact toDigitsCore_ne_nil _ _ _ (by simp)

theorem takeWhile_append_stop {α : Type} (p : α → Bool) (l : List α) (x : α) (r : List α)
    (hl : ∀ c ∈ l, p c = true) (hx : p x = false) : (l ++ x :: r).takeWhile p = l := by
  induction l with
  | nil => simp [List.takeWhile, hx]
  | cons c l ih =>
    rw [List.cons_append, List.takeWhile_cons, hl c (List.mem_cons_self _ _)]
    simp only [if_true]
    rw [ih (fun d hd => hl d (List.mem_cons_of_mem _ hd))]

/-- The job id is read back from the name of the job file of a non-negative id. -/
theorem findJobIdString_jobFile (n : Nat) :
    findJobIdString (jobFile (Int.ofNat n)) = Nat.repr n := by
  have hall := parseDigits_all_digits _ _ _ (parseDigits_repr n)
  have hne := repr_data_ne_nil n
  unfold findJobIdString jobFile fmtD
  apply String.ext
  simp only [String.data_append]
  cases hd : (Nat.repr n).data with
  | nil => exact absurd hd hne
  | cons d ds =>
    rw [hd] at hall
    have hdd := hall d (List.mem_cons_self _ _)
    have h1 : List.dropWhile (fun c => !c.isDigit) ("job_".data ++ (d :: ds) ++ ".job".data)
        = (d :: ds) ++ '.' :: "job".data := by
      simp [List.dropWhile, hdd]
    rw [h1]
    exact takeWhile_append_stop _ _ _ _ (fun c hc => by simp [hall c hc]) (by decide)

theorem parseInt64_repr (n : Nat) (h : n < 2 ^ 63) :
    parseInt64 (Nat.repr n) = some (n : Int) := by
  have hall := parseDigits_all_digits _ _ _ (parseDigits_repr n)
  have hne := repr_data_ne_nil n
  unfold parseInt64
  split
  · rename_i neg ds hm
    split at hm
    · rename_i r hr
      have := hall '+' (by rw [hr]; exact List.mem_cons_self _ _)
      exact absurd this (by decide)
    · rename_i r hr
      have := hall '-' (by rw [hr]; exact List.mem_cons_self _ _)
      exact absurd this (by decide)
    · simp only [Prod.mk.injEq] at hm
      obtain ⟨h1, h2⟩ := hm
      subst h1 h2
      simp only [hne, if_false, parseDigits_repr, Bool.false_eq_true, h, if_true]

theorem parseInt64_findJobIdString_jobFile (id : Int) (h0 : 0 ≤ id) (h1 : id < 2 ^ 63) :
    parseInt64 (findJobIdString (jobFile id)) = some id := by
  obtain ⟨n, rfl⟩ := Int.eq_ofNat_of_zero_le h0
  have hn : n < 2 ^ 63 := by exact_mod_cast h1
  have := findJobIdString_jobFile n
  simp only [Int.ofNat_eq_coe] at this
  rw [this, parseInt64_repr n hn]

/-- C17, what the code does. When the oldest `.job` file of the process dir is empty, `peekJob`
returns an error and a nil job: the caller gets no reference to the file. -/
theorem peekJob_empty_job_file (S : SliceSorter) (J : Json) (now : Int) (fs : FS)
    (f : FileInfo) (hfirst : firstWithExt ".job" (lsJobs S fs.process) = some f)
    (hread : osReadFile fs.process f.name = .ok "") :
    peekJob S J now fs = some (fs, none, some (Err.emptyJob f.name)) := by
  rw [peekJob_unfold]
  unfold peekJobStep
  simp only [hfirst, hread, if_true]

theorem peekJob_empty_job_file_witness :
    peekJob goSorter demoJson 30 fsEmptyJobFile
      = some (fsEmptyJobFile, none, some (Err.emptyJob (file "job_7.job" 10 "").name)) :=
  peekJob_empty_job_file goSorter demoJson 30 fsEmptyJobFile (file "job_7.job" 10 "")
    (by decide) (by decide)

/-- C18. When the oldest `.job` file is not empty and fails to decode as a command: if it is
named `job_<id>.job` for a job id `0 <= id < 2^63`, `peekJob` returns an error together with a
job that carries the file and a command with `JobId = id` and nothing else; if no id can be
parsed from the name of the file, it returns the error with a job that carries the file
only.  The file system is left as it is. -/
theorem peekJob_corrupt_job_file (S : SliceSorter) (J : Json) (now : Int) (fs : FS)
    (f : FileInfo) (bytes : String)
    (hfirst : firstWithExt ".job" (lsJobs S fs.process) = some f)
    (hread : osReadFile fs.process f.name = .ok bytes) (hne : bytes ≠ "")
    (hdec : J.unmarshalCmd bytes = none) :
    (∀ id : Int, 0 ≤ id → id < 2 ^ 63 → f.name = jobFile id →
      peekJob S J now fs
        = some (fs, some { file := f, cmd := some { JobId := id, Package := "", Function := "",
                                                    Input := none } },
                some (Err.corruptJob f.name))) ∧
    (parseInt64 (findJobIdString f.name) = none →
      peekJob S J now fs
        = some (fs, some { file := f, cmd := none }, some (Err.corruptJobNoId f.name))) := by
  constructor
  · intro id h0 h1 hname
    have hid := parseInt64_findJobIdString_jobFile id h0 h1
    rw [← hname] at hid
    rw [peekJob_unfold]
    unfold peekJobStep
    simp only [hfirst, hread, hne, if_false, hdec, hid]
  · intro hid
    rw [peekJob_unfold]
    unfold peekJobStep
    simp only [hfirst, hread, hne, if_false, hdec, hid]

theorem peekJob_corrupt_job_file_witness :
    (∀ id : Int, 0 ≤ id → id < 2 ^ 63 → (file "job_99.job" 10 "\x7b").name = jobFile id →
      peekJob goSorter demoJson 30 fsCorruptJobFile
        = some (fsCorruptJobFile,
                some { file := file "job_99.job" 10 "\x7b",
                       cmd := some { JobId := id, Package := "", Function := "",
                                     Input := none } },
                some (Err.corruptJob (file "job_99.job" 10 "\x7b").name))) ∧
    (parseInt64 (findJobIdString (file "job_99.job" 10 "\x7b").name) = none →
      peekJob goSorter demoJson 30 fsCorruptJobFile
        = some (fsCorruptJobFile, some { file := file "job_99.job" 10 "\x7b", cmd := none },
                some (Err.corruptJobNoId (file "job_99.job" 10 "\x7b").name))) :=
  peekJob_corrupt_job_file goSorter demoJson 30 fsCorruptJobFile (file "job_99.job" 10 "\x7b")
    "\x7b" (by decide) (by decide) (by decide) (by decide)

/-- The job file of job 99 that holds an opening brace yields the id 99. -/
theorem peekJob_corrupt_job_99 :
    peekJob goSorter demoJson 30 fsCorruptJobFile
      = some (fsCorruptJobFile,
              some { file := file "job_99.job" 10 "\x7b",
                     cmd := some { JobId := 99, Package := "", Function := "", Input := none } },
              some (Err.corruptJob "job_99.job")) := by
  decide

/-! ## C19: removeJob -/

/-- C19. For every job id: if `removeJob(id)` succeeds then `job_<id>.submitted` (data dir) and
`job_<id>.job` (process dir) both existed, and the new state is the old one without the entries
of these two names, the submit dir untouched; if both exist as regular files, it succeeds; and
if the submitted marker is absent it returns an error and changes nothing, so `job_<id>.job`
stays in the queue. -/
theorem removeJob_iff_both_exist (fs : FS) (id : Int) :
    ((removeJob fs id).2 = none →
      (∃ m, fs.data.lookup (submittedFile id) = some m) ∧
      (∃ f, fs.process.lookup (jobFile id) = some f) ∧
      (removeJob fs id).1 = purged fs id) ∧
    (∀ m f, fs.data.lookup (submittedFile id) = some m → m.isDir = false →
      fs.process.lookup (jobFile id) = some f → f.isDir = false →
      removeJob fs id = (purged fs id, none)) ∧
    ((∀ x, x ∈ (purged fs id).data ↔ (x ∈ fs.data ∧ x.name ≠ submittedFile id)) ∧
      (∀ x, x ∈ (purged fs id).process ↔ (x ∈ fs.process ∧ x.name ≠ jobFile id)) ∧
      (purged fs id).submit = fs.submit) ∧
    (fs.data.lookup (submittedFile id) = none →
      (removeJob fs id).2 = some (Err.notExist (submittedFile id)) ∧
      (removeJob fs id).1 = fs) := by
  refine ⟨?_, ?_, ⟨?_, ?_, rfl⟩, ?_⟩
  · intro h
    have hpair : removeJob fs id = ((removeJob fs id).1, none) := Prod.ext rfl h
    obtain ⟨h1, h2, h3⟩ := removeJob_ok hpair
    obtain ⟨e1, m, hm⟩ := osRemove_eq h1
    obtain ⟨e2, f, hf⟩ := osRemove_eq h2
    refine ⟨⟨m, hm⟩, ⟨f, hf⟩, ?_⟩
    cases hr : (removeJob fs id).1 with
    | mk d p s =>
      rw [hr] at e1 e2 h3
      simp only at e1 e2 h3
      simp only [purged, e1, e2, h3]
  · intro m f hm hmd hf hfd
    exact removeJob_of_files hm hmd hf hfd
  · intro x
    simp [purged, List.mem_filter]
  · intro x
    simp [purged, List.mem_filter]
  · intro h
    unfold removeJob osRemove
    simp only [h, and_self]

/-! ## C20: addJob -/

theorem osWriteFile_wf {d d1 : Dir} {n b : String} {t : Int} (hwf : d.WF)
    (h : osWriteFile d n b t = .ok d1) : d1.WF := by
  unfold Dir.WF at hwf ⊢
  rcases osWriteFile_cases h with ⟨h0, h1⟩ | ⟨e, _, _, h1⟩
  · subst h1
    rw [List.map_append, List.map_singleton]
    refine List.Nodup.append hwf (List.nodup_singleton _) ?_
    intro a ha hb
    rw [List.mem_singleton] at hb
    subst hb
    obtain ⟨x, hx, hxa⟩ := List.mem_map.mp ha
    exact lookup_eq_none.mp h0 x hx hxa
  · subst h1
    have : List.map FileInfo.name (List.map (rewrite n b t) d) = List.map FileInfo.name d := by
      rw [List.map_map]
      exact List.map_congr_left (fun x _ => rewrite_name n b t x)
    rw [this]
    exact hwf

theorem osWriteFile_mem_ne {d d1 : Dir} {n b : String} {t : Int}
    (h : osWriteFile d n b t = .ok d1) (x : FileInfo) (hx : x.name ≠ n) : x ∈ d1 ↔ x ∈ d := by
  rcases osWriteFile_cases h with ⟨_, h1⟩ | ⟨e, _, _, h1⟩
  · subst h1
    rw [List.mem_append, List.mem_singleton]
    constructor
    · rintro (hm | hm)
      · exact hm
      · exact absurd (by rw [hm]) hx
    · exact Or.inl
  · subst h1
    rw [List.mem_map]
    constructor
    · rintro ⟨y, hy, hyx⟩
      have hyn : y.name ≠ n := by
        rw [← rewrite_name n b t y, hyx]; exact hx
      have : rewrite n b t y = y := by
        unfold rewrite; rw [if_neg hyn]
      rw [← hyx, this]; exact hy
    · intro hm
      exact ⟨x, hm, by unfold rewrite; rw [if_neg hx]⟩

theorem filter_name_of_lookup {d : Dir} (hwf : d.WF) {n : String} {e : FileInfo}
    (h : d.lookup n = some e) : d.filter (fun x => decide (x.name = n)) = [e] := by
  induction d with
  | nil => cases h
  | cons x d ih =>
    unfold Dir.WF at hwf
    rw [List.map_cons, List.nodup_cons] at hwf
    rw [lookup_cons] at h
    by_cases hx : x.name = n
    · rw [if_pos hx] at h
      rw [← Option.some.inj h, List.filter_cons_of_pos (by simpa using hx)]
      congr 1
      rw [List.filter_eq_nil_iff]
      intro y hy
      have : y.name ≠ x.name := fun hyx => hwf.1 (hyx ▸ List.mem_map_of_mem _ hy)
      simpa [hx] using this
    · rw [if_neg hx] at h
      rw [List.filter_cons_of_neg (by simpa using hx)]
      exact ih hwf.2 h

/-- C20. For all commands `c1` and `c2` with the same `JobId` that can be encoded, and a process
dir with unique names in which `job_<id>.job` is not a directory: `addJob(c1)` followed by
`addJob(c2)` both succeed and leave the process dir with exactly one entry named `job_<id>.job`,
a regular file holding the encoding of `c2`; every entry of another name is in the process dir
afterwards iff it was before, the data and submit dirs are unchanged, and the names stay unique,
so there is never more than one `.job` file of a job id. -/
theorem addJob_last_write_wins (J : Json) (fs : FS) (c1 c2 : CmdInfo) (t1 t2 : Int)
    (b1 b2 : String) (hwf : fs.process.WF) (hid : c1.JobId = c2.JobId)
    (hb1 : J.marshalCmd c1 = some b1) (hb2 : J.marshalCmd c2 = some b2)
    (hfile : ∀ e, fs.process.lookup (jobFile c1.JobId) = some e → e.isDir = false) :
    ∃ fs1 fs2, addJob J fs c1 t1 = (fs1, none) ∧ addJob J fs1 c2 t2 = (fs2, none) ∧
      fs2.process.filter (fun x => decide (x.name = jobFile c2.JobId))
        = [file (jobFile c2.JobId) t2 b2] ∧
      fs2.process.WF ∧
      (∀ x : FileInfo, x.name ≠ jobFile c2.JobId → (x ∈ fs2.process ↔ x ∈ fs.process)) ∧
      fs2.data = fs.data ∧ fs2.submit = fs.submit := by
  obtain ⟨p1, hp1⟩ := osWriteFile_of_file (b := b1) (t := t1) hfile
  obtain ⟨e1, he1, he1d, _, _⟩ := osWriteFile_lookup_self hp1
  have hfile1 : ∀ e, p1.lookup (jobFile c2.JobId) = some e → e.isDir = false := by
    intro e he
    rw [← hid, he1] at he
    cases he
    exact he1d
  obtain ⟨p2, hp2⟩ := osWriteFile_of_file (b := b2) (t := t2) hfile1
  obtain ⟨e2, he2, he2d, he2b, he2t⟩ := osWriteFile_lookup_self hp2
  have hwf1 : p1.WF := osWriteFile_wf hwf hp1
  have hwf2 : p2.WF := osWriteFile_wf hwf1 hp2
  have he2eq : e2 = file (jobFile c2.JobId) t2 b2 := by
    have hn := (lookup_mem he2).2
    cases e2
    simp only at hn he2d he2b he2t
    simp only [file, hn, he2d, he2b, he2t]
  refine ⟨{ fs with process := p1 }, { fs with process := p2 }, ?_, ?_, ?_, hwf2, ?_, rfl, rfl⟩
  · unfold addJob
    simp only [hb1, hp1]
  · unfold addJob
    simp only [hb2, hp2]
  · rw [← he2eq]
    exact filter_name_of_lookup hwf2 he2
  · intro x hx
    rw [osWriteFile_mem_ne hp2 x hx, osWriteFile_mem_ne hp1 x (by rw [hid]; exact hx)]

theorem addJob_last_write_wins_witness :
    ∃ fs1 fs2, addJob demoJson fsOneJob (demoCmd 1) 20 = (fs1, none) ∧
      addJob demoJson fs1 (demoCmd 1) 30 = (fs2, none) ∧
      fs2.process.filter (fun x => decide (x.name = jobFile (demoCmd 1).JobId))
        = [file (jobFile (demoCmd 1).JobId) 30 "cmd 1"] ∧
      fs2.process.WF ∧
      (∀ x : FileInfo, x.name ≠ jobFile (demoCmd 1).JobId →
        (x ∈ fs2.process ↔ x ∈ fsOneJob.process)) ∧
      fs2.data = fsOneJob.data ∧ fs2.submit = fsOneJob.submit :=
  addJob_last_write_wins demoJson fsOneJob (demoCmd 1) (demoCmd 1) 20 30 "cmd 1" "cmd 1"
    (by unfold Dir.WF; decide) rfl (by decide) (by decide) (by decide)

/-! ## C21: the order of the effects of submitJobResult -/

theorem submittedMarkerCalls_snd (fs : FS) (jobId : Int) (now : Int) :
    (submittedMarkerCalls fs jobId now).2 = submittedMarker fs jobId now := by
  unfold submittedMarkerCalls submittedMarker
  split
  · rfl
  · split <;> rfl

theorem submitJobResultCalls_snd (J : Json) (fs : FS) (r : JobResult) (now : Int) :
    (submitJobResultCalls J fs r now).2 = submitJobResult J fs r now := by
  unfold submitJobResultCalls submitJobResult
  split
  · rfl
  · split
    · rfl
    · exact submittedMarkerCalls_snd _ _ _

/-- C21. For every job result `r` that can be encoded, with no directory in the place of the
started marker: `submitJobResult(r)` is its version with the calls recorded; when it succeeds,
its calls on the file system are, in this order, the write of `job_<id>.result` in the submit
dir, the write of `job_<id>.submitted` and the removal of `job_<id>.started` in the data dir;
afterwards the result file reads as the encoding of `r`, the submitted marker exists and the
started marker does not; and when the write of the result file fails, that write is its only
call, the error is returned and the file system is unchanged: no submitted marker is written
and the started marker is kept. -/
theorem submitJobResult_effects_in_order (J : Json) (fs : FS) (r : JobResult) (now : Int)
    (bytes : String) (hb : J.marshalResult r = some bytes)
    (hst : ∀ e, fs.data.lookup (startedFile r.JobId) = some e → e.isDir = false) :
    (submitJobResultCalls J fs r now).2 = submitJobResult J fs r now ∧
    ((submitJobResult J fs r now).2 = none →
      (submitJobResultCalls J fs r now).1
        = [.writeFile .submit (resultFile r.JobId) bytes,
            .writeFile .data (submittedFile r.JobId) "",
            .remove .data (startedFile r.JobId)] ∧
      osReadFile (submitJobResult J fs r now).1.submit (resultFile r.JobId) = .ok bytes ∧
      osStat (submitJobResult J fs r now).1.data (submittedFile r.JobId) = true ∧
      osStat (submitJobResult J fs r now).1.data (startedFile r.JobId) = false ∧
      (submitJobResult J fs r now).1.process = fs.process) ∧
    (∀ e, osWriteFile fs.submit (resultFile r.JobId) bytes now = .error e →
      submitJobResultCalls J fs r now
        = ([.writeFile .submit (resultFile r.JobId) bytes], fs, some e)) := by
  refine ⟨submitJobResultCalls_snd J fs r now, ?_, ?_⟩
  · intro hok
    rw [← submitJobResultCalls_snd] at hok ⊢
    unfold submitJobResultCalls at hok ⊢
    simp only [hb] at hok ⊢
    cases hw : osWriteFile fs.submit (resultFile r.JobId) bytes now with
    | error e => rw [hw] at hok; cases hok
    | ok s =>
      simp only [hw] at hok ⊢
      obtain ⟨f, hf, hfd, hfb, _⟩ := osWriteFile_lookup_self hw
      have hread : osReadFile s (resultFile r.JobId) = .ok bytes := by
        unfold osReadFile
        simp only [hf, hfd, Bool.false_eq_true, if_false, hfb]
      unfold submittedMarkerCalls at hok ⊢
      cases hm : osWriteFile fs.data (submittedFile r.JobId) "" now with
      | error e => simp only [hm] at hok; cases hok
      | ok d =>
        simp only [hm]
        obtain ⟨m, hmk, _, _, _⟩ := osWriteFile_lookup_self hm
        have hne : startedFile r.JobId ≠ submittedFile r.JobId :=
          startedFile_ne_submittedFile _ _
        cases hrm : osRemove d (startedFile r.JobId) with
        | error e =>
          simp only
          refine ⟨trivial, hread, ?_, ?_, trivial⟩
          · unfold osStat; rw [hmk]; rfl
          · -- the removal fails only when the started marker is absent
            unfold osStat
            unfold osRemove at hrm
            rw [osWriteFile_lookup_ne hm hne] at hrm ⊢
            cases hl : fs.data.lookup (startedFile r.JobId) with
            | none => rfl
            | some x =>
              rw [hl] at hrm
              simp only [hst x hl, Bool.false_eq_true, false_and, if_false] at hrm
              cases hrm
        | ok d1 =>
          simp only
          refine ⟨trivial, hread, ?_, ?_, trivial⟩
          · unfold osStat
            rw [osRemove_lookup_ne hrm (Ne.symm hne), hmk]; rfl
          · unfold osStat
            rw [osRemove_lookup_self hrm]; rfl
  · intro e he
    unfold submitJobResultCalls
    simp only [hb, he]

theorem submitJobResult_effects_in_order_witness :
    (submitJobResult demoJson fsStarted (demoResult 1) 30).2 = none ∧
    ((submitJobResultCalls demoJson fsStarted (demoResult 1) 30).2
        = submitJobResult demoJson fsStarted (demoResult 1) 30 ∧
      ((submitJobResult demoJson fsStarted (demoResult 1) 30).2 = none →
        (submitJobResultCalls demoJson fsStarted (demoResult 1) 30).1
          = [.writeFile .submit (resultFile (demoResult 1).JobId) "res 1",
              .writeFile .data (submittedFile (demoResult 1).JobId) "",
              .remove .data (startedFile (demoResult 1).JobId)] ∧
        osReadFile (submitJobResult demoJson fsStarted (demoResult 1) 30).1.submit
          (resultFile (demoResult 1).JobId) = .ok "res 1" ∧
        osStat (submitJobResult demoJson fsStarted (demoResult 1) 30).1.data
          (submittedFile (demoResult 1).JobId) = true ∧
        osStat (submitJobResult demoJson fsStarted (demoResult 1) 30).1.data
          (startedFile (demoResult 1).JobId) = false ∧
        (submitJobResult demoJson fsStarted (demoResult 1) 30).1.process = fsStarted.process) ∧
      (∀ e, osWriteFile fsStarted.submit (resultFile (demoResult 1).JobId) "res 1" 30 = .error e →
        submitJobResultCalls demoJson fsStarted (demoResult 1) 30
          = ([.writeFile .submit (resultFile (demoResult 1).JobId) "res 1"], fsStarted,
              some e))) :=
  ⟨by decide, submitJobResult_effects_in_order demoJson fsStarted (demoResult 1) 30 "res 1"
    (by decide) (by decide)⟩

/-! ## C22: at most one of the two markers of a job -/

theorem markersExclusive_of_stat {d d1 : Dir} (h : MarkersExclusive d)
    (hsub : ∀ id, osStat d1 (startedFile id) = true → osStat d1 (submittedFile id) = true →
      osStat d (startedFile id) = true ∧ osStat d (submittedFile id) = true) :
    MarkersExclusive d1 :=
  fun id hid => h id (hsub id hid.1 hid.2)

theorem osRemove_stat {d d1 : Dir} {n : String} (h : osRemove d n = .ok d1) (m : String)
    (hm : osStat d1 m = true) : osStat d m = true := by
  unfold osStat at hm ⊢
  by_cases hmn : m = n
  · rw [hmn, osRemove_lookup_self h] at hm
    cases hm
  · rw [osRemove_lookup_ne h hmn] at hm
    exact hm

theorem osRemove_exclusive {d d1 : Dir} {n : String} (h : osRemove d n = .ok d1)
    (hx : MarkersExclusive d) : MarkersExclusive d1 :=
  markersExclusive_of_stat hx
    (fun _ h1 h2 => ⟨osRemove_stat h _ h1, osRemove_stat h _ h2⟩)

theorem osWriteFile_stat_ne {d d1 : Dir} {n b : String} {t : Int}
    (h : osWriteFile d n b t = .ok d1) {m : String} (hm : m ≠ n) : osStat d1 m = osStat d m := by
  unfold osStat
  rw [osWriteFile_lookup_ne h hm]

theorem osWriteFile_exclusive {d d1 : Dir} {n b : String} {t : Int}
    (h : osWriteFile d n b t = .ok d1) (h1 : ∀ id, startedFile id ≠ n)
    (h2 : ∀ id, submittedFile id ≠ n) (hx : MarkersExclusive d) : MarkersExclusive d1 :=
  markersExclusive_of_stat hx (fun id a b => by
    rw [osWriteFile_stat_ne h (h1 id)] at a
    rw [osWriteFile_stat_ne h (h2 id)] at b
    exact ⟨a, b⟩)

/-- Writing the started marker of a job that has no submitted marker keeps the invariant. -/
theorem startedWrite_exclusive {d d1 : Dir} {id : Int} {t : Int}
    (h : osWriteFile d (startedFile id) "" t = .ok d1)
    (hs : osStat d (submittedFile id) = false) (hx : MarkersExclusive d) :
    MarkersExclusive d1 := by
  intro k hk
  have hsub : osStat d1 (submittedFile k) = osStat d (submittedFile k) :=
    osWriteFile_stat_ne h (fun e => startedFile_ne_submittedFile _ _ e.symm)
  by_cases hki : k = id
  · subst hki
    rw [hsub, hs] at hk
    cases hk.2
  · have hst : osStat d1 (startedFile k) = osStat d (startedFile k) :=
      osWriteFile_stat_ne h (fun e => hki (startedFile_injective e))
    rw [hsub, hst] at hk
    exact hx k hk

theorem startedMarker_exclusive {fs : FS} {f : FileInfo} {c : CmdInfo} {now : Int}
    (hs : submittedMarkerExists fs c.JobId = false) (hx : MarkersExclusive fs.data) :
    MarkersExclusive (startedMarker fs (some { file := f, cmd := some c }) now).1.data := by
  simp only [startedMarker]
  split
  · exact hx
  · rename_i d hd
    exact startedWrite_exclusive hd hs hx

theorem removeJob_exclusive (fs : FS) (id : Int) (hx : MarkersExclusive fs.data) :
    MarkersExclusive (removeJob fs id).1.data := by
  unfold removeJob
  split
  · exact hx
  · rename_i d hd
    split
    · exact osRemove_exclusive hd hx
    · exact osRemove_exclusive hd hx

theorem peekJobStep_done_exclusive {S : SliceSorter} {J : Json} {now : Int} {fs : FS}
    {r : FS × Option Job × Option Err} (hx : MarkersExclusive fs.data)
    (h : peekJobStep S J now fs = .done r) : MarkersExclusive r.1.data := by
  unfold peekJobStep at h
  split at h
  · cases h; exact hx
  · split at h
    · cases h; exact hx
    · split at h
      · cases h; exact hx
      · split at h
        · split at h <;> cases h <;> exact hx
        · rename_i c hdec
          split at h
          · have := removeJob_exclusive fs c.JobId hx
            split at h
            · rename_i fs1 e hrm
              cases h
              rw [hrm] at this
              exact this
            · cases h
          · rename_i hmark
            cases h
            exact startedMarker_exclusive (by simpa using hmark) hx

theorem peekJobStep_again_exclusive {S : SliceSorter} {J : Json} {now : Int} {fs fs1 : FS}
    (hx : MarkersExclusive fs.data) (h : peekJobStep S J now fs = .again fs1) :
    MarkersExclusive fs1.data := by
  obtain ⟨_, _, c, _, _, _, _, _, hrm⟩ := peekJobStep_again h
  exact osRemove_exclusive (removeJob_ok hrm).1 hx

theorem peekJobAux_exclusive (S : SliceSorter) (J : Json) (now : Int) :
    ∀ (n : Nat) (fs : FS) (r : FS × Option Job × Option Err),
      MarkersExclusive fs.data → peekJobAux S J now n fs = some r →
      MarkersExclusive r.1.data := by
  intro n
  induction n with
  | zero => intro fs r _ h; cases h
  | succ n ih =>
    intro fs r hx h
    rw [peekJobAux] at h
    cases hs : peekJobStep S J now fs with
    | done r1 =>
      rw [hs] at h
      rw [← Option.some.inj h]
      exact peekJobStep_done_exclusive hx hs
    | again fs1 =>
      rw [hs] at h
      exact ih fs1 r (peekJobStep_again_exclusive hx hs) h

theorem submittedMarker_exclusive (fs : FS) (id : Int) (now : Int)
    (hst : ∀ e, fs.data.lookup (startedFile id) = some e → e.isDir = false)
    (hx : MarkersExclusive fs.data) : MarkersExclusive (submittedMarker fs id now).1.data := by
  unfold submittedMarker
  have hne : startedFile id ≠ submittedFile id := startedFile_ne_submittedFile _ _
  split
  · exact hx
  · rename_i d hd
    -- after the removal, or its failure, the started marker of the job is absent
    have key : ∀ d1 : Dir, osStat d1 (startedFile id) = false →
        (∀ m, osStat d1 m = true → osStat d m = true) → MarkersExclusive d1 := by
      intro d1 hgone hsub k hk
      by_cases hki : k = id
      · subst hki
        rw [hgone] at hk
        cases hk.1
      · have a := hsub _ hk.1
        have b := hsub _ hk.2
        rw [osWriteFile_stat_ne hd (fun e => startedFile_ne_submittedFile _ _ e)] at a
        rw [osWriteFile_stat_ne hd (fun e => hki (submittedFile_injective e))] at b
        exact hx k ⟨a, b⟩
    split
    · rename_i e hrm
      refine key d ?_ (fun m hm => hm)
      unfold osStat
      unfold osRemove at hrm
      rw [osWriteFile_lookup_ne hd hne] at hrm ⊢
      cases hl : fs.data.lookup (startedFile id) with
      | none => rfl
      | some x =>
        rw [hl] at hrm
        simp only [hst x hl, Bool.false_eq_true, false_and, if_false] at hrm
        cases hrm
    · rename_i d1 hrm
      refine key d1 ?_ (fun m hm => osRemove_stat hrm m hm)
      unfold osStat
      rw [osRemove_lookup_self hrm]; rfl

theorem submitJobResult_exclusive (J : Json) (fs : FS) (r : JobResult) (now : Int)
    (hst : ∀ e, fs.data.lookup (startedFile r.JobId) = some e → e.isDir = false)
    (hx : MarkersExclusive fs.data) : MarkersExclusive (submitJobResult J fs r now).1.data := by
  unfold submitJobResult
  split
  · exact hx
  · split
    · exact hx
    · exact submittedMarker_exclusive _ _ _ hst hx

theorem getEvents_exclusive (S : SliceSorter) (J : Json) (max now : Int) (fs : FS)
    (hx : MarkersExclusive fs.data) : MarkersExclusive (getEvents S J max now fs).1.data := by
  unfold getEvents
  split
  · exact hx
  · split
    · exact hx
    · split
      · exact hx
      · split
        · exact hx
        · rename_i d hd
          exact osWriteFile_exclusive hd startedFile_ne_eventsJson submittedFile_ne_eventsJson hx

theorem removeEvents_exclusive (J : Json) (fs : FS) (hx : MarkersExclusive fs.data) :
    MarkersExclusive (removeEvents J fs).1.data := by
  unfold removeEvents
  split
  · exact hx
  · split
    · exact hx
    · split
      · exact hx
      · split
        · exact hx
        · rename_i d hd
          exact osRemove_exclusive hd hx

/-- C22. When for no job id `job_<id>.started` and `job_<id>.submitted` both exist in the data
dir, the same holds after each of the queue operations, whatever it returns: `addJob`,
`peekJob` (which returns), `submitJobResult` (with no directory in the place of the started
marker of the job), `removeJob`, `removeJobResult`, `getEvents` and `removeEvents`. -/
theorem markers_exclusive_preserved (S : SliceSorter) (J : Json) (now : Int) (fs : FS)
    (hx : MarkersExclusive fs.data) :
    (∀ c, MarkersExclusive (addJob J fs c now).1.data) ∧
    (∃ r, peekJob S J now fs = some r ∧ MarkersExclusive r.1.data) ∧
    (∀ r, (∀ e, fs.data.lookup (startedFile r.JobId) = some e → e.isDir = false) →
      MarkersExclusive (submitJobResult J fs r now).1.data) ∧
    (∀ id, MarkersExclusive (removeJob fs id).1.data) ∧
    (∀ r, MarkersExclusive (removeJobResult fs r).1.data) ∧
    (∀ max, MarkersExclusive (getEvents S J max now fs).1.data) ∧
    MarkersExclusive (removeEvents J fs).1.data := by
  refine ⟨?_, ?_, ?_, ?_, ?_, ?_, ?_⟩
  · intro c
    unfold addJob
    split
    · exact hx
    · split <;> exact hx
  · obtain ⟨r, hr⟩ := peekJobAux_total S J now (fs.process.length + 1) fs (Nat.lt_succ_self _)
    exact ⟨r, hr, peekJobAux_exclusive S J now _ fs r hx hr⟩
  · intro r hst
    exact submitJobResult_exclusive J fs r now hst hx
  · intro id
    exact removeJob_exclusive fs id hx
  · intro r
    unfold removeJobResult
    split <;> exact hx
  · intro max
    exact getEvents_exclusive S J max now fs hx
  · exact removeEvents_exclusive J fs hx

theorem fsTwoMarkers_exclusive : MarkersExclusive fsTwoMarkers.data := by
  intro id hid
  obtain ⟨h1, h2⟩ := hid
  by_cases h : id = 1
  · subst h
    revert h2
    decide
  · have e1 : startedFile 1 = "job_1.started" := by decide
    have e2 : submittedFile 2 = "job_2.submitted" := by decide
    have n1 : ¬ "job_1.started" = startedFile id := by
      rw [← e1]
      exact fun e => h (startedFile_injective e).symm
    have n2 : ¬ "job_2.submitted" = startedFile id := by
      rw [← e2]
      exact fun e => startedFile_ne_submittedFile _ _ e.symm
    unfold osStat at h1
    simp only [fsTwoMarkers, file, lookup_cons, n1, n2, if_false] at h1
    cases h1

theorem markers_exclusive_preserved_witness :
    MarkersExclusive fsTwoMarkers.data ∧
    (∀ c, MarkersExclusive (addJob demoJson fsTwoMarkers c 30).1.data) ∧
    (∃ r, peekJob goSorter demoJson 30 fsTwoMarkers = some r ∧ MarkersExclusive r.1.data) ∧
    (∀ r, (∀ e, fsTwoMarkers.data.lookup (startedFile r.JobId) = some e → e.isDir = false) →
      MarkersExclusive (submitJobResult demoJson fsTwoMarkers r 30).1.data) ∧
    (∀ id, MarkersExclusive (removeJob fsTwoMarkers id).1.data) ∧
    (∀ r, MarkersExclusive (removeJobResult fsTwoMarkers r).1.data) ∧
    (∀ max, MarkersExclusive (getEvents goSorter demoJson max 30 fsTwoMarkers).1.data) ∧
    MarkersExclusive (removeEvents demoJson fsTwoMarkers).1.data :=
  ⟨fsTwoMarkers_exclusive,
    markers_exclusive_preserved goSorter demoJson 30 fsTwoMarkers fsTwoMarkers_exclusive⟩

/-! ## C26: the started marker at peek time -/

/-- C26, what the code does. When the oldest job of the queue is decodable, has no submitted
marker and already has a started marker (it was handed out before and no completion was
recorded), `peekJob` rewrites the started marker and hands the job out like any other: the
submit dir is unchanged, no warning result is added to it.  `peekJob` never changes the
submit dir. -/
theorem peekJob_ignores_started_marker (S : SliceSorter) (J : Json) (now : Int) (fs : FS)
    (f m : FileInfo) (bytes : String) (c : CmdInfo)
    (hfirst : firstWithExt ".job" (lsJobs S fs.process) = some f)
    (hread : osReadFile fs.process f.name = .ok bytes) (hne : bytes ≠ "")
    (hdec : J.unmarshalCmd bytes = some c)
    (hmark : submittedMarkerExists fs c.JobId = false)
    (hstarted : fs.data.lookup (startedFile c.JobId) = some m) (hm : m.isDir = false) :
    peekJob S J now fs
      = some ({ fs with data := fs.data.map (rewrite (startedFile c.JobId) "" now) },
          some { file := f, cmd := some c }, none) ∧
    ∀ (t : Int) (fs1 : FS) (r : FS × Option Job × Option Err),
      peekJob S J t fs1 = some r → r.1.submit = fs1.submit := by
  constructor
  · rw [peekJob_unfold, peekJobStep_hand S J now fs hfirst hread hne hdec hmark]
    simp only [startedMarker, osWriteFile, hstarted, hm, Bool.false_eq_true, if_false]
  · intro t fs1 r h
    obtain ⟨fs2, job, e⟩ := r
    exact (peekJobAux_frame S J t _ fs1 fs2 job e h).1.1

theorem peekJob_ignores_started_marker_witness :
    peekJob goSorter demoJson 30 fsStarted
      = some ({ fsStarted with
                data := fsStarted.data.map (rewrite (startedFile (demoCmd 1).JobId) "" 30) },
          some { file := file "job_1.job" 10 "cmd 1", cmd := some (demoCmd 1) }, none) ∧
    ∀ (t : Int) (fs1 : FS) (r : FS × Option Job × Option Err),
      peekJob goSorter demoJson t fs1 = some r → r.1.submit = fs1.submit :=
  peekJob_ignores_started_marker goSorter demoJson 30 fsStarted (file "job_1.job" 10 "cmd 1")
    (file "job_1.started" 20 "") "cmd 1" (demoCmd 1) (by decide) (by decide) (by decide)
    (by decide) (by decide) (by decide) rfl

/-! ## C27: peekJob terminates -/

theorem peekJobStep_again_count {S : SliceSorter} {J : Json} {now : Int} {fs fs1 : FS}
    (h : peekJobStep S J now fs = .again fs1) : jobFileCount fs1 < jobFileCount fs := by
  obtain ⟨_, _, c, _, _, _, _, _, hrm⟩ := peekJobStep_again h
  obtain ⟨hp, e, he⟩ := osRemove_eq (removeJob_ok hrm).2.1
  unfold jobFileCount
  rw [hp, List.filter_filter]
  have hfil : List.filter (fun a => decide (pathExt a.name = ".job") && decide (a.name ≠ jobFile c.JobId))
      fs.process
      = List.filter (fun a => decide (a.name ≠ jobFile c.JobId))
          (List.filter (fun a => decide (pathExt a.name = ".job")) fs.process) := by
    rw [List.filter_filter]
    congr 1
    funext a
    exact Bool.and_comm _ _
  rw [hfil, List.length_filter_lt_length_iff_exists]
  refine ⟨e, List.mem_filter.mpr ⟨(lookup_mem he).1, ?_⟩, ?_⟩
  · rw [(lookup_mem he).2]
    simpa using pathExt_jobFile c.JobId
  · simpa using (lookup_mem he).2

theorem peekJobAux_total_count (S : SliceSorter) (J : Json) (now : Int) :
    ∀ (n : Nat) (fs : FS), jobFileCount fs < n → ∃ r, peekJobAux S J now n fs = some r := by
  intro n
  induction n with
  | zero => intro fs h; omega
  | succ n ih =>
    intro fs h
    rw [peekJobAux]
    cases hs : peekJobStep S J now fs with
    | done r => exact ⟨r, rfl⟩
    | again fs1 =>
      have := peekJobStep_again_count hs
      exact ih fs1 (by omega)

theorem peekJobAux_mono (S : SliceSorter) (J : Json) (now : Int) :
    ∀ (n m : Nat) (fs : FS) (r : FS × Option Job × Option Err),
      peekJobAux S J now n fs = some r → n ≤ m → peekJobAux S J now m fs = some r := by
  intro n
  induction n with
  | zero => intro m fs r h; cases h
  | succ n ih =>
    intro m fs r h hnm
    cases m with
    | zero => omega
    | succ m =>
      rw [peekJobAux] at h ⊢
      cases hs : peekJobStep S J now fs with
      | done r1 => rw [hs] at h; exact h
      | again fs1 =>
        rw [hs] at h
        exact ih m fs1 r h (by omega)

/-- C27. `peekJob` terminates on every state of the file system: each recursive call follows a
successful `removeJob` and is made on a process dir with fewer `.job` entries, so the depth of
the recursion is at most the number of `.job` entries at the start (`peekJobAux` with the fuel
`k + 1` makes at most `k` recursive calls), and `peekJob` returns that result. -/
theorem peekJob_terminates (S : SliceSorter) (J : Json) (now : Int) (fs : FS) :
    (∀ fs1, peekJobStep S J now fs = .again fs1 →
      (∃ id, removeJob fs id = (fs1, none)) ∧ jobFileCount fs1 < jobFileCount fs) ∧
    ∃ r, peekJobAux S J now (jobFileCount fs + 1) fs = some r ∧ peekJob S J now fs = some r := by
  constructor
  · intro fs1 h
    obtain ⟨_, _, c, _, _, _, _, _, hrm⟩ := peekJobStep_again h
    exact ⟨⟨c.JobId, hrm⟩, peekJobStep_again_count h⟩
  · obtain ⟨r, hr⟩ := peekJobAux_total_count S J now (jobFileCount fs + 1) fs (Nat.lt_succ_self _)
    refine ⟨r, hr, ?_⟩
    have hle : jobFileCount fs + 1 ≤ fs.process.length + 1 := by
      unfold jobFileCount
      exact Nat.succ_le_succ (List.length_filter_le _ _)
    exact peekJobAux_mono S J now _ _ fs r hr hle

/-! ## C24, C25: readUserKey -/

theorem splitComma_no_comma :
    ∀ (l cur : List Char), ',' ∉ l → splitComma l cur = [String.mk (cur.reverse ++ l)] := by
  intro l
  induction l with
  | nil => intro cur _; simp [splitComma]
  | cons c cs ih =>
    intro cur h
    have hc : c ≠ ',' := fun e => h (e ▸ List.mem_cons_self _ _)
    rw [splitComma, if_neg hc, ih _ (fun e => h (List.mem_cons_of_mem _ e))]
    simp

theorem splitComma_append :
    ∀ (pre rest cur : List Char), ',' ∉ pre →
      splitComma (pre ++ ',' :: rest) cur = String.mk (cur.reverse ++ pre) :: splitComma rest [] := by
  intro pre
  induction pre with
  | nil => intro rest cur _; simp [splitComma]
  | cons c cs ih =>
    intro rest cur h
    have hc : c ≠ ',' := fun e => h (e ▸ List.mem_cons_self _ _)
    rw [List.cons_append, splitComma, if_neg hc, ih _ _ (fun e => h (List.mem_cons_of_mem _ e))]
    simp

theorem fmtD_no_comma (n : Int) : ',' ∉ (fmtD n).data := by
  have hrepr : ∀ m : Nat, ',' ∉ (Nat.repr m).data := by
    intro m hm
    have := parseDigits_all_digits _ _ _ (parseDigits_repr m) ',' hm
    exact absurd this (by decide)
  cases n with
  | ofNat m => exact hrepr m
  | negSucc m =>
    intro h
    simp only [fmtD, String.data_append, List.mem_append] at h
    rcases h with h | h
    · revert h; decide
    · exact hrepr _ h

theorem atoi_fmtD (n : Int) (hlo : -(2 ^ 63) ≤ n) (hhi : n < 2 ^ 63) : atoi (fmtD n) = some n := by
  unfold atoi
  cases n with
  | ofNat m =>
    have hm : m < 2 ^ 63 := by
      have : ((m : Nat) : Int) < 2 ^ 63 := hhi
      exact_mod_cast this
    exact parseInt64_repr m hm
  | negSucc m =>
    have hm : m + 1 ≤ 2 ^ 63 := by
      have : -(2 ^ 63 : Int) ≤ Int.negSucc m := hlo
      rw [Int.negSucc_eq] at this
      have h2 : ((m : Int) + 1) ≤ 2 ^ 63 := by omega
      exact_mod_cast h2
    have hdata : (fmtD (Int.negSucc m)).data = '-' :: (Nat.repr (m + 1)).data := by
      simp [fmtD, String.data_append]
    unfold parseInt64
    simp only [hdata, repr_data_ne_nil, if_false, parseDigits_repr, if_true, hm]
    rw [Int.negSucc_eq]
    simp

theorem wrapInt64_of_range (x : Int) (hlo : -(2 ^ 63) ≤ x) (hhi : x < 2 ^ 63) :
    wrapInt64 x = x := by
  unfold wrapInt64
  rw [Int.emod_eq_of_lt (by omega) (by omega)]
  omega

/-- C24, as stated, fails. A days field that is a decimal integer outside the range of `int`
is rejected: `readUserKey` returns the error of `strconv.Atoi`, no key info. -/
theorem readUserKey_rejects_huge_days :
    demoVerify keyHugeDays.Key keyHugeDays.Signature = true ∧
    (demoDecrypt keyHugeDays.Key).bind (fun d => hexDecode d.data)
      = some (demoIV ++ demoSK ++ asciiBytes "u,v,9223372036854775808") ∧
    readUserKey demoVerify demoDecrypt 1000 keyHugeDays = .error .expiryDays := by
  decide

/-- Past 106751 days the product of the durations wraps around: for 106752 days the expiry is
set before the current time. -/
theorem readUserKey_days_overflow :
    readUserKey demoVerify demoDecrypt 1000 keyLongDays
      = .ok { Username := "u", URI := "v", IV := demoIV, SK := demoSK,
              Expiry := some (1000 - 9223371273709551616) } := by
  decide

/-- C24, amended. For every user key whose signature verifies and whose decrypted, hex-decoded
payload is a 12-byte IV, then a 32-byte session key, then the text `username,uri,days`
(username and uri without commas, days a decimal integer of at least `-2^63` and at most
106751), `readUserKey` returns `Username = username`, `URI = uri`, `IV` = the first 12 bytes
and `SK` = the bytes 12 to 43, with `Expiry` absent exactly when `days <= 0` and otherwise set
`days` times 24 hours after the current time. -/
theorem readUserKey_fields (verify : String → String → Bool) (decrypt : String → Option String)
    (now : Int) (key : userKey) (d : String) (iv sk text : List Nat) (username uri : String)
    (days : Int)
    (hv : verify key.Key key.Signature = true) (hd : decrypt key.Key = some d)
    (hx : hexDecode d.data = some (iv ++ sk ++ text))
    (hiv : iv.length = 12) (hsk : sk.length = 32)
    (htext : bytesToString text = username ++ "," ++ uri ++ "," ++ fmtD days)
    (hu : ',' ∉ username.data) (hr : ',' ∉ uri.data)
    (hlo : -(2 ^ 63) ≤ days) (hhi : days ≤ 106751) :
    readUserKey verify decrypt now key
      = .ok { Username := username, URI := uri, IV := iv, SK := sk,
              Expiry := if days ≤ 0 then none else some (now + days * (24 * timeHour)) } := by
  have hlen : ¬ (iv ++ sk ++ text).length < 44 := by
    simp only [List.length_append, hiv, hsk]; omega
  have hdrop : (iv ++ sk ++ text).drop 44 = text := by
    have : (iv ++ sk).length = 44 := by simp [hiv, hsk]
    rw [← this, List.drop_left]
  have htake : (iv ++ sk ++ text).take 12 = iv := by
    rw [List.append_assoc, ← hiv, List.take_left]
  have hmid : ((iv ++ sk ++ text).drop 12).take 32 = sk := by
    rw [List.append_assoc, ← hiv, List.drop_left, ← hsk, List.take_left]
  have hsplit : stringsSplit (bytesToString text) = [username, uri, fmtD days] := by
    unfold stringsSplit
    rw [htext]
    have hdata : (username ++ "," ++ uri ++ "," ++ fmtD days).data
        = username.data ++ ',' :: (uri.data ++ ',' :: (fmtD days).data) := by
      simp [String.data_append]
    rw [hdata, splitComma_append _ _ _ hu, splitComma_append _ _ _ hr,
      splitComma_no_comma _ _ (fmtD_no_comma days)]
    simp
  have hatoi : atoi (fmtD days) = some days := atoi_fmtD days hlo (by omega)
  unfold readUserKey
  simp only [hv, Bool.not_true, Bool.false_eq_true, if_false, hd, hx, hlen, hdrop, hsplit,
    hatoi, htake, hmid]
  by_cases hpos : days ≤ 0
  · simp only [hpos, if_true, gt_iff_lt, not_lt.mpr hpos, if_false]
  · have hwrap : wrapInt64 (timeHour * 24 * days) = days * (24 * timeHour) := by
      rw [wrapInt64_of_range]
      · ring
      · simp only [timeHour, timeSecond]; omega
      · simp only [timeHour, timeSecond]; omega
    simp only [hpos, if_false, gt_iff_lt, not_le.mp hpos, if_true, hwrap]

theorem readUserKey_fields_witness :
    readUserKey demoVerify demoDecrypt 1000 keyThirtyDays
      = .ok { Username := "u", URI := "v", IV := demoIV, SK := demoSK,
              Expiry := if (30 : Int) ≤ 0 then none else some (1000 + 30 * (24 * timeHour)) } :=
  readUserKey_fields demoVerify demoDecrypt 1000 keyThirtyDays keyThirtyDays.Key demoIV demoSK
    (asciiBytes "u,v,30") "u" "v" 30 (by decide) (by decide) (by decide) (by decide) (by decide)
    (by decide) (by decide) (by decide) (by decide) (by decide)

/-- C25, what the code does. When the signature verifies, the decryption succeeds and the
hex-decoded payload has fewer than 44 bytes, or its record has fewer than three
comma-separated fields, `readUserKey` does not return an error: it panics on a slice or an
index out of range. -/
theorem readUserKey_panics_on_short_payload (verify : String → String → Bool)
    (decrypt : String → Option String) (now : Int) (key : userKey) (d : String) (db : List Nat)
    (hv : verify key.Key key.Signature = true) (hd : decrypt key.Key = some d)
    (hx : hexDecode d.data = some db)
    (hshort : db.length < 44 ∨ (stringsSplit (bytesToString (db.drop 44))).length < 3) :
    readUserKey verify decrypt now key = .panics := by
  unfold readUserKey
  simp only [hv, Bool.not_true, Bool.false_eq_true, if_false, hd, hx]
  by_cases hlen : db.length < 44
  · simp only [hlen, if_true]
  · simp only [hlen, if_false]
    rcases hshort with h | h
    · exact absurd h hlen
    · split
      · rename_i p0 p1 p2 rest hparts
        rw [hparts] at h
        simp only [List.length_cons] at h
        omega
      · rfl

theorem readUserKey_panics_on_short_payload_witness :
    readUserKey demoVerify demoDecrypt 1000 keyNoDays = .panics :=
  readUserKey_panics_on_short_payload demoVerify demoDecrypt 1000 keyNoDays keyNoDays.Key
    (demoIV ++ demoSK ++ asciiBytes "u,v") (by decide) (by decide) (by decide)
    (Or.inr (by decide))

/-! ## C23: every job gives one result -/

theorem perm_cons_filter_ne {α κ : Type} [DecidableEq κ] (key : α → κ) :
    ∀ (l : List α) (q : α), (l.map key).Nodup → q ∈ l →
      l.Perm (q :: l.filter (fun x => decide (key x ≠ key q))) := by
  intro l
  induction l with
  | nil => intro q _ hq; cases hq
  | cons x l ih =>
    intro q hnd hq
    rw [List.map_cons, List.nodup_cons] at hnd
    by_cases hxq : key x = key q
    · have hq2 : q = x := by
        rcases List.mem_cons.mp hq with h | h
        · exact h
        · exact absurd (hxq ▸ List.mem_map_of_mem key h) hnd.1
      subst hq2
      rw [List.filter_cons_of_neg (by simp)]
      have : l.filter (fun x => decide (key x ≠ key q)) = l := by
        apply List.filter_eq_self.mpr
        intro y hy
        have : key y ≠ key q := fun e => hnd.1 (e ▸ List.mem_map_of_mem key hy)
        simpa using this
      rw [this]
    · have hq2 : q ∈ l := by
        rcases List.mem_cons.mp hq with h | h
        · exact absurd (h ▸ rfl) hxq
        · exact h
      rw [List.filter_cons_of_pos (by simpa using hxq)]
      exact ((ih q hnd.2 hq2).cons x).trans (List.Perm.swap q x _)

/-- In a folder that holds nothing but regular files of one extension, `lsJobs` puts one of
them first. -/
theorem firstWithExt_of_all (S : SliceSorter) (ext : String) (d : Dir) (hne : d ≠ [])
    (hall : ∀ x ∈ d, x.isDir = false ∧ pathExt x.name = ext) :
    ∃ f ∈ d, firstWithExt ext (lsJobs S d) = some f := by
  unfold lsJobs
  have hperm := S.perm d
  cases hl : S.sort d with
  | nil =>
    rw [hl] at hperm
    exact absurd (List.Perm.nil_eq hperm) (fun e => hne e.symm)
  | cons h t =>
    rw [hl] at hperm
    have hh : h ∈ d := hperm.subset (List.mem_cons_self h t)
    refine ⟨h, hh, ?_⟩
    unfold firstWithExt
    rw [List.find?_cons_of_pos]
    have := hall h hh
    simp [this.1, this.2]

theorem lsJobs_nil (S : SliceSorter) : lsJobs S [] = [] := by
  unfold lsJobs
  exact List.Perm.eq_nil (S.perm [])

/-- One turn of the worker on a queue with an empty data dir: the job that `peekJob` finds is
executed, its result is appended to the submit dir, its `.job` file is removed and the data
dir is empty again. -/
theorem drain_turn (S : SliceSorter) (J : Json) (exec : CmdInfo → String × Option String)
    (clock : Nat → Int) (n : Nat) (fs : FS) (p : CmdInfo × Int) (b rb : String)
    (hdata : fs.data = [])
    (hfirst : firstWithExt ".job" (lsJobs S fs.process) = some (jobEntry J p))
    (hlook : fs.process.lookup (jobFile p.1.JobId) = some (jobEntry J p))
    (hb : J.marshalCmd p.1 = some b) (hbne : b ≠ "") (hbdec : J.unmarshalCmd b = some p.1)
    (hrb : J.marshalResult (resultOf exec p.1) = some rb)
    (hsub : fs.submit.lookup (resultFile p.1.JobId) = none) :
    drain S J exec clock (n + 1) fs
      = (p.1 :: (drain S J exec clock n
            { data := [],
              process := fs.process.filter (fun x => decide (x.name ≠ jobFile p.1.JobId)),
              submit := fs.submit ++ [resultEntry J exec (p.1, clock n)] }).1,
          (drain S J exec clock n
            { data := [],
              process := fs.process.filter (fun x => decide (x.name ≠ jobFile p.1.JobId)),
              submit := fs.submit ++ [resultEntry J exec (p.1, clock n)] }).2) := by
  have hread : osReadFile fs.process (jobEntry J p).name = .ok b := by
    unfold osReadFile
    rw [jobEntry_name, hlook]
    simp [jobEntry, file, hb]
  have hmark : submittedMarkerExists fs p.1.JobId = false := by
    unfold submittedMarkerExists osStat
    rw [hdata]; rfl
  have hsm : startedMarker fs (some { file := jobEntry J p, cmd := some p.1 }) (clock n)
      = ({ fs with data := [file (startedFile p.1.JobId) (clock n) ""] }, none) := by
    simp only [startedMarker, osWriteFile, hdata, Dir.lookup, List.find?_nil, List.nil_append,
      file]
  have hpeek : peekJob S J (clock n) fs
      = some ({ fs with data := [file (startedFile p.1.JobId) (clock n) ""] },
          some { file := jobEntry J p, cmd := some p.1 }, none) := by
    rw [peekJob_unfold, peekJobStep_hand S J _ fs hfirst hread hbne hbdec hmark, hsm]
  have hne : startedFile p.1.JobId ≠ submittedFile p.1.JobId := startedFile_ne_submittedFile _ _
  have hid : (resultOf exec p.1).JobId = p.1.JobId := rfl
  have hw1 : osWriteFile fs.submit (resultFile p.1.JobId) rb (clock n)
      = .ok (fs.submit ++ [resultEntry J exec (p.1, clock n)]) := by
    unfold osWriteFile
    rw [hsub]
    simp only [resultEntry, hrb, Option.getD_some, file]
  have hw2 : osWriteFile [file (startedFile p.1.JobId) (clock n) ""] (submittedFile p.1.JobId) ""
      (clock n)
      = .ok [file (startedFile p.1.JobId) (clock n) "", file (submittedFile p.1.JobId) (clock n) ""] := by
    unfold osWriteFile
    simp only [lookup_cons, file]
    rw [if_neg hne]
    rfl
  have hr3 : osRemove
      [file (startedFile p.1.JobId) (clock n) "", file (submittedFile p.1.JobId) (clock n) ""]
      (startedFile p.1.JobId) = .ok [file (submittedFile p.1.JobId) (clock n) ""] := by
    unfold osRemove
    simp only [lookup_cons, file, if_true, Bool.false_eq_true, false_and, if_false]
    rw [List.filter_cons_of_neg (by simp), List.filter_cons_of_pos (by simpa using hne.symm)]
    rfl
  have hsubmit : submitJobResult J
      (FS.mk [file (startedFile p.1.JobId) (clock n) ""] fs.process fs.submit)
      (resultOf exec p.1) (clock n)
      = (FS.mk [file (submittedFile p.1.JobId) (clock n) ""] fs.process
          (fs.submit ++ [resultEntry J exec (p.1, clock n)]), none) := by
    unfold submitJobResult submittedMarker
    simp only [hrb, hid, hw1, hw2, hr3]
  have hrm : removeJob (FS.mk [file (submittedFile p.1.JobId) (clock n) ""] fs.process
        (fs.submit ++ [resultEntry J exec (p.1, clock n)])) p.1.JobId
      = (FS.mk [] (fs.process.filter (fun x => decide (x.name ≠ jobFile p.1.JobId)))
          (fs.submit ++ [resultEntry J exec (p.1, clock n)]), none) := by
    have hm : Dir.lookup [file (submittedFile p.1.JobId) (clock n) ""] (submittedFile p.1.JobId)
        = some (file (submittedFile p.1.JobId) (clock n) "") := by
      simp only [lookup_cons, file, if_true]
    rw [@removeJob_of_files (FS.mk [file (submittedFile p.1.JobId) (clock n) ""] fs.process
      (fs.submit ++ [resultEntry J exec (p.1, clock n)])) p.1.JobId _ _ hm rfl hlook rfl]
    simp only [purged]
    rw [List.filter_cons_of_neg (by simp [file])]
    rfl
  rw [drain]
  simp only [hpeek]
  have hres : (⟨p.1.JobId, (exec p.1).2.isNone, (exec p.1).1, (exec p.1).2.getD ""⟩ : JobResult)
      = resultOf exec p.1 := rfl
  simp only [hres, hsubmit, hrm]

theorem jobEntries_wf (J : Json) (rest : List (CmdInfo × Int))
    (h : (rest.map (fun p => p.1.JobId)).Nodup) : Dir.WF (rest.map (jobEntry J)) := by
  unfold Dir.WF
  have : List.map FileInfo.name (rest.map (jobEntry J))
      = (rest.map (fun p => p.1.JobId)).map jobFile := by
    simp only [List.map_map]
    rfl
  rw [this]
  exact List.Nodup.map (fun a b hab => jobFile_injective hab) h

theorem resultEntry_name (J : Json) (exec : CmdInfo → String × Option String)
    (p : CmdInfo × Int) : (resultEntry J exec p).name = resultFile p.1.JobId :=
  rfl

theorem resultEntries_wf (J : Json) (exec : CmdInfo → String × Option String)
    (outs : List (CmdInfo × Int)) (h : (outs.map (fun p => p.1.JobId)).Nodup) :
    Dir.WF (outs.map (resultEntry J exec)) := by
  unfold Dir.WF
  have : List.map FileInfo.name (outs.map (resultEntry J exec))
      = (outs.map (fun p => p.1.JobId)).map resultFile := by
    simp only [List.map_map]
    rfl
  rw [this]
  exact List.Nodup.map (fun a b hab => resultFile_injective hab) h

theorem filter_jobEntries (J : Json) (id : Int) :
    ∀ rest : List (CmdInfo × Int),
      (rest.map (jobEntry J)).filter (fun x => decide (x.name ≠ jobFile id))
        = (rest.filter (fun q => decide (q.1.JobId ≠ id))).map (jobEntry J) := by
  intro rest
  induction rest with
  | nil => rfl
  | cons q rest ih =>
    rw [List.map_cons]
    by_cases h : q.1.JobId = id
    · rw [List.filter_cons_of_neg (by simp [jobEntry_name, h]),
        List.filter_cons_of_neg (by simp [h]), ih]
    · have hn : (jobEntry J q).name ≠ jobFile id := by
        rw [jobEntry_name]
        exact fun e => h (jobFile_injective e)
      rw [List.filter_cons_of_pos (by simpa using hn),
        List.filter_cons_of_pos (by simpa using h), List.map_cons, ih]

theorem filter_resultEntries (J : Json) (exec : CmdInfo → String × Option String) (id : Int) :
    ∀ outs : List (CmdInfo × Int),
      (outs.map (resultEntry J exec)).filter (fun x => decide (x.name ≠ resultFile id))
        = (outs.filter (fun q => decide (q.1.JobId ≠ id))).map (resultEntry J exec) := by
  intro outs
  induction outs with
  | nil => rfl
  | cons q outs ih =>
    rw [List.map_cons]
    by_cases h : q.1.JobId = id
    · rw [List.filter_cons_of_neg (by simp [resultEntry_name, h]),
        List.filter_cons_of_neg (by simp [h]), ih]
    · have hn : (resultEntry J exec q).name ≠ resultFile id := by
        rw [resultEntry_name]
        exact fun e => h (resultFile_injective e)
      rw [List.filter_cons_of_pos (by simpa using hn),
        List.filter_cons_of_pos (by simpa using h), List.map_cons, ih]

theorem drain_empty (S : SliceSorter) (J : Json) (exec : CmdInfo → String × Option String)
    (clock : Nat → Int) (n : Nat) (fs : FS) (h : fs.process = []) :
    drain S J exec clock n fs = ([], fs) := by
  cases n with
  | zero => rfl
  | succ n =>
    have hpeek : peekJob S J (clock n) fs = some (fs, none, none) := by
      rw [peekJob_unfold]
      unfold peekJobStep
      rw [h, lsJobs_nil]
      rfl
    rw [drain]
    simp only [hpeek]

/-- The worker drains a queue of decodable commands with distinct ids, whatever their
modification times: every command is handed out, the process dir and the data dir end up
empty and the submit dir gains one result file for each command. -/
theorem drain_all (S : SliceSorter) (J : Json) (exec : CmdInfo → String × Option String)
    (clock : Nat → Int) :
    ∀ (n : Nat) (rest outs : List (CmdInfo × Int)) (fs : FS),
      rest.length ≤ n → fs.data = [] → fs.process = rest.map (jobEntry J) →
      fs.submit = outs.map (resultEntry J exec) →
      (rest.map (fun p => p.1.JobId)).Nodup →
      (∀ p ∈ rest, ∀ q ∈ outs, q.1.JobId ≠ p.1.JobId) →
      (∀ p ∈ rest, ∃ b, J.marshalCmd p.1 = some b ∧ b ≠ "" ∧ J.unmarshalCmd b = some p.1) →
      (∀ p ∈ rest, ∃ rb, J.marshalResult (resultOf exec p.1) = some rb) →
      ∃ outs2 : List (CmdInfo × Int),
        (drain S J exec clock n fs).2 = FS.mk [] [] ((outs ++ outs2).map (resultEntry J exec)) ∧
        (outs2.map Prod.fst).Perm (rest.map Prod.fst) ∧
        ((drain S J exec clock n fs).1).Perm (rest.map Prod.fst) := by
  intro n
  induction n with
  | zero =>
    intro rest outs fs hlen hdata hproc hsub _ _ _ _
    have hrest : rest = [] := List.eq_nil_of_length_eq_zero (by omega)
    subst hrest
    refine ⟨[], ?_, List.Perm.refl _, List.Perm.refl _⟩
    cases fs
    simp only at hdata hproc hsub
    simp only [drain, hdata, hproc, hsub, List.map_nil, List.append_nil]
  | succ n ih =>
    intro rest outs fs hlen hdata hproc hsub hnd hout hdec hres
    by_cases hrest : rest = []
    · subst hrest
      refine ⟨[], ?_, List.Perm.refl _, ?_⟩
      · rw [drain_empty S J exec clock _ fs (by rw [hproc]; rfl)]
        cases fs
        simp only at hdata hproc hsub
        simp only [hdata, hproc, hsub, List.map_nil, List.append_nil]
      · rw [drain_empty S J exec clock _ fs (by rw [hproc]; rfl)]
        exact List.Perm.refl _
    · -- the job that peekJob finds
      have hwf : fs.process.WF := by rw [hproc]; exact jobEntries_wf J rest hnd
      obtain ⟨f, hf, hfirst⟩ := firstWithExt_of_all S ".job" fs.process
        (by rw [hproc]; simpa using hrest)
        (by
          intro x hx
          rw [hproc] at hx
          obtain ⟨q, _, rfl⟩ := List.mem_map.mp hx
          exact ⟨rfl, pathExt_jobFile _⟩)
      have hf2 := hf
      rw [hproc] at hf2
      obtain ⟨p, hp, rfl⟩ := List.mem_map.mp hf2
      have hlook : fs.process.lookup (jobFile p.1.JobId) = some (jobEntry J p) := by
        have := lookup_of_mem hwf hf
        rwa [jobEntry_name] at this
      obtain ⟨b, hb, hbne, hbdec⟩ := hdec p hp
      obtain ⟨rb, hrb⟩ := hres p hp
      have hsublook : fs.submit.lookup (resultFile p.1.JobId) = none := by
        rw [lookup_eq_none, hsub]
        intro e he
        obtain ⟨q, hq, rfl⟩ := List.mem_map.mp he
        rw [resultEntry_name]
        exact fun e => hout p hp q hq (resultFile_injective e)
      have hturn := drain_turn S J exec clock n fs p b rb hdata hfirst hlook hb hbne hbdec hrb
        hsublook
      have hperm := perm_cons_filter_ne (fun q : CmdInfo × Int => q.1.JobId) rest p hnd hp
      have hlen2 : (rest.filter (fun x => decide (x.1.JobId ≠ p.1.JobId))).length ≤ n := by
        have := hperm.length_eq
        simp only [List.length_cons] at this
        omega
      obtain ⟨outs2, h1, h2, h3⟩ := ih (rest.filter (fun x => decide (x.1.JobId ≠ p.1.JobId)))
        (outs ++ [(p.1, clock n)])
        (FS.mk [] (fs.process.filter (fun x => decide (x.name ≠ jobFile p.1.JobId)))
          (fs.submit ++ [resultEntry J exec (p.1, clock n)]))
        hlen2 rfl
        (by simp only; rw [hproc, filter_jobEntries])
        (by simp only; rw [hsub, List.map_append]; rfl)
        (List.Nodup.sublist (List.Sublist.map _ (List.filter_sublist _)) hnd)
        (by
          intro q hq r hr
          have hq1 := List.mem_filter.mp hq
          rcases List.mem_append.mp hr with hr | hr
          · exact hout q hq1.1 r hr
          · rw [List.mem_singleton.mp hr]
            exact fun e => (by simpa using hq1.2 : q.1.JobId ≠ p.1.JobId) e.symm)
        (fun q hq => hdec q (List.mem_filter.mp hq).1)
        (fun q hq => hres q (List.mem_filter.mp hq).1)
      refine ⟨(p.1, clock n) :: outs2, ?_, ?_, ?_⟩
      · rw [hturn]
        simp only
        rw [h1]
        simp
      · rw [List.map_cons]
        exact ((h2.cons p.1).trans (List.Perm.map Prod.fst hperm).symm)
      · rw [hturn]
        simp only
        exact ((h3.cons p.1).trans (List.Perm.map Prod.fst hperm).symm)

theorem drainResults_empty (S : SliceSorter) (J : Json) (m : Nat) (fs : FS)
    (h : fs.submit = []) : drainResults S J m fs = ([], fs) := by
  cases m with
  | zero => rfl
  | succ m =>
    have hpeek : peekJobResult S J fs = .ok none := by
      unfold peekJobResult
      rw [h, lsJobs_nil]
      rfl
    rw [drainResults]
    simp only [hpeek]

/-- The delivery loop on a submit dir that holds one result file for each of the commands
`outs`, of distinct ids: it finds the result of each command once and empties the submit
dir. -/
theorem drainResults_all (S : SliceSorter) (J : Json) (exec : CmdInfo → String × Option String) :
    ∀ (m : Nat) (outs : List (CmdInfo × Int)) (fs : FS),
      outs.length ≤ m → fs.submit = outs.map (resultEntry J exec) →
      (outs.map (fun p => p.1.JobId)).Nodup →
      (∀ p ∈ outs, ∃ b, J.marshalResult (resultOf exec p.1) = some b ∧
        J.unmarshalResult b = some (some (resultOf exec p.1))) →
      (drainResults S J m fs).2 = { fs with submit := [] } ∧
      ((drainResults S J m fs).1).Perm (outs.map (fun p => resultOf exec p.1)) := by
  intro m
  induction m with
  | zero =>
    intro outs fs hlen hsub _ _
    have houts : outs = [] := List.eq_nil_of_length_eq_zero (by omega)
    subst houts
    refine ⟨?_, List.Perm.refl _⟩
    cases fs
    simp only at hsub
    simp only [drainResults, hsub, List.map_nil]
  | succ m ih =>
    intro outs fs hlen hsub hnd hres
    by_cases houts : outs = []
    · subst houts
      rw [drainResults_empty S J _ fs (by rw [hsub]; rfl)]
      refine ⟨?_, List.Perm.refl _⟩
      cases fs
      simp only at hsub
      simp only [hsub, List.map_nil]
    · have hwf : fs.submit.WF := by rw [hsub]; exact resultEntries_wf J exec outs hnd
      obtain ⟨f, hf, hfirst⟩ := firstWithExt_of_all S ".result" fs.submit
        (by rw [hsub]; simpa using houts)
        (by
          intro x hx
          rw [hsub] at hx
          obtain ⟨q, _, rfl⟩ := List.mem_map.mp hx
          exact ⟨rfl, pathExt_resultFile _⟩)
      have hf2 := hf
      rw [hsub] at hf2
      obtain ⟨q, hq, rfl⟩ := List.mem_map.mp hf2
      obtain ⟨rb, hrb, hdec⟩ := hres q hq
      have hbytes : (resultEntry J exec q).bytes = rb := by
        simp only [resultEntry, file, hrb, Option.getD_some]
      have hread : osReadFile fs.submit (resultEntry J exec q).name = .ok rb := by
        rw [← hbytes]
        exact osReadFile_of_mem hwf hf rfl
      have hpeek : peekJobResult S J fs = .ok (some (resultOf exec q.1)) := by
        unfold peekJobResult
        simp only [hfirst, hread, hdec]
      have hlook : fs.submit.lookup (resultFile (resultOf exec q.1).JobId)
          = some (resultEntry J exec q) := lookup_of_mem hwf hf
      have hrm : removeJobResult fs (resultOf exec q.1)
          = (FS.mk fs.data fs.process
              ((outs.filter (fun x => decide (x.1.JobId ≠ q.1.JobId))).map (resultEntry J exec)),
              none) := by
        unfold removeJobResult
        rw [osRemove_of_file hlook rfl, hsub]
        simp only
        rw [show (resultOf exec q.1).JobId = q.1.JobId from rfl, filter_resultEntries]
      have hperm := perm_cons_filter_ne (fun x : CmdInfo × Int => x.1.JobId) outs q hnd hq
      have hlen2 : (outs.filter (fun x => decide (x.1.JobId ≠ q.1.JobId))).length ≤ m := by
        have := hperm.length_eq
        simp only [List.length_cons] at this
        omega
      obtain ⟨h1, h2⟩ := ih (outs.filter (fun x => decide (x.1.JobId ≠ q.1.JobId)))
        (FS.mk fs.data fs.process
          ((outs.filter (fun x => decide (x.1.JobId ≠ q.1.JobId))).map (resultEntry J exec)))
        hlen2 rfl
        (List.Nodup.sublist (List.Sublist.map _ (List.filter_sublist _)) hnd)
        (fun x hx => hres x (List.mem_filter.mp hx).1)
      rw [drainResults]
      simp only [hpeek, hrm]
      refine ⟨h1, ?_⟩
      have hmap := List.Perm.map (fun p : CmdInfo × Int => resultOf exec p.1) hperm
      rw [List.map_cons] at hmap
      exact (h2.cons _).trans hmap.symm

/-- C23. For every finite list of commands with pairwise distinct job ids that encode to
decodable, non-empty job files and whose results can be encoded and read back, and every
executor: enqueueing them all on an empty queue and running the worker cycle (`peekJob`,
execute, `submitJobResult`, `removeJob`) for at least as many turns as there are commands
leaves the process dir (and the data dir) empty, so that `peekJob` finds nothing, and the
submit dir with exactly one `.result` file for each command, in some order, each holding the
result with the `JobId` of its command and `Success` true exactly when the executor returned
no error; repeated `peekJobResult` / `removeJobResult` then yields each of these results
exactly once and leaves the submit dir empty. -/
theorem worker_one_result_per_job (S : SliceSorter) (J : Json)
    (exec : CmdInfo → String × Option String) (clock : Nat → Int)
    (jobs : List (CmdInfo × Int)) (n m : Nat)
    (hn : jobs.length ≤ n) (hm : jobs.length ≤ m)
    (hdec : ∀ p ∈ jobs, ∃ b, J.marshalCmd p.1 = some b ∧ b ≠ "" ∧ J.unmarshalCmd b = some p.1)
    (hres : ∀ p ∈ jobs, ∃ b, J.marshalResult (resultOf exec p.1) = some b ∧
      J.unmarshalResult b = some (some (resultOf exec p.1)))
    (hids : (jobs.map (fun p => p.1.JobId)).Nodup) :
    ∃ outs : List (CmdInfo × Int),
      (drain S J exec clock n (enqueueAll J fsEmpty jobs)).2
        = FS.mk [] [] (outs.map (resultEntry J exec)) ∧
      (∀ t, peekJob S J t (drain S J exec clock n (enqueueAll J fsEmpty jobs)).2
        = some ((drain S J exec clock n (enqueueAll J fsEmpty jobs)).2, none, none)) ∧
      (outs.map Prod.fst).Perm (jobs.map Prod.fst) ∧
      (∀ p ∈ outs,
        (resultEntry J exec p).name = resultFile p.1.JobId ∧
        J.unmarshalResult (resultEntry J exec p).bytes = some (some (resultOf exec p.1)) ∧
        (resultOf exec p.1).JobId = p.1.JobId ∧
        ((resultOf exec p.1).Success = true ↔ (exec p.1).2 = none)) ∧
      ((drainResults S J m (drain S J exec clock n (enqueueAll J fsEmpty jobs)).2).1).Perm
        (jobs.map (fun p => resultOf exec p.1)) ∧
      (drainResults S J m (drain S J exec clock n (enqueueAll J fsEmpty jobs)).2).2 = fsEmpty := by
  have hpair : jobs.Pairwise (fun p q => p.1.JobId ≠ q.1.JobId) := by
    unfold List.Nodup at hids
    exact List.pairwise_map.mp hids
  have henq : enqueueAll J fsEmpty jobs = FS.mk [] (jobs.map (jobEntry J)) [] := by
    rw [enqueueAll_eq J jobs fsEmpty (fun p hp => (hdec p hp).imp fun b hb => hb.1) hpair
      (fun p _ => rfl)]
    rfl
  obtain ⟨outs, h1, h2, _⟩ := drain_all S J exec clock n jobs []
    (FS.mk [] (jobs.map (jobEntry J)) []) hn rfl rfl rfl hids
    (fun _ _ q hq => by cases hq) hdec (fun p hp => (hres p hp).imp fun b hb => hb.1)
  rw [List.nil_append] at h1
  have hmem : ∀ p ∈ outs, ∃ q ∈ jobs, q.1 = p.1 := by
    intro p hp
    have : p.1 ∈ jobs.map Prod.fst := h2.subset (List.mem_map_of_mem Prod.fst hp)
    obtain ⟨q, hq, hqp⟩ := List.mem_map.mp this
    exact ⟨q, hq, hqp⟩
  have hres2 : ∀ p ∈ outs, ∃ b, J.marshalResult (resultOf exec p.1) = some b ∧
      J.unmarshalResult b = some (some (resultOf exec p.1)) := by
    intro p hp
    obtain ⟨q, hq, hqp⟩ := hmem p hp
    rw [← hqp]
    exact hres q hq
  have hids2 : (outs.map (fun p => p.1.JobId)).Nodup := by
    have e1 : outs.map (fun p => p.1.JobId) = (outs.map Prod.fst).map CmdInfo.JobId := by
      rw [List.map_map]; rfl
    have e2 : jobs.map (fun p => p.1.JobId) = (jobs.map Prod.fst).map CmdInfo.JobId := by
      rw [List.map_map]; rfl
    rw [e1]
    rw [e2] at hids
    exact ((h2.map CmdInfo.JobId).nodup_iff).mpr hids
  obtain ⟨h3, h4⟩ := drainResults_all S J exec m outs (FS.mk [] [] (outs.map (resultEntry J exec)))
    (by
      have := h2.length_eq
      simp only [List.length_map] at this
      omega) rfl hids2 hres2
  rw [henq, h1]
  refine ⟨outs, rfl, ?_, h2, ?_, ?_, h3⟩
  · intro t
    rw [peekJob_unfold]
    unfold peekJobStep
    simp only [lsJobs_nil]
    rfl
  · intro p hp
    obtain ⟨b, hb1, hb2⟩ := hres2 p hp
    refine ⟨rfl, ?_, rfl, ?_⟩
    · simp only [resultEntry, file, hb1, Option.getD_some, hb2]
    · simp only [resultOf, Option.isNone_iff_eq_none]
  · have e : outs.map (fun p => resultOf exec p.1) = (outs.map Prod.fst).map (resultOf exec) := by
      rw [List.map_map]; rfl
    have e2 : jobs.map (fun p => resultOf exec p.1) = (jobs.map Prod.fst).map (resultOf exec) := by
      rw [List.map_map]; rfl
    rw [e2]
    rw [e] at h4
    exact h4.trans (h2.map (resultOf exec))

theorem worker_one_result_per_job_witness :
    ∃ outs : List (CmdInfo × Int),
      (drain goSorter demoJson demoExec (fun n => 100 - n) 2
          (enqueueAll demoJson fsEmpty demoJobs)).2
        = FS.mk [] [] (outs.map (resultEntry demoJson demoExec)) ∧
      (∀ t, peekJob goSorter demoJson t
          (drain goSorter demoJson demoExec (fun n => 100 - n) 2
            (enqueueAll demoJson fsEmpty demoJobs)).2
        = some ((drain goSorter demoJson demoExec (fun n => 100 - n) 2
            (enqueueAll demoJson fsEmpty demoJobs)).2, none, none)) ∧
      (outs.map Prod.fst).Perm (demoJobs.map Prod.fst) ∧
      (∀ p ∈ outs,
        (resultEntry demoJson demoExec p).name = resultFile p.1.JobId ∧
        demoJson.unmarshalResult (resultEntry demoJson demoExec p).bytes
          = some (some (resultOf demoExec p.1)) ∧
        (resultOf demoExec p.1).JobId = p.1.JobId ∧
        ((resultOf demoExec p.1).Success = true ↔ (demoExec p.1).2 = none)) ∧
      ((drainResults goSorter demoJson 2
          (drain goSorter demoJson demoExec (fun n => 100 - n) 2
            (enqueueAll demoJson fsEmpty demoJobs)).2).1).Perm
        (demoJobs.map (fun p => resultOf demoExec p.1)) ∧
      (drainResults goSorter demoJson 2
          (drain goSorter demoJson demoExec (fun n => 100 - n) 2
            (enqueueAll demoJson fsEmpty demoJobs)).2).2 = fsEmpty :=
  worker_one_result_per_job goSorter demoJson demoExec (fun n => 100 - n) demoJobs 2 2
    (by decide) (by decide)
    (by
      intro p hp
      simp only [demoJobs, List.mem_cons, List.mem_singleton, List.not_mem_nil, or_false] at hp
      rcases hp with rfl | rfl
      · exact ⟨"cmd 2", by decide, by decide, by decide⟩
      · exact ⟨"cmd 1", by decide, by decide, by decide⟩)
    (by
      intro p hp
      simp only [demoJobs, List.mem_cons, List.mem_singleton, List.not_mem_nil, or_false] at hp
      rcases hp with rfl | rfl
      · exact ⟨"res 2", by decide, by decide⟩
      · exact ⟨"res 1", by decide, by decide⟩)
    (by decide)

/-! ## C2: first in, first out, whatever the order of the listing -/

/-- In a folder of regular files of one extension, listed in any order, the entry that is
strictly older than every other one comes first in `lsJobs`. -/
theorem firstWithExt_oldest_perm (S : SliceSorter) (ext : String) (d : Dir) (e : FileInfo)
    (rest : List FileInfo) (hd : d.Perm (e :: rest))
    (hall : ∀ x ∈ e :: rest, x.isDir = false ∧ pathExt x.name = ext)
    (hmin : ∀ x ∈ rest, e.modTime < x.modTime) :
    firstWithExt ext (lsJobs S d) = some e := by
  unfold lsJobs
  have hperm := (S.perm d).trans hd
  have hsorted := S.sorted d
  cases hl : S.sort d with
  | nil =>
    rw [hl] at hperm
    exact absurd hperm.length_eq (by simp)
  | cons h t =>
    rw [hl] at hperm hsorted
    have hh : h ∈ e :: rest := hperm.subset (List.mem_cons_self h t)
    have hhe : h = e := by
      rcases List.mem_cons.mp hh with h1 | h1
      · exact h1
      · exfalso
        have hlt := hmin h h1
        have he : e ∈ h :: t := hperm.symm.subset (List.mem_cons_self e rest)
        rcases List.mem_cons.mp he with h2 | h2
        · rw [h2] at hlt; exact lt_irrefl _ hlt
        · have := (List.pairwise_cons.mp hsorted).1 e h2
          omega
    subst hhe
    unfold firstWithExt
    rw [List.find?_cons_of_pos]
    have := hall h (List.mem_cons_self h rest)
    simp [this.1, this.2]

/-- The worker drains a queue of decodable commands with strictly increasing modification
times, listed in any order, in the order of these times, and empties it. -/
theorem drain_queue (S : SliceSorter) (J : Json) (exec : CmdInfo → String × Option String)
    (clock : Nat → Int) (hres : ∀ r, ∃ b, J.marshalResult r = some b) :
    ∀ (rest : List (CmdInfo × Int)) (fs : FS),
      fs.process.Perm (rest.map (jobEntry J)) →
      (∀ p ∈ rest, ∃ b, J.marshalCmd p.1 = some b ∧ b ≠ "" ∧ J.unmarshalCmd b = some p.1) →
      rest.Pairwise (fun p q => p.1.JobId ≠ q.1.JobId) →
      rest.Pairwise (fun p q => p.2 < q.2) →
      (∀ p ∈ rest, fs.data.lookup (submittedFile p.1.JobId) = none ∧
        fs.data.lookup (startedFile p.1.JobId) = none) →
      (∀ p ∈ rest, ∀ e, fs.submit.lookup (resultFile p.1.JobId) = some e → e.isDir = false) →
      (drain S J exec clock rest.length fs).1 = rest.map Prod.fst ∧
      (drain S J exec clock rest.length fs).2.process = [] := by
  intro rest
  induction rest with
  | nil =>
    intro fs hp _ _ _ _ _
    simp only [List.length_nil, drain, List.map_nil, true_and]
    exact hp.eq_nil
  | cons p rest ih =>
    intro fs hp hdec hids htimes hdata hsub
    obtain ⟨b, hb, hbne, hbdec⟩ := hdec p (List.mem_cons_self _ _)
    obtain ⟨hsubm, hstart⟩ := hdata p (List.mem_cons_self _ _)
    have hidp := (List.pairwise_cons.mp hids).1
    have htp := (List.pairwise_cons.mp htimes).1
    have hproc : fs.process.Perm (jobEntry J p :: rest.map (jobEntry J)) := by
      rw [← List.map_cons]; exact hp
    have hnd : ((p :: rest).map (fun q => q.1.JobId)).Nodup := by
      unfold List.Nodup
      exact List.pairwise_map.mpr hids
    have hwf : fs.process.WF := by
      unfold Dir.WF
      exact ((hp.map FileInfo.name).nodup_iff).mpr (jobEntries_wf J (p :: rest) hnd)
    -- the oldest job comes first, wherever it stands in the listing
    have hfirst : firstWithExt ".job" (lsJobs S fs.process) = some (jobEntry J p) := by
      apply firstWithExt_oldest_perm S ".job" fs.process _ _ hproc
      · intro x hx
        rw [← List.map_cons] at hx
        obtain ⟨q, _, rfl⟩ := List.mem_map.mp hx
        exact ⟨rfl, pathExt_jobFile _⟩
      · intro x hx
        obtain ⟨q, hq, rfl⟩ := List.mem_map.mp hx
        exact htp q hq
    have hmem : jobEntry J p ∈ fs.process := hproc.symm.subset (List.mem_cons_self _ _)
    have hlook : fs.process.lookup (jobFile p.1.JobId) = some (jobEntry J p) := by
      have := lookup_of_mem hwf hmem
      rwa [jobEntry_name] at this
    have hread : osReadFile fs.process (jobEntry J p).name = .ok b := by
      unfold osReadFile
      rw [jobEntry_name, hlook]
      simp [jobEntry, file, hb]
    have hmark : submittedMarkerExists fs p.1.JobId = false := by
      unfold submittedMarkerExists osStat
      rw [hsubm]; rfl
    -- peekJob hands it out and writes the started marker
    have hsm : startedMarker fs (some { file := jobEntry J p, cmd := some p.1 }) (clock rest.length)
        = ({ fs with data := fs.data ++ [file (startedFile p.1.JobId) (clock rest.length) ""] },
            none) := by
      simp only [startedMarker, osWriteFile, hstart, file]
    have hpeek : peekJob S J (clock rest.length) fs
        = some ({ fs with data := fs.data ++ [file (startedFile p.1.JobId) (clock rest.length) ""] },
            some { file := jobEntry J p, cmd := some p.1 }, none) := by
      rw [peekJob_unfold, peekJobStep_hand S J _ fs hfirst hread hbne hbdec hmark, hsm]
    -- the result is submitted
    obtain ⟨rb, hrb⟩ := hres
      { JobId := p.1.JobId, Success := (exec p.1).2.isNone, Output := (exec p.1).1,
        Error := (exec p.1).2.getD "" }
    obtain ⟨fs2, hsubmit, h2p, h2s, ⟨m, hm, hmd⟩, h2d⟩ := submitJobResult_ok J
      { fs with data := fs.data ++ [file (startedFile p.1.JobId) (clock rest.length) ""] }
      { JobId := p.1.JobId, Success := (exec p.1).2.isNone, Output := (exec p.1).1,
        Error := (exec p.1).2.getD "" } (clock rest.length) rb hrb
      (hsub p (List.mem_cons_self _ _))
      (by
        intro e he
        simp only at he
        rw [lookup_append, hsubm, lookup_cons, if_neg] at he
        · cases he
        · exact startedFile_ne_submittedFile _ _)
    simp only at h2p h2s hm h2d
    -- the job is removed
    have hrm : removeJob fs2 p.1.JobId = (purged fs2 p.1.JobId, none) :=
      removeJob_of_files hm hmd (by rw [h2p]; exact hlook) rfl
    have hdrain : drain S J exec clock (rest.length + 1) fs
        = (p.1 :: (drain S J exec clock rest.length (purged fs2 p.1.JobId)).1,
            (drain S J exec clock rest.length (purged fs2 p.1.JobId)).2) := by
      rw [drain]
      simp only [hpeek, hsubmit, hrm]
    -- the rest of the queue, in the order the listing has it
    have hpurged : (purged fs2 p.1.JobId).process.Perm (rest.map (jobEntry J)) := by
      simp only [purged, h2p]
      have hfil := hproc.filter (fun x => decide (x.name ≠ jobFile p.1.JobId))
      rw [List.filter_cons_of_neg (by simp [jobEntry_name])] at hfil
      have hself : List.filter (fun x => decide (x.name ≠ jobFile p.1.JobId))
          (rest.map (jobEntry J)) = rest.map (jobEntry J) := by
        apply List.filter_eq_self.mpr
        intro x hx
        obtain ⟨q, hq, rfl⟩ := List.mem_map.mp hx
        simp only [jobEntry_name, ne_eq, decide_eq_true_eq]
        exact fun hn => hidp q hq (jobFile_injective hn).symm
      rw [hself] at hfil
      exact hfil
    have hrest := ih (purged fs2 p.1.JobId) hpurged
      (fun q hq => hdec q (List.mem_cons_of_mem _ hq))
      (List.pairwise_cons.mp hids).2 (List.pairwise_cons.mp htimes).2
      (by
        intro q hq
        have hne : q.1.JobId ≠ p.1.JobId := fun h => hidp q hq h.symm
        obtain ⟨hq1, hq2⟩ := hdata q (List.mem_cons_of_mem _ hq)
        have hsub_ne : submittedFile q.1.JobId ≠ submittedFile p.1.JobId :=
          fun h => hne (submittedFile_injective h)
        have hst_ne : startedFile q.1.JobId ≠ startedFile p.1.JobId :=
          fun h => hne (startedFile_injective h)
        constructor
        · show Dir.lookup (List.filter _ fs2.data) _ = none
          rw [lookup_filter_ne _ _ _ hsub_ne,
            h2d _ hsub_ne (fun h => startedFile_ne_submittedFile _ _ h.symm),
            lookup_append, hq1, lookup_cons, if_neg]
          · rfl
          · exact startedFile_ne_submittedFile _ _
        · show Dir.lookup (List.filter _ fs2.data) _ = none
          rw [lookup_filter_ne _ _ _ (startedFile_ne_submittedFile _ _),
            h2d _ (startedFile_ne_submittedFile _ _) hst_ne,
            lookup_append, hq2, lookup_cons, if_neg]
          · rfl
          · exact fun h => hst_ne h.symm)
      (by
        intro q hq e he
        have hne : q.1.JobId ≠ p.1.JobId := fun h => hidp q hq h.symm
        have he2 : fs2.submit.lookup (resultFile q.1.JobId) = some e := he
        rw [osWriteFile_lookup_ne h2s (fun h => hne (resultFile_injective h))] at he2
        exact hsub q (List.mem_cons_of_mem _ hq) e he2)
    rw [List.length_cons, hdrain]
    exact ⟨by rw [List.map_cons, hrest.1], hrest.2⟩

/-- C2. Commands with pairwise distinct job ids that encode to decodable, non-empty job files,
enqueued on an empty queue with strictly increasing modification times and no marker in the
way: in whatever order the process dir lists their files (any permutation of the entries
that `addJob` wrote), the cycle `peekJob`, `submitJobResult`, `removeJob` hands the commands
out in the order they were enqueued, and the queue ends up empty. -/
theorem worker_fifo (S : SliceSorter) (J : Json) (exec : CmdInfo → String × Option String)
    (clock : Nat → Int) (jobs : List (CmdInfo × Int)) (fs0 fs : FS)
    (hres : ∀ r, ∃ b, J.marshalResult r = some b)
    (hproc : fs0.process = [])
    (hlisted : fs.process.Perm (enqueueAll J fs0 jobs).process)
    (hsame : fs.data = fs0.data ∧ fs.submit = fs0.submit)
    (hdec : ∀ p ∈ jobs, ∃ b, J.marshalCmd p.1 = some b ∧ b ≠ "" ∧ J.unmarshalCmd b = some p.1)
    (hids : jobs.Pairwise (fun p q => p.1.JobId ≠ q.1.JobId))
    (htimes : jobs.Pairwise (fun p q => p.2 < q.2))
    (hdata : ∀ p ∈ jobs, fs0.data.lookup (submittedFile p.1.JobId) = none ∧
      fs0.data.lookup (startedFile p.1.JobId) = none)
    (hsub : ∀ p ∈ jobs, ∀ e, fs0.submit.lookup (resultFile p.1.JobId) = some e → e.isDir = false) :
    (drain S J exec clock jobs.length fs).1 = jobs.map Prod.fst ∧
    (drain S J exec clock jobs.length fs).2.process = [] := by
  have henq : enqueueAll J fs0 jobs = { fs0 with process := jobs.map (jobEntry J) } := by
    rw [enqueueAll_eq J jobs fs0 (fun p hp => (hdec p hp).imp fun b hb => hb.1) hids
      (fun p _ => by rw [hproc]; rfl), hproc, List.nil_append]
  rw [henq] at hlisted
  exact drain_queue S J exec clock hres jobs fs hlisted hdec hids htimes
    (by rw [hsame.1]; exact hdata) (by rw [hsame.2]; exact hsub)

theorem worker_fifo_witness :
    fsListedByName.process ≠ (enqueueAll demoJson fsEmpty demoJobs).process ∧
    (drain goSorter demoJson demoExec (fun n => 100 - n) demoJobs.length fsListedByName).1
      = [demoCmd 2, demoCmd 1] ∧
    (drain goSorter demoJson demoExec (fun n => 100 - n) demoJobs.length
      fsListedByName).2.process = [] :=
  ⟨by decide,
    worker_fifo goSorter demoJson demoExec (fun n => 100 - n) demoJobs fsEmpty fsListedByName
      (fun r => ⟨_, rfl⟩) rfl (List.Perm.swap _ _ _) ⟨rfl, rfl⟩
      (by
        intro p hp
        simp only [demoJobs, List.mem_cons, List.mem_singleton, List.not_mem_nil, or_false] at hp
        rcases hp with rfl | rfl
        · exact ⟨"cmd 2", by decide, by decide, by decide⟩
        · exact ⟨"cmd 1", by decide, by decide, by decide⟩)
      (by decide) (by decide) (by decide) (by decide)⟩

end Piloth
